import Mathlib

/-! UglifyJS2 foundation layer: AST walker, rewrite combinator and utilities.

A shallow embedding of `lib/ast-comments.js` and `lib/utils-comments.js`:

* the node kinds registered through `DEFNODE` and the per-kind `_walk` methods,
* `TreeWalker` (`_visit`, `push`, `pop`, `parent`, `self`, `find_parent`,
  `in_boolean_context`, `loopcontrol_target`),
* `MAP` with its `skip` / `splice` / `at_top` / `last` markers,
* `mergeSort`,
* `makePredicate`,
* `AST_Seq` (`cons`, `from_array`, `to_array`, `add`),
* `DEFNODE` and the constructors it generates, with the `DEFNODE` calls of the file,
* `Dictionary`,
* `defaults`, on a store of objects.

JavaScript arrays are lists in index order, an uncaught `TypeError` or
`SyntaxError` is `none` (in `defaults` it is the outcome `typeError`), and the identity
of a node object is its `addr` field.
A JavaScript string is a `String` whose characters stand for its code units, so that
`String.length` is the string's `length`.
-/

namespace UglifyJS

/-! ## JavaScript values -/

/-- The JavaScript values a visitor callback or a generated predicate hands back. -/
inductive JSValue where
  | undefined
  | null
  | bool (b : Bool)
  | number (n : Int)
  | string (s : String)
  deriving DecidableEq, Repr

/-- ToBoolean of a value: what `!ret` and `if (ret)` look at. -/
def JSValue.truthy : JSValue → Bool
  | .undefined => false
  | .null => false
  | .bool b => b
  | .number n => n != 0
  | .string s => s != ""

/-! ## Node kinds (one per `DEFNODE` call that derives from `AST_Node`) -/

/-- The node kinds, named by the `type` argument of their `DEFNODE` call. -/
inductive Kind where
  | Node | Statement | Debugger | Directive | SimpleStatement | Block | BlockStatement
  | Scope | Toplevel | Lambda | Accessor | Function | Defun | Switch | SwitchBranch
  | Default | Case | Try | Catch | Finally | EmptyStatement | StatementWithBody
  | LabeledStatement | DWLoop | Do | While | For | ForIn | With | If | Jump | Exit
  | Return | Throw | LoopControl | Break | Continue | Definitions | Var | Const
  | VarDef | Call | New | Seq | PropAccess | Dot | Sub | Unary | UnaryPrefix
  | UnaryPostfix | Binary | Assign | Conditional | Array | Object | ObjectProperty
  | ObjectKeyVal | ObjectSetter | ObjectGetter | Symbol | SymbolAccessor
  | SymbolDeclaration | SymbolVar | SymbolFunarg | SymbolConst | SymbolDefun
  | SymbolLambda | SymbolCatch | Label | SymbolRef | LabelRef | This | Constant
  | String | Number | RegExp | Atom | Null | NaN | Undefined | Infinity | Boolean
  | False | True
  deriving DecidableEq, Repr

/-- The `base` argument of the kind's `DEFNODE` call (`ctor.BASE`); `AST_Node` has none. -/
def Kind.BASE : Kind → Option Kind
  | .Node => none
  | .Statement => some .Node
  | .Debugger => some .Statement
  | .Directive => some .Statement
  | .SimpleStatement => some .Statement
  | .Block => some .Statement
  | .BlockStatement => some .Block
  | .Scope => some .Block
  | .Toplevel => some .Scope
  | .Lambda => some .Scope
  | .Accessor => some .Lambda
  | .Function => some .Lambda
  | .Defun => some .Lambda
  | .Switch => some .Block
  | .SwitchBranch => some .Block
  | .Default => some .SwitchBranch
  | .Case => some .SwitchBranch
  | .Try => some .Block
  | .Catch => some .Block
  | .Finally => some .Block
  | .EmptyStatement => some .Statement
  | .StatementWithBody => some .Statement
  | .LabeledStatement => some .StatementWithBody
  | .DWLoop => some .StatementWithBody
  | .Do => some .DWLoop
  | .While => some .DWLoop
  | .For => some .StatementWithBody
  | .ForIn => some .StatementWithBody
  | .With => some .StatementWithBody
  | .If => some .StatementWithBody
  | .Jump => some .Statement
  | .Exit => some .Jump
  | .Return => some .Exit
  | .Throw => some .Exit
  | .LoopControl => some .Jump
  | .Break => some .LoopControl
  | .Continue => some .LoopControl
  | .Definitions => some .Statement
  | .Var => some .Definitions
  | .Const => some .Definitions
  | .VarDef => some .Node
  | .Call => some .Node
  | .New => some .Call
  | .Seq => some .Node
  | .PropAccess => some .Node
  | .Dot => some .PropAccess
  | .Sub => some .PropAccess
  | .Unary => some .Node
  | .UnaryPrefix => some .Unary
  | .UnaryPostfix => some .Unary
  | .Binary => some .Node
  | .Assign => some .Binary
  | .Conditional => some .Node
  | .Array => some .Node
  | .Object => some .Node
  | .ObjectProperty => some .Node
  | .ObjectKeyVal => some .ObjectProperty
  | .ObjectSetter => some .ObjectProperty
  | .ObjectGetter => some .ObjectProperty
  | .Symbol => some .Node
  | .SymbolAccessor => some .Symbol
  | .SymbolDeclaration => some .Symbol
  | .SymbolVar => some .SymbolDeclaration
  | .SymbolFunarg => some .SymbolVar
  | .SymbolConst => some .SymbolDeclaration
  | .SymbolDefun => some .SymbolDeclaration
  | .SymbolLambda => some .SymbolDeclaration
  | .SymbolCatch => some .SymbolDeclaration
  | .Label => some .Symbol
  | .SymbolRef => some .Symbol
  | .LabelRef => some .Symbol
  | .This => some .Symbol
  | .Constant => some .Node
  | .String => some .Constant
  | .Number => some .Constant
  | .RegExp => some .Constant
  | .Atom => some .Constant
  | .Null => some .Atom
  | .NaN => some .Atom
  | .Undefined => some .Atom
  | .Infinity => some .Atom
  | .Boolean => some .Atom
  | .False => some .Boolean
  | .True => some .Boolean

/-- Walk up the prototype chain for at most `fuel` links looking for `c`. -/
def Kind.instanceofAux (c : Kind) : Nat → Kind → Bool
  | 0, k => k == c
  | fuel + 1, k =>
    if k == c then true
    else match k.BASE with
      | none => false
      | some b => Kind.instanceofAux c fuel b

/-- The test `x instanceof AST_c` for an object `x` of kind `k`. The deepest chain
(`SymbolFunarg`, `Accessor`, ...) has five links, so eight links always reach the root. -/
def Kind.instanceof (k c : Kind) : Bool :=
  Kind.instanceofAux c 8 k

/-! ## Nodes

One constructor per `_walk` method. Kinds that inherit their `_walk` from a base
kind share the base kind's constructor and are told apart by a tag. Only the
fields that the modelled operations read are kept (`start`, `end` and the
scope bookkeeping fields are left out).
-/

/-- Kinds whose `_walk` is `AST_Node`'s (`visitor._visit(this)`, no descent), together
with `EmptyStatement`, whose own `_walk` is the same. -/
inductive LeafKind where
  | Node | Statement | Debugger | Directive | EmptyStatement | Jump | PropAccess
  | Symbol | SymbolAccessor | SymbolDeclaration | SymbolVar | SymbolFunarg
  | SymbolConst | SymbolDefun | SymbolLambda | SymbolCatch | Label | SymbolRef
  | LabelRef | This | Constant | String | Number | RegExp | Atom | Null | NaN
  | Undefined | Infinity | Boolean | False | True
  deriving DecidableEq, Repr

/-- Kinds that use `AST_Block`'s `_walk`. -/
inductive BlockKind where
  | Block | BlockStatement | Scope | Toplevel | SwitchBranch | Default | Finally
  deriving DecidableEq, Repr

/-- Kinds that use `AST_Lambda`'s `_walk`. -/
inductive LambdaKind where
  | Lambda | Accessor | Function | Defun
  deriving DecidableEq, Repr

/-- Kinds that use `AST_DWLoop`'s `_walk`. -/
inductive DWLoopKind where
  | DWLoop | Do | While
  deriving DecidableEq, Repr

/-- Kinds that use `AST_Exit`'s `_walk`. -/
inductive ExitKind where
  | Exit | Return | Throw
  deriving DecidableEq, Repr

/-- Kinds that use `AST_LoopControl`'s `_walk`. -/
inductive LoopControlKind where
  | LoopControl | Break | Continue
  deriving DecidableEq, Repr

/-- Kinds that use `AST_Definitions`'s `_walk`. -/
inductive DefinitionsKind where
  | Definitions | Var | Const
  deriving DecidableEq, Repr

/-- Kinds that use `AST_Call`'s `_walk`. -/
inductive CallKind where
  | Call | New
  deriving DecidableEq, Repr

/-- Kinds that use `AST_Unary`'s `_walk`. -/
inductive UnaryKind where
  | Unary | UnaryPrefix | UnaryPostfix
  deriving DecidableEq, Repr

/-- Kinds that use `AST_Binary`'s `_walk`. -/
inductive BinaryKind where
  | Binary | Assign
  deriving DecidableEq, Repr

/-- Kinds that use `AST_ObjectProperty`'s `_walk`. -/
inductive ObjectPropertyKind where
  | ObjectProperty | ObjectKeyVal | ObjectSetter | ObjectGetter
  deriving DecidableEq, Repr

def LeafKind.toKind : LeafKind → Kind
  | .Node => .Node | .Statement => .Statement | .Debugger => .Debugger
  | .Directive => .Directive | .EmptyStatement => .EmptyStatement | .Jump => .Jump
  | .PropAccess => .PropAccess | .Symbol => .Symbol | .SymbolAccessor => .SymbolAccessor
  | .SymbolDeclaration => .SymbolDeclaration | .SymbolVar => .SymbolVar
  | .SymbolFunarg => .SymbolFunarg | .SymbolConst => .SymbolConst
  | .SymbolDefun => .SymbolDefun | .SymbolLambda => .SymbolLambda
  | .SymbolCatch => .SymbolCatch | .Label => .Label | .SymbolRef => .SymbolRef
  | .LabelRef => .LabelRef | .This => .This | .Constant => .Constant
  | .String => .String | .Number => .Number | .RegExp => .RegExp | .Atom => .Atom
  | .Null => .Null | .NaN => .NaN | .Undefined => .Undefined | .Infinity => .Infinity
  | .Boolean => .Boolean | .False => .False | .True => .True

def BlockKind.toKind : BlockKind → Kind
  | .Block => .Block | .BlockStatement => .BlockStatement | .Scope => .Scope
  | .Toplevel => .Toplevel | .SwitchBranch => .SwitchBranch | .Default => .Default
  | .Finally => .Finally

def LambdaKind.toKind : LambdaKind → Kind
  | .Lambda => .Lambda | .Accessor => .Accessor | .Function => .Function | .Defun => .Defun

def DWLoopKind.toKind : DWLoopKind → Kind
  | .DWLoop => .DWLoop | .Do => .Do | .While => .While

def ExitKind.toKind : ExitKind → Kind
  | .Exit => .Exit | .Return => .Return | .Throw => .Throw

def LoopControlKind.toKind : LoopControlKind → Kind
  | .LoopControl => .LoopControl | .Break => .Break | .Continue => .Continue

def DefinitionsKind.toKind : DefinitionsKind → Kind
  | .Definitions => .Definitions | .Var => .Var | .Const => .Const

def CallKind.toKind : CallKind → Kind
  | .Call => .Call | .New => .New

def UnaryKind.toKind : UnaryKind → Kind
  | .Unary => .Unary | .UnaryPrefix => .UnaryPrefix | .UnaryPostfix => .UnaryPostfix

def BinaryKind.toKind : BinaryKind → Kind
  | .Binary => .Binary | .Assign => .Assign

def ObjectPropertyKind.toKind : ObjectPropertyKind → Kind
  | .ObjectProperty => .ObjectProperty | .ObjectKeyVal => .ObjectKeyVal
  | .ObjectSetter => .ObjectSetter | .ObjectGetter => .ObjectGetter

mutual
/-- An AST node. `addr` is the identity of the JavaScript object; `text` is the string
payload of a leaf (a symbol's `name`, a literal's or directive's `value`). -/
inductive Node where
  | leaf (addr : Nat) (k : LeafKind) (text : String)
  | SimpleStatement (addr : Nat) (body : Node)
  | Block (addr : Nat) (k : BlockKind) (body : Body)
  | Lambda (addr : Nat) (k : LambdaKind) (name : Option Node) (argnames : List Node)
      (body : Body)
  | Switch (addr : Nat) (expression : Node) (body : Body)
  | Case (addr : Nat) (expression : Node) (body : Body)
  | Try (addr : Nat) (body : Body) (bcatch : Option Node) (bfinally : Option Node)
  | Catch (addr : Nat) (argname : Node) (body : Body)
  | StatementWithBody (addr : Nat) (body : Node)
  | LabeledStatement (addr : Nat) (label : Node) (body : Node)
  | DWLoop (addr : Nat) (k : DWLoopKind) (condition : Node) (body : Node)
  | For (addr : Nat) (init : Option Node) (condition : Option Node) (step : Option Node)
      (body : Node)
  | ForIn (addr : Nat) (init : Node) (name : Option Node) (object : Node) (body : Node)
  | With (addr : Nat) (expression : Node) (body : Node)
  | If (addr : Nat) (condition : Node) (body : Node) (alternative : Option Node)
  | Exit (addr : Nat) (k : ExitKind) (value : Option Node)
  | LoopControl (addr : Nat) (k : LoopControlKind) (label : Option Node)
  | Definitions (addr : Nat) (k : DefinitionsKind) (definitions : List Node)
  | VarDef (addr : Nat) (name : Node) (value : Option Node)
  | Call (addr : Nat) (k : CallKind) (expression : Node) (args : List Node)
  | Seq (addr : Nat) (car : Node) (cdr : Option Node)
  | Dot (addr : Nat) (expression : Node) (property : String)
  | Sub (addr : Nat) (expression : Node) (property : Node)
  | Unary (addr : Nat) (k : UnaryKind) (operator : String) (expression : Node)
  | Binary (addr : Nat) (k : BinaryKind) (left : Node) (operator : String) (right : Node)
  | Conditional (addr : Nat) (condition : Node) (consequent : Node) (alternative : Node)
  | Array (addr : Nat) (elements : List Node)
  | Object (addr : Nat) (properties : List Node)
  | ObjectProperty (addr : Nat) (k : ObjectPropertyKind) (key : String) (value : Node)
/-- The value of a `body` field read by `walk_body`: one node or an array of nodes. -/
inductive Body where
  | single (n : Node)
  | seq (l : List Node)
end

/-- The kind of a node (`node.TYPE`). -/
def Node.kind : Node → Kind
  | .leaf _ k _ => k.toKind
  | .SimpleStatement .. => .SimpleStatement
  | .Block _ k _ => k.toKind
  | .Lambda _ k .. => k.toKind
  | .Switch .. => .Switch
  | .Case .. => .Case
  | .Try .. => .Try
  | .Catch .. => .Catch
  | .StatementWithBody .. => .StatementWithBody
  | .LabeledStatement .. => .LabeledStatement
  | .DWLoop _ k .. => k.toKind
  | .For .. => .For
  | .ForIn .. => .ForIn
  | .With .. => .With
  | .If .. => .If
  | .Exit _ k _ => k.toKind
  | .LoopControl _ k _ => k.toKind
  | .Definitions _ k _ => k.toKind
  | .VarDef .. => .VarDef
  | .Call _ k .. => k.toKind
  | .Seq .. => .Seq
  | .Dot .. => .Dot
  | .Sub .. => .Sub
  | .Unary _ k .. => k.toKind
  | .Binary _ k .. => k.toKind
  | .Conditional .. => .Conditional
  | .Array .. => .Array
  | .Object .. => .Object
  | .ObjectProperty _ k .. => k.toKind

/-! ## TreeWalker -/

/-- The mutable part of a `TreeWalker`: its `stack` (an array, innermost node last),
plus a ghost record `calls` of every invocation of the callback so far: the node it
was called on and the stack at that moment. -/
structure WalkState where
  stack : List Node
  calls : List (Node × List Node)

/-- What one run of the user callback `visit(node, descend)` does with the walker, in
order: it may call `descend()`, and go on depending on the walker's state after it; it
may call the walker's `push` and `pop`; finally it returns a value. -/
inductive Script where
  | ret (v : JSValue)
  | descend (k : WalkState → Script)
  | push (n : Node) (k : Script)
  | pop (k : Script)

/-- A user callback: it sees the walker (stack and history) and the node. -/
abbrev Callback := WalkState → Node → Script

namespace TreeWalker

/-- The method `push: function (node) { this.stack.push(node); }`. -/
def push (node : Node) (w : WalkState) : WalkState :=
  { w with stack := w.stack ++ [node] }

/-- The method `pop: function () { return this.stack.pop(); }` (its effect on the walker). -/
def pop (w : WalkState) : WalkState :=
  { w with stack := w.stack.dropLast }

/-- Element `i` of a JavaScript array for a possibly negative index: `undefined`
(here `none`) outside `0 .. length - 1`. -/
def index (stack : List Node) (i : Int) : Option Node :=
  if i < 0 then none else stack[i.toNat]?

/-- The method `parent: function (n) { return this.stack[this.stack.length - 2 - (n || 0)]; }`;
`none` is the call `parent()` without an argument. -/
def parent (w : WalkState) (n : Option Nat) : Option Node :=
  index w.stack ((w.stack.length : Int) - 2 - ((n.getD 0 : Nat) : Int))

/-- The method `self: function () { return this.stack[this.stack.length - 1]; }`. -/
def self (w : WalkState) : Option Node :=
  index w.stack ((w.stack.length : Int) - 1)

/-- Run the callback's script. `thunk` is the function the callback received as its
`descend` argument. -/
def runScript (thunk : WalkState → Option WalkState) :
    Script → WalkState → Option (WalkState × JSValue)
  | .ret v, w => some (w, v)
  | .descend k, w =>
    match thunk w with
    | none => none
    | some w1 => runScript thunk (k w1) w1
  | .push n k, w => runScript thunk k (push n w)
  | .pop k, w => runScript thunk k (pop w)

/-- The function `noop`. -/
def noop (w : WalkState) : Option WalkState := some w

/-- The walker on entry to the callback: `node` pushed, and the call recorded. -/
def enter (node : Node) (w : WalkState) : WalkState :=
  { stack := w.stack ++ [node], calls := w.calls ++ [(node, w.stack ++ [node])] }

/-- The method `TreeWalker.prototype._visit`:
push the node, call `this.visit(node, descend ? function(){ descend.call(node) } : noop)`,
call `descend` when the result is falsy and `descend` was given, pop, return the result. -/
def _visit (visit : Callback) (node : Node) (descend : Option (WalkState → Option WalkState))
    (w : WalkState) : Option (WalkState × JSValue) :=
  let w1 := enter node w
  match runScript (descend.getD noop) (visit w1 node) w1 with
  | none => none
  | some (w2, ret) =>
    let after :=
      match descend with
      | some d => if !ret.truthy then d w2 else some w2
      | none => some w2
    match after with
    | none => none
    | some w3 => some (pop w3, ret)

end TreeWalker

/-- Drop the value returned by a `_walk` call used as a statement. -/
def discard (r : Option (WalkState × JSValue)) : Option WalkState :=
  r.map Prod.fst

mutual
/-- The `_walk` method of each kind. -/
def Node._walk (visit : Callback) : Node → WalkState → Option (WalkState × JSValue)
  | n@(.leaf ..), w => TreeWalker._visit visit n none w
  | n@(.SimpleStatement _ body), w =>
    TreeWalker._visit visit n (some fun w => discard (body._walk visit w)) w
  | n@(.Block _ _ body), w =>
    TreeWalker._visit visit n (some fun w => walk_body visit body w) w
  | n@(.Lambda _ _ name argnames body), w =>
    TreeWalker._visit visit n (some fun w =>
      (walkIf visit name w).bind fun w =>
      (walkEach visit argnames w).bind fun w =>
      walk_body visit body w) w
  | n@(.Switch _ expression body), w =>
    TreeWalker._visit visit n (some fun w =>
      (discard (expression._walk visit w)).bind fun w =>
      walk_body visit body w) w
  | n@(.Case _ expression body), w =>
    TreeWalker._visit visit n (some fun w =>
      (discard (expression._walk visit w)).bind fun w =>
      walk_body visit body w) w
  | n@(.Try _ body bcatch bfinally), w =>
    TreeWalker._visit visit n (some fun w =>
      (walk_body visit body w).bind fun w =>
      (walkIf visit bcatch w).bind fun w =>
      walkIf visit bfinally w) w
  | n@(.Catch _ argname body), w =>
    TreeWalker._visit visit n (some fun w =>
      (discard (argname._walk visit w)).bind fun w =>
      walk_body visit body w) w
  | n@(.StatementWithBody _ body), w =>
    TreeWalker._visit visit n (some fun w => discard (body._walk visit w)) w
  | n@(.LabeledStatement _ label body), w =>
    TreeWalker._visit visit n (some fun w =>
      (discard (label._walk visit w)).bind fun w =>
      discard (body._walk visit w)) w
  | n@(.DWLoop _ _ condition body), w =>
    TreeWalker._visit visit n (some fun w =>
      (discard (condition._walk visit w)).bind fun w =>
      discard (body._walk visit w)) w
  | n@(.For _ init condition step body), w =>
    TreeWalker._visit visit n (some fun w =>
      (walkIf visit init w).bind fun w =>
      (walkIf visit condition w).bind fun w =>
      (walkIf visit step w).bind fun w =>
      discard (body._walk visit w)) w
  | n@(.ForIn _ init _ object body), w =>
    TreeWalker._visit visit n (some fun w =>
      (discard (init._walk visit w)).bind fun w =>
      (discard (object._walk visit w)).bind fun w =>
      discard (body._walk visit w)) w
  | n@(.With _ expression body), w =>
    TreeWalker._visit visit n (some fun w =>
      (discard (expression._walk visit w)).bind fun w =>
      discard (body._walk visit w)) w
  | n@(.If _ condition body alternative), w =>
    TreeWalker._visit visit n (some fun w =>
      (discard (condition._walk visit w)).bind fun w =>
      (discard (body._walk visit w)).bind fun w =>
      walkIf visit alternative w) w
  | n@(.Exit _ _ value), w =>
    match value with
    | none => TreeWalker._visit visit n none w
    | some v => TreeWalker._visit visit n (some fun w => discard (v._walk visit w)) w
  | n@(.LoopControl _ _ label), w =>
    match label with
    | none => TreeWalker._visit visit n none w
    | some l => TreeWalker._visit visit n (some fun w => discard (l._walk visit w)) w
  | n@(.Definitions _ _ definitions), w =>
    TreeWalker._visit visit n (some fun w => walkEach visit definitions w) w
  | n@(.VarDef _ name value), w =>
    TreeWalker._visit visit n (some fun w =>
      (discard (name._walk visit w)).bind fun w =>
      walkIf visit value w) w
  | n@(.Call _ _ expression args), w =>
    TreeWalker._visit visit n (some fun w =>
      (discard (expression._walk visit w)).bind fun w =>
      walkEach visit args w) w
  | n@(.Seq _ car cdr), w =>
    TreeWalker._visit visit n (some fun w =>
      (discard (car._walk visit w)).bind fun w =>
      walkIf visit cdr w) w
  | n@(.Dot _ expression _), w =>
    TreeWalker._visit visit n (some fun w => discard (expression._walk visit w)) w
  | n@(.Sub _ expression property), w =>
    TreeWalker._visit visit n (some fun w =>
      (discard (expression._walk visit w)).bind fun w =>
      discard (property._walk visit w)) w
  | n@(.Unary _ _ _ expression), w =>
    TreeWalker._visit visit n (some fun w => discard (expression._walk visit w)) w
  | n@(.Binary _ _ left _ right), w =>
    TreeWalker._visit visit n (some fun w =>
      (discard (left._walk visit w)).bind fun w =>
      discard (right._walk visit w)) w
  | n@(.Conditional _ condition consequent alternative), w =>
    TreeWalker._visit visit n (some fun w =>
      (discard (condition._walk visit w)).bind fun w =>
      (discard (consequent._walk visit w)).bind fun w =>
      discard (alternative._walk visit w)) w
  | n@(.Array _ elements), w =>
    TreeWalker._visit visit n (some fun w => walkEach visit elements w) w
  | n@(.Object _ properties), w =>
    TreeWalker._visit visit n (some fun w => walkEach visit properties w) w
  | n@(.ObjectProperty _ _ _ value), w =>
    TreeWalker._visit visit n (some fun w => discard (value._walk visit w)) w
/-- The function `walk_body(node, visitor)`, given `node.body`: a body that is an
`AST_Statement` is walked; anything else is taken for an array and `forEach` is
called on it, which throws a `TypeError` when it is a node of another kind. -/
def walk_body (visit : Callback) : Body → WalkState → Option WalkState
  | .single n, w =>
    if n.kind.instanceof .Statement then discard (n._walk visit w) else none
  | .seq l, w => walkEach visit l w
/-- The loop `xs.forEach(function (x) { x._walk(visitor); })`. -/
def walkEach (visit : Callback) : List Node → WalkState → Option WalkState
  | [], w => some w
  | n :: l, w =>
    match n._walk visit w with
    | none => none
    | some (w1, _) => walkEach visit l w1
/-- The statement `if (this.x) this.x._walk(visitor);` for an optional field `x`. -/
def walkIf (visit : Callback) : Option Node → WalkState → Option WalkState
  | none, w => some w
  | some n, w => discard (n._walk visit w)
end

/-- The method `walk: function (visitor) { return this._walk(visitor); }`. -/
def Node.walk (visit : Callback) (n : Node) (w : WalkState) : Option (WalkState × JSValue) :=
  n._walk visit w


/-! ## Tree structure used to state the walker's properties -/

/-- The nodes held by a `body` field, in order. -/
def Body.nodes : Body → List Node
  | .single n => [n]
  | .seq l => l

/-- Whether `walk_body` accepts the body: a single node must be an `AST_Statement`. -/
def Body.ok : Body → Bool
  | .single n => n.kind.instanceof .Statement
  | .seq _ => true

/-- The structural children of a node: the fields its kind's `_walk` descends into, in
the order in which it names them; an absent optional field contributes nothing. -/
def Node.children : Node → List Node
  | .leaf .. => []
  | .SimpleStatement _ body => [body]
  | .Block _ _ body => body.nodes
  | .Lambda _ _ name argnames body => name.toList ++ argnames ++ body.nodes
  | .Switch _ expression body => expression :: body.nodes
  | .Case _ expression body => expression :: body.nodes
  | .Try _ body bcatch bfinally => body.nodes ++ bcatch.toList ++ bfinally.toList
  | .Catch _ argname body => argname :: body.nodes
  | .StatementWithBody _ body => [body]
  | .LabeledStatement _ label body => [label, body]
  | .DWLoop _ _ condition body => [condition, body]
  | .For _ init condition step body => init.toList ++ condition.toList ++ step.toList ++ [body]
  | .ForIn _ init _ object body => [init, object, body]
  | .With _ expression body => [expression, body]
  | .If _ condition body alternative => [condition, body] ++ alternative.toList
  | .Exit _ _ value => value.toList
  | .LoopControl _ _ label => label.toList
  | .Definitions _ _ definitions => definitions
  | .VarDef _ name value => name :: value.toList
  | .Call _ _ expression args => expression :: args
  | .Seq _ car cdr => car :: cdr.toList
  | .Dot _ expression _ => [expression]
  | .Sub _ expression property => [expression, property]
  | .Unary _ _ _ expression => [expression]
  | .Binary _ _ left _ right => [left, right]
  | .Conditional _ condition consequent alternative => [condition, consequent, alternative]
  | .Array _ elements => elements
  | .Object _ properties => properties
  | .ObjectProperty _ _ _ value => [value]

/-- Whether the kind's `_walk` hands a `descend` function to `_visit`: kinds using
`AST_Node`'s `_walk` hand none, and `AST_Exit` / `AST_LoopControl` hand
`this.value && function ...` / `this.label && function ...`. -/
def Node.hasDescend : Node → Bool
  | .leaf .. => false
  | .Exit _ _ value => value.isSome
  | .LoopControl _ _ label => label.isSome
  | _ => true

/-- Whether the node's own `body` field, when `walk_body` reads it, is accepted. -/
def Node.bodyOk : Node → Bool
  | .Block _ _ body => body.ok
  | .Lambda _ _ _ _ body => body.ok
  | .Switch _ _ body => body.ok
  | .Case _ _ body => body.ok
  | .Try _ body _ _ => body.ok
  | .Catch _ _ body => body.ok
  | _ => true

mutual
/-- The nodes of a tree in preorder: the node, then the subtrees of its structural
children in field order. -/
def Node.preorder : Node → List Node
  | n@(.leaf ..) => [n]
  | n@(.SimpleStatement _ body) => n :: body.preorder
  | n@(.Block _ _ body) => n :: body.preorder
  | n@(.Lambda _ _ name argnames body) =>
    n :: (preorderOpt name ++ preorderAll argnames ++ body.preorder)
  | n@(.Switch _ expression body) => n :: (expression.preorder ++ body.preorder)
  | n@(.Case _ expression body) => n :: (expression.preorder ++ body.preorder)
  | n@(.Try _ body bcatch bfinally) =>
    n :: (body.preorder ++ preorderOpt bcatch ++ preorderOpt bfinally)
  | n@(.Catch _ argname body) => n :: (argname.preorder ++ body.preorder)
  | n@(.StatementWithBody _ body) => n :: body.preorder
  | n@(.LabeledStatement _ label body) => n :: (label.preorder ++ body.preorder)
  | n@(.DWLoop _ _ condition body) => n :: (condition.preorder ++ body.preorder)
  | n@(.For _ init condition step body) =>
    n :: (preorderOpt init ++ preorderOpt condition ++ preorderOpt step ++ body.preorder)
  | n@(.ForIn _ init _ object body) =>
    n :: (init.preorder ++ object.preorder ++ body.preorder)
  | n@(.With _ expression body) => n :: (expression.preorder ++ body.preorder)
  | n@(.If _ condition body alternative) =>
    n :: (condition.preorder ++ body.preorder ++ preorderOpt alternative)
  | n@(.Exit _ _ value) => n :: preorderOpt value
  | n@(.LoopControl _ _ label) => n :: preorderOpt label
  | n@(.Definitions _ _ definitions) => n :: preorderAll definitions
  | n@(.VarDef _ name value) => n :: (name.preorder ++ preorderOpt value)
  | n@(.Call _ _ expression args) => n :: (expression.preorder ++ preorderAll args)
  | n@(.Seq _ car cdr) => n :: (car.preorder ++ preorderOpt cdr)
  | n@(.Dot _ expression _) => n :: expression.preorder
  | n@(.Sub _ expression property) => n :: (expression.preorder ++ property.preorder)
  | n@(.Unary _ _ _ expression) => n :: expression.preorder
  | n@(.Binary _ _ left _ right) => n :: (left.preorder ++ right.preorder)
  | n@(.Conditional _ condition consequent alternative) =>
    n :: (condition.preorder ++ consequent.preorder ++ alternative.preorder)
  | n@(.Array _ elements) => n :: preorderAll elements
  | n@(.Object _ properties) => n :: preorderAll properties
  | n@(.ObjectProperty _ _ _ value) => n :: value.preorder
/-- Preorder of a body: its single statement, or its statements one after the other. -/
def Body.preorder : Body → List Node
  | .single n => n.preorder
  | .seq l => preorderAll l
/-- Preorder of a sequence of nodes, element by element. -/
def preorderAll : List Node → List Node
  | [] => []
  | n :: l => n.preorder ++ preorderAll l
/-- Preorder of an optional field: nothing when it is absent. -/
def preorderOpt : Option Node → List Node
  | none => []
  | some n => n.preorder
end

/-- The data-model invariant on bodies: every `body` field read by `walk_body` anywhere
in the tree holds either one statement or a sequence. -/
def Node.WellFormed (n : Node) : Prop :=
  ∀ m ∈ n.preorder, m.bodyOk = true

/-- A stack that is a path of the tree under `root`: it starts at `root` and each entry
is a structural child of the entry below it. -/
def IsPathFrom (root : Node) (path : List Node) : Prop :=
  path.head? = some root ∧ List.Chain' (fun p c => c ∈ p.children) path

/-- The value the callback's run returns when it never calls `descend`; `none` when
it does call it. -/
def Script.quiet : Script → Option JSValue
  | .ret v => some v
  | .descend _ => none
  | .push _ k => k.quiet
  | .pop k => k.quiet

/-- The callback's run never calls the walker's `push` or `pop` itself. -/
def Script.NoStackOps : Script → Prop
  | .ret _ => True
  | .descend k => ∀ w, (k w).NoStackOps
  | .push _ _ => False
  | .pop _ => False

/-- The identity of the node object. -/
def Node.addr : Node → Nat
  | .leaf a .. => a
  | .SimpleStatement a .. => a
  | .Block a .. => a
  | .Lambda a .. => a
  | .Switch a .. => a
  | .Case a .. => a
  | .Try a .. => a
  | .Catch a .. => a
  | .StatementWithBody a .. => a
  | .LabeledStatement a .. => a
  | .DWLoop a .. => a
  | .For a .. => a
  | .ForIn a .. => a
  | .With a .. => a
  | .If a .. => a
  | .Exit a .. => a
  | .LoopControl a .. => a
  | .Definitions a .. => a
  | .VarDef a .. => a
  | .Call a .. => a
  | .Seq a .. => a
  | .Dot a .. => a
  | .Sub a .. => a
  | .Unary a .. => a
  | .Binary a .. => a
  | .Conditional a .. => a
  | .Array a .. => a
  | .Object a .. => a
  | .ObjectProperty a .. => a

instance (n : Node) : Decidable n.WellFormed := by
  unfold Node.WellFormed
  infer_instance

/-- The walker went from `w` to `w1` with its stack unchanged and with callback
invocations added that all satisfy `P`. -/
def Grows (P : Node × List Node → Prop) (w w1 : WalkState) : Prop :=
  w1.stack = w.stack ∧ ∃ added, w1.calls = w.calls ++ added ∧ ∀ e ∈ added, P e

/-- The invocation `e` saw the stack `base` followed by a path from `n` down to the node
it was called on. -/
def OnPath (base : List Node) (n : Node) (e : Node × List Node) : Prop :=
  ∃ t, e.2 = base ++ t ∧ IsPathFrom n t ∧ t.getLast? = some e.1

/-- The `descend` argument that the kind's `_walk` hands to `_visit`, written with
`children`: it walks the children in order, after `walk_body`'s test of the body. -/
def Node.descendArg (visit : Callback) (n : Node) : Option (WalkState → Option WalkState) :=
  if n.hasDescend then
    some fun w => if n.bodyOk then walkEach visit n.children w else none
  else none

/-! ## mergeSort -/

/-- The `while` loop of the inner function `merge(a, b)` of `mergeSort`, followed by the
two `push.apply` of what is left of `a` and of `b`. `r` is the output so far (the
source's `i` is always `r.length`), `ai` and `bi` are the two read positions. -/
def mergeSort.mergeLoop {α : Type} (cmp : α → α → Int) (a b : List α) (r : List α)
    (ai bi : Nat) : List α :=
  if h : ai < a.length ∧ bi < b.length then
    if cmp (a.get ⟨ai, h.1⟩) (b.get ⟨bi, h.2⟩) ≤ 0 then
      mergeSort.mergeLoop cmp a b (r ++ [a.get ⟨ai, h.1⟩]) (ai + 1) bi
    else
      mergeSort.mergeLoop cmp a b (r ++ [b.get ⟨bi, h.2⟩]) ai (bi + 1)
  else
    let r1 := if ai < a.length then r ++ a.drop ai else r
    if bi < b.length then r1 ++ b.drop bi else r1
termination_by (a.length - ai) + (b.length - bi)

/-- The inner function `merge(a, b)`: `r = []`, `ai = 0`, `bi = 0`, then the loop. -/
def mergeSort.merge {α : Type} (cmp : α → α → Int) (a b : List α) : List α :=
  mergeSort.mergeLoop cmp a b [] 0 0

/-- The inner function `_ms(a)`: split at `Math.floor(a.length / 2)`, sort both halves,
merge them. -/
def mergeSort._ms {α : Type} (cmp : α → α → Int) (a : List α) : List α :=
  if h : a.length ≤ 1 then a
  else
    let m := a.length / 2
    let left := a.take m
    let right := a.drop m
    mergeSort.merge cmp (mergeSort._ms cmp left) (mergeSort._ms cmp right)
termination_by a.length
decreasing_by
  all_goals simp only [List.length_take, List.length_drop]
  all_goals omega

/-- The function `mergeSort(array, cmp)`: a copy for fewer than two elements, `_ms(array)`
otherwise. The comparator is a function to the integers, tested by `cmp(x, y) <= 0`. -/
def mergeSort {α : Type} (array : List α) (cmp : α → α → Int) : List α :=
  if array.length < 2 then array else mergeSort._ms cmp array

/-- A three-way comparator that is a total preorder: `cmp x y ≤ 0` is a total and
transitive relation. -/
structure TotalPreorder {α : Type} (cmp : α → α → Int) : Prop where
  total : ∀ x y, cmp x y ≤ 0 ∨ cmp y x ≤ 0
  trans : ∀ x y z, cmp x y ≤ 0 → cmp y z ≤ 0 → cmp x z ≤ 0

/-! ## MAP -/

/-- A value that the function given to `MAP` returns, or that ends up in `MAP`'s result:
an ordinary value, the sentinel `MAP.skip`, or an instance of `Splice`, `AtTop` or `Last`
wrapping an array, respectively a value. -/
inductive MapVal (β : Type) where
  | plain (v : β)
  | skip
  | splice (v : List (MapVal β))
  | at_top (v : MapVal β)
  | last (v : MapVal β)

namespace MAP

/-- The two arrays `ret` and `top` that `MAP` fills. -/
structure Acc (β : Type) where
  ret : List (MapVal β)
  top : List (MapVal β)

/-- The argument of `push.apply` for a splice: `backwards ? val.v.slice().reverse() : val.v`. -/
def spliced {β : Type} (backwards : Bool) (v : List (MapVal β)) : List (MapVal β) :=
  if backwards then v.reverse else v

/-- The inner function `doit()` at element `x = a[i]`: the new `ret` and `top`, and the
returned `is_last`. The function `f` is given by its result at each element and index. -/
def doit {α β : Type} (f : α → Nat → MapVal β) (backwards : Bool) (x : α) (i : Nat)
    (s : Acc β) : Acc β × Bool :=
  let val := f x i
  let is_last := match val with
    | .last _ => true
    | _ => false
  let val := match val with
    | .last v => v
    | v => v
  match val with
  | .at_top v =>
    match v with
    | .splice vs => ({ s with top := s.top ++ spliced backwards vs }, is_last)
    | v => ({ s with top := s.top ++ [v] }, is_last)
  | .skip => (s, is_last)
  | .splice vs => ({ s with ret := s.ret ++ spliced backwards vs }, is_last)
  | v => ({ s with ret := s.ret ++ [v] }, is_last)

/-- The loop `for (i = 0; i < a.length; ++i) if (doit()) break;` from index `i` on, `rest`
being the elements `a[i], a[i+1], ...` still to visit. -/
def forwardLoop {α β : Type} (f : α → Nat → MapVal β) : List α → Nat → Acc β → Acc β
  | [], _, s => s
  | x :: rest, i, s =>
    match doit f false x i s with
    | (s1, true) => s1
    | (s1, false) => forwardLoop f rest (i + 1) s1

/-- The loop `for (i = a.length; --i >= 0;) if (doit()) break;` with `i` the value of the
counter before the decrement. Inside the loop the index is below `a.length`, so the
`none` branch is never taken. -/
def backwardLoop {α β : Type} (f : α → Nat → MapVal β) (a : List α) : Nat → Acc β → Acc β
  | 0, s => s
  | i + 1, s =>
    match a[i]? with
    | none => s
    | some x =>
      match doit f true x i s with
      | (s1, true) => s1
      | (s1, false) => backwardLoop f a i s1

end MAP

/-- The function `MAP(a, f, backwards)` on an array `a`: run the loop, reverse both `ret`
and `top` in backwards mode, return `top.concat(ret)`. -/
def MAP {α β : Type} (a : List α) (f : α → Nat → MapVal β) (backwards : Bool) :
    List (MapVal β) :=
  let s : MAP.Acc β :=
    if backwards then
      let s := MAP.backwardLoop f a a.length ⟨[], []⟩
      ⟨s.ret.reverse, s.top.reverse⟩
    else MAP.forwardLoop f a 0 ⟨[], []⟩
  s.top ++ s.ret

/-- What one result of `f` adds to an output segment: nothing for `MAP.skip`, the elements
of `seq` for `MAP.splice(seq)`, the value itself otherwise. -/
def MapVal.contribution {β : Type} : MapVal β → List (MapVal β)
  | .skip => []
  | .splice seq => seq
  | v => [v]

/-- What the value `v` of a result `MAP.at_top(v)` adds to the leading segment: the
elements of `seq` when `v` is `MAP.splice(seq)`, `v` itself otherwise. -/
def MapVal.hoisted {β : Type} : MapVal β → List (MapVal β)
  | .splice seq => seq
  | v => [v]

/-- The result is an instance of `AtTop`. -/
def MapVal.isAtTop {β : Type} : MapVal β → Bool
  | .at_top _ => true
  | _ => false

/-- The result is an instance of `Last`. -/
def MapVal.isLast {β : Type} : MapVal β → Bool
  | .last _ => true
  | _ => false

/-- The leading segment contributed by one result: the hoisted values of `MAP.at_top(v)`,
nothing for any other result. -/
def MapVal.topPart {β : Type} : MapVal β → List (MapVal β)
  | .at_top v => v.hoisted
  | _ => []

/-- The normal segment contributed by one result: nothing for `MAP.at_top(v)`, the
contribution of any other result. -/
def MapVal.retPart {β : Type} : MapVal β → List (MapVal β)
  | .at_top _ => []
  | v => v.contribution

/-- The results `f(a[0], 0), f(a[1], 1), ...` in input order. -/
def MAP.results {α β : Type} (a : List α) (f : α → Nat → MapVal β) : List (MapVal β) :=
  a.enum.map fun p => f p.2 p.1

/-! ## makePredicate -/

/-- The argument of `makePredicate`: an array of words, or a string that is split at
every space. -/
inductive Words where
  | array (ws : List String)
  | string (s : String)

/-- The pieces of a character sequence between its spaces: an empty sequence has the one
piece `""`, and two spaces in a row enclose the piece `""`. -/
def Words.pieces : List Char → List (List Char)
  | [] => [[]]
  | c :: cs =>
    if c = ' ' then [] :: Words.pieces cs
    else
      match Words.pieces cs with
      | [] => [[c]]
      | w :: ws => (c :: w) :: ws

/-- The call `words.split(" ")`. -/
def Words.split (s : String) : List String :=
  (Words.pieces s.toList).map String.mk

/-- The first two statements of `makePredicate`:
`if (!(words instanceof Array)) words = words.split(" ")`. -/
def Words.toList : Words → List String
  | .array ws => ws
  | .string s => Words.split s

namespace makePredicate

/-- One pass of the inner loop over `cats` for the word `w`: push it on the first
bucket whose first word has its length, or add the new bucket `[w]` at the end. -/
def place (w : String) : List (List String) → List (List String)
  | [] => [[w]]
  | cat :: cats =>
    if cat.head?.map String.length = some w.length then (cat ++ [w]) :: cats
    else cat :: place w cats

/-- The loop labelled `out`: the buckets `cats` after the words up to the end. -/
def classify (words : List String) : List (List String) :=
  words.foldl (fun cats w => place w cats) []

/-- The text that one call of `compareTo(arr)` appends to the function body:
`return str === "w";` or `switch(str){case "w1": ... case "wn":return true}return false;`. -/
inductive Compare where
  | returnEq (w : String)
  | switchStr (ws : List String)

/-- The inner function `compareTo(arr)`. -/
def compareTo (arr : List String) : Compare :=
  match arr with
  | [w] => .returnEq w
  | ws => .switchStr ws

/-- The generated function body: one `compareTo` text, or
`switch(str.length){case n1: <compareTo> case n2: <compareTo> ...}`. -/
inductive Body where
  | flat (c : Compare)
  | byLength (cases : List (Nat × Compare))

/-- The label `cat[0].length` of the clause generated for the bucket `cat`. -/
def label (cat : List String) : Nat :=
  (cat.head?.map String.length).getD 0

/-- The body that `makePredicate` builds from the words and their buckets; `sort` is
`Array.prototype.sort` with the comparator `b.length - a.length` (which order it gives
to buckets of equal size depends on the engine). -/
def body (sort : List (List String) → List (List String)) (words : List String) : Body :=
  let cats := classify words
  if cats.length > 3 then
    .byLength ((sort cats).map fun cat => (label cat, compareTo cat))
  else .flat (compareTo words)

/-- Whether the text parses as a function body: a `switch` block must start with a
`case` clause, so `switch(str){return true}` (no word) is a `SyntaxError`. -/
def Compare.parses : Compare → Bool
  | .returnEq _ => true
  | .switchStr ws => !ws.isEmpty

/-- Whether `new Function("str", f)` accepts the generated body. -/
def Body.parses : Body → Bool
  | .flat c => c.parses
  | .byLength cases => cases.all fun p => p.2.parses

/-- Run one `compareTo` text on `str`: the value it returns. Both forms return on every
path, so the result is always `some`. -/
def Compare.exec (str : String) : Compare → Option JSValue
  | .returnEq w => some (.bool (str == w))
  | .switchStr ws => some (.bool (ws.contains str))

/-- Run the clauses of `switch(str.length){...}` from the first clause whose label
equals `str.length`, falling through to the next clause while no `return` is reached;
`matched` says that an earlier clause was entered. -/
def execCases (str : String) : List (Nat × Compare) → Bool → Option JSValue
  | [], _ => none
  | (len, c) :: rest, matched =>
    if matched || str.length == len then
      match c.exec str with
      | some v => some v
      | none => execCases str rest true
    else execCases str rest false

/-- Call the generated function on `str`; a body that ends without `return` gives
`undefined`. -/
def Body.call (str : String) : Body → JSValue
  | .flat c => (c.exec str).getD .undefined
  | .byLength cases => (execCases str cases false).getD .undefined

end makePredicate

/-- The function `makePredicate(words)`: the generated predicate, or `none` when
`new Function` throws a `SyntaxError`. -/
def makePredicate (sort : List (List String) → List (List String)) (words : Words) :
    Option (String → JSValue) :=
  let b := makePredicate.body sort words.toList
  if b.parses then some fun str => b.call str else none

/-! ## Sample inputs -/

namespace Sample

/-- A reference to the variable `name`. -/
def sym (addr : Nat) (name : String) : Node :=
  .leaf addr .SymbolRef name

/-- The block `{ x; ; }`, its body a sequence of two statements. -/
def block : Node :=
  .Block 2 .BlockStatement (.seq [.SimpleStatement 3 (sym 4 "x"), .leaf 5 .EmptyStatement ""])

/-- The statement `if (c) { x; ; } else debugger;`: the body is a block holding a
sequence, the alternative a block whose body is one statement. -/
def ifTree : Node :=
  .If 0 (sym 1 "c") block (some (.Block 6 .BlockStatement (.single (.leaf 7 .Debugger ""))))

/-- A callback that does nothing and returns `undefined`. -/
def falsy : Callback :=
  fun _ _ => .ret .undefined

/-- A callback that returns `true` on every block and `undefined` elsewhere. -/
def skipBlocks : Callback :=
  fun _ n =>
    match n with
    | .Block .. => .ret (.bool true)
    | _ => .ret .undefined

/-- A callback that on an `If` calls `descend()` itself and returns `true`, and returns
`undefined` elsewhere. -/
def custom : Callback :=
  fun _ n =>
    match n with
    | .If .. => .descend fun _ => .ret (.bool true)
    | _ => .ret .undefined

/-- A callback that on an `If` calls the walker's `push` with the node of the block
`{ x; ; }`, then `descend()`, then `pop`, and returns `true`; it returns `undefined`
elsewhere. -/
def pushing : Callback :=
  fun _ n =>
    match n with
    | .If .. => .push block (.descend fun _ => .pop (.ret (.bool true)))
    | _ => .ret .undefined

/-- A fresh walker: empty stack, no call made yet. -/
def fresh : WalkState :=
  ⟨[], []⟩

end Sample

namespace Sample

/-- The comparator "by first component" on pairs. -/
def byFst (x y : Int × Char) : Int :=
  x.1 - y.1

/-- The array `[(1,'a'), (1,'b'), (0,'c')]`. -/
def pairs : List (Int × Char) :=
  [(1, 'a'), (1, 'b'), (0, 'c')]

end Sample

namespace Sample

/-- The array `[1, 2, 3, 4, 5]`. -/
def five : List Nat :=
  [1, 2, 3, 4, 5]

/-- A rewrite that drops element 3 (`MAP.skip`), replaces element 5 by two values
(`MAP.splice`) and keeps the others. -/
def rewrite (x : Nat) (i : Nat) : MapVal Nat :=
  if i = 2 then .skip
  else if i = 4 then .splice [.plain 50, .plain 51]
  else .plain x

/-- A rewrite that hoists element 2 (`MAP.at_top`), drops element 3, hoists the two
values that replace element 4 (`MAP.at_top(MAP.splice(...))`) and keeps the others. -/
def hoist (x : Nat) (i : Nat) : MapVal Nat :=
  if i = 1 then .at_top (.plain 20)
  else if i = 2 then .skip
  else if i = 3 then .at_top (.splice [.plain 40, .plain 41])
  else .plain x

end Sample

/-- What `makePredicate` relies on after the loop `out`: no bucket is empty, the words of
a bucket all have the bucket's label as length, no two buckets share a label, and the
buckets hold exactly the given words. -/
structure makePredicate.Bucketed (words : List String) (cats : List (List String)) : Prop where
  nonempty : ∀ cat ∈ cats, cat ≠ []
  uniform : ∀ cat ∈ cats, ∀ w ∈ cat, w.length = makePredicate.label cat
  distinct : (cats.map makePredicate.label).Nodup
  complete : ∀ w, w ∈ words ↔ ∃ cat ∈ cats, w ∈ cat

namespace Sample

/-- A sort of the buckets by size, largest first (insertion sort with the comparator
`b.length - a.length <= 0`). -/
def bySize (cats : List (List String)) : List (List String) :=
  cats.insertionSort fun a b => (b.length : Int) - (a.length : Int) ≤ 0

/-- Words of four different lengths. -/
def fourLengths : List String :=
  ["a", "bb", "ccc", "dddd", "eeee"]

end Sample

namespace Sample

/-- A rewrite that drops element 1, hoists element 2 and stops at element 3 with
`MAP.last(MAP.splice(...))`. -/
def stopAtThree (x : Nat) (i : Nat) : MapVal Nat :=
  if i = 0 then .skip
  else if i = 1 then .at_top (.plain 20)
  else if i = 2 then .last (.splice [.plain 30, .plain 31])
  else .plain x

end Sample

/-! ## AST_Seq -/

/-- The method `clone: function() { return new this.CTOR(this); }`: a new object (at the
fresh address `addr`) of the same kind, with every field copied from `this`. -/
def Node.clone (addr : Nat) : Node → Node
  | .leaf _ k text => .leaf addr k text
  | .SimpleStatement _ body => .SimpleStatement addr body
  | .Block _ k body => .Block addr k body
  | .Lambda _ k name argnames body => .Lambda addr k name argnames body
  | .Switch _ expression body => .Switch addr expression body
  | .Case _ expression body => .Case addr expression body
  | .Try _ body bcatch bfinally => .Try addr body bcatch bfinally
  | .Catch _ argname body => .Catch addr argname body
  | .StatementWithBody _ body => .StatementWithBody addr body
  | .LabeledStatement _ label body => .LabeledStatement addr label body
  | .DWLoop _ k condition body => .DWLoop addr k condition body
  | .For _ init condition step body => .For addr init condition step body
  | .ForIn _ init name object body => .ForIn addr init name object body
  | .With _ expression body => .With addr expression body
  | .If _ condition body alternative => .If addr condition body alternative
  | .Exit _ k value => .Exit addr k value
  | .LoopControl _ k label => .LoopControl addr k label
  | .Definitions _ k definitions => .Definitions addr k definitions
  | .VarDef _ name value => .VarDef addr name value
  | .Call _ k expression args => .Call addr k expression args
  | .Seq _ car cdr => .Seq addr car cdr
  | .Dot _ expression property => .Dot addr expression property
  | .Sub _ expression property => .Sub addr expression property
  | .Unary _ k operator expression => .Unary addr k operator expression
  | .Binary _ k left operator right => .Binary addr k left operator right
  | .Conditional _ condition consequent alternative =>
    .Conditional addr condition consequent alternative
  | .Array _ elements => .Array addr elements
  | .Object _ properties => .Object addr properties
  | .ObjectProperty _ k key value => .ObjectProperty addr k key value

/-- The test `x instanceof AST_Seq` (no kind derives from `AST_Seq`). -/
def Node.isSeq : Node → Bool
  | .Seq .. => true
  | _ => false

namespace AST_Seq

/-- The static method `cons(x, y)`: a new `AST_Seq` object (at the fresh address `addr`)
with `car = x` and `cdr = y`. -/
def cons (addr : Nat) (x : Node) (y : Option Node) : Node :=
  .Seq addr x y

/-- The loop `for (var i = array.length; --i >= 0;) list = AST_Seq.cons(array[i], list);`
of `from_array`, with `i` the counter before the decrement and `alloc` the next free
address. Inside the loop the index is below `array.length`. -/
def from_array.build (array : List Node) : Nat → Option Node → Nat → Option Node
  | 0, list, _ => list
  | i + 1, list, alloc =>
    match array[i]? with
    | none => list
    | some x => from_array.build array i (some (cons alloc x list)) (alloc + 1)

/-- The loop `while (p) { if (p.cdr && !p.cdr.cdr) { p.cdr = p.cdr.car; break; } p = p.cdr; }`
of `from_array`, as the chain it leaves behind. A `cdr` that is no `AST_Seq` has neither
`cdr` nor `car`, so the assignment stores `undefined`. -/
def from_array.collapse : Node → Node
  | .Seq a car cdr =>
    match cdr with
    | none => .Seq a car none
    | some c =>
      match c with
      | .Seq _ ccar ccdr =>
        if ccdr.isNone then .Seq a car (some ccar)
        else .Seq a car (some (from_array.collapse c))
      | _ => .Seq a car none
  | n => n

/-- The static method `from_array(array)`; `none` is `null`. Objects are created at the
addresses `alloc`, `alloc + 1`, ... -/
def from_array (alloc : Nat) (array : List Node) : Option Node :=
  match array with
  | [] => none
  | [x] => some (x.clone alloc)
  | _ => (from_array.build array array.length none alloc).map from_array.collapse

/-- The loop of `to_array` from the cell `p` on: push `p.car`; push `p.cdr` too and stop
when it is a node that is no `AST_Seq`; else go on with `p.cdr`. -/
def to_array.loop : Node → List Node
  | .Seq _ car cdr =>
    match cdr with
    | none => [car]
    | some c =>
      match c with
      | .Seq .. => car :: to_array.loop c
      | _ => [car, c]
  | _ => []

/-- The loop of `add(node)` from the cell `p` on: the chain after the call and the cell
that the call returns. When the slot `p.cdr` to wrap is empty the source builds a cell
whose `car` is `null`, which is no node of this model: `none`. -/
def add.loop (alloc : Nat) (node : Node) : Node → Option (Node × Node)
  | .Seq a car cdr =>
    match cdr with
    | none => none
    | some c =>
      match c with
      | .Seq .. =>
        match add.loop alloc node c with
        | none => none
        | some (c1, cell) => some (.Seq a car (some c1), cell)
      | _ => some (.Seq a car (some (cons alloc c (some node))), cons alloc c (some node))
  | _ => none

/-- The chain `Seq(e1, Seq(e2, ... Seq(e(n-1), en)))` over `e :: rest`, a bare `e` when
`rest` is empty; the cell of the element at index `i` of `n` has address
`alloc + (n - 1 - i)`. -/
def chain (alloc : Nat) : Node → List Node → Node
  | e, [] => e
  | e, e2 :: rest => .Seq (alloc + rest.length + 1) e (some (chain alloc e2 rest))

/-- The chain of cells that the first loop of `from_array` has built over `es`, in front
of `list`: the cell of the last element was created first, at address `alloc`. -/
def cells (alloc : Nat) : List Node → Option Node → Option Node
  | [], list => list
  | e :: es, list => some (.Seq (alloc + es.length) e (cells alloc es list))

end AST_Seq

/-- The field read `n.car`: defined on an `AST_Seq` only. -/
def Node.car? : Node → Option Node
  | .Seq _ car _ => some car
  | _ => none

/-- The field read `n.cdr`: defined on an `AST_Seq` that holds a `cdr`. -/
def Node.cdr? : Node → Option Node
  | .Seq _ _ cdr => cdr
  | _ => none

/-- The node reached from `n` by reading `cdr` `k` times. -/
def Node.cdrAt : Nat → Node → Option Node
  | 0, n => some n
  | k + 1, n => n.cdr?.bind (Node.cdrAt k)

/-- The method `to_array()`, which only `AST_Seq` has: on another node the call throws
a `TypeError`. -/
def Node.to_array (n : Node) : Option (List Node) :=
  if n.isSeq then some (AST_Seq.to_array.loop n) else none

/-- The method `add(node)` of `AST_Seq`: the chain after the call and the returned cell. -/
def Node.add (n : Node) (alloc : Nat) (node : Node) : Option (Node × Node) :=
  AST_Seq.add.loop alloc node n

namespace Sample

/-- The expressions `a`, `b`: a list of size 2. -/
def two : List Node :=
  [sym 1 "a", sym 2 "b"]

/-- A list of size 3. -/
def three : List Node :=
  [sym 1 "a", sym 2 "b", sym 3 "c"]

/-- A list of size 10. -/
def ten : List Node :=
  [sym 1 "a", sym 2 "b", sym 3 "c", sym 4 "d", sym 5 "e", sym 6 "f", sym 7 "g",
    sym 8 "h", sym 9 "i", sym 10 "j"]

/-- The chain `(p, q)`. -/
def pq : Node :=
  .Seq 20 (sym 21 "p") (some (sym 22 "q"))

end Sample

/-! ## DEFNODE -/

/-- A value held by a property of a behaviour table, of a prototype, of a constructor or
of an argument object. Functions and objects are known by an identifier; `nan` and
`infinity` are the two numbers that `JSValue.number` does not cover; `builtin` is a
member that every object inherits from `Object.prototype`. Of a function `test id yes`
the result of a call with one string is known as well: it is truthy for the strings of
`yes` and falsy for every other string, and the call does nothing else. -/
inductive Value where
  | prim (v : JSValue)
  | nan
  | infinity
  | fn (id : Nat)
  | obj (id : Nat)
  | ctor (id : Nat)
  | builtin (name : String)
  | test (id : Nat) (yes : List String)
  deriving DecidableEq, Repr

/-- ToBoolean of a value. -/
def Value.truthy : Value → Bool
  | .prim v => v.truthy
  | .nan => false
  | _ => true

/-- Whether a call of the value succeeds; calling anything else throws a `TypeError`. -/
def Value.callable : Value → Bool
  | .fn _ => true
  | .ctor _ => true
  | .builtin name => name != "__proto__"
  | .test .. => true
  | _ => false

/-- The own properties of an object, the latest written first. An object literal is the
list of its entries in source order (strict mode code has no duplicate keys). -/
abbrev Table := List (String × Value)

/-- The names that every object inherits from `Object.prototype`. -/
def ObjectPrototype.names : List String :=
  ["constructor", "toString", "toLocaleString", "valueOf", "hasOwnProperty",
    "isPrototypeOf", "propertyIsEnumerable", "__proto__", "__defineGetter__",
    "__defineSetter__", "__lookupGetter__", "__lookupSetter__"]

/-- A property read that reaches `Object.prototype`. -/
def ObjectPrototype.get (key : String) : Value :=
  if key ∈ ObjectPrototype.names then .builtin key else .prim .undefined

/-- A constructor returned by `DEFNODE`: its static properties `TYPE`, `PROPS`,
`SELF_PROPS` and `BASE`, the other static properties written from `$` entries, the own
properties of `ctor.prototype`, and whether the generated function body ends with
`this.initialize();`. -/
structure Ctor where
  TYPE : Option String
  PROPS : List String
  SELF_PROPS : List String
  BASE : Option Nat
  statics : Table
  proto : Table
  callsInitialize : Bool
  deriving DecidableEq, Repr

/-- The constructors made so far (a constructor is known by its index in `ctors`), the
array `SUBCLASSES` of each of them, and the global variables that hold a constructor. -/
structure Registry where
  ctors : List Ctor
  subclasses : List (List Nat)
  vars : List (String × Nat)
  deriving Repr

/-- The state before the first `DEFNODE` call. -/
def Registry.empty : Registry := ⟨[], [], []⟩

/-- The array `ctor.SUBCLASSES` of constructor `k`. -/
def Registry.SUBCLASSES (reg : Registry) (k : Nat) : List Nat :=
  reg.subclasses.getD k []

/-- A property read on an object whose prototype is `ctor.prototype` of constructor `k`,
after the own properties of the object: the prototype's own properties, then those of the
base constructor's prototype and so on; a constructor without base has the prototype
object it was created with, which holds `constructor` and inherits from
`Object.prototype`. A base is made before the kinds derived from it, so `fuel = k + 1`
links reach the root. -/
def Registry.lookup (reg : Registry) (key : String) : Nat → Nat → Value
  | 0, _ => .prim .undefined
  | fuel + 1, k =>
    match reg.ctors[k]? with
    | none => .prim .undefined
    | some c =>
      match c.proto.lookup key with
      | some v => v
      | none =>
        match c.BASE with
        | some b => Registry.lookup reg key fuel b
        | none => if key = "constructor" then .ctor k else ObjectPrototype.get key

/-- The read `ctor.prototype[key]` through the prototype chain of constructor `k`. -/
def Registry.protoGet (reg : Registry) (k : Nat) (key : String) : Value :=
  reg.lookup key (k + 1) k

/-- The fourth argument of a `DEFNODE` call: left out, the literal `null`, or a variable. -/
inductive BaseArg where
  | omitted
  | null
  | var (name : String)
  deriving DecidableEq, Repr

/-- The value of `base` after `if (arguments.length < 4) base = AST_Node;`: a variable
that holds no constructor yet is `undefined`. -/
def Registry.resolve (reg : Registry) : BaseArg → Option Nat
  | .omitted => reg.vars.lookup "AST_Node"
  | .null => none
  | .var name => reg.vars.lookup name

namespace DEFNODE

/-- The characters matched by `\s`. -/
def isWhiteSpace (c : Char) : Bool :=
  c.toNat ∈ [9, 10, 11, 12, 13, 32, 160, 5760, 8192, 8193, 8194, 8195, 8196, 8197, 8198,
    8199, 8200, 8201, 8202, 8232, 8233, 8239, 8287, 12288, 65279]

/-- `split(/\s+/)` on the characters left, where `run` tells that the character before
was white space and `cur` is the piece read so far, reversed. -/
def split.go : List Char → Bool → List Char → List String
  | [], _, cur => [String.mk cur.reverse]
  | c :: cs, run, cur =>
    if isWhiteSpace c then
      if run then split.go cs true cur
      else String.mk cur.reverse :: split.go cs true []
    else split.go cs false (c :: cur)

/-- `props.split(/\s+/)`: the pieces between the maximal runs of white space. -/
def split (props : String) : List String :=
  split.go props.data false []

/-- `if (!props) props = []; else props = props.split(/\s+/);`. -/
def fields : Option String → List String
  | none => []
  | some s => if s = "" then [] else split s

def isIdentifierStart (c : Char) : Bool :=
  c.isAlpha || c == '$' || c == '_'

def isIdentifierPart (c : Char) : Bool :=
  isIdentifierStart c || c.isDigit

/-- Whether `this.<name> = props.<name>;` parses: `name` is an identifier name. Only
names made of ASCII letters, digits, `$` and `_` are accepted. -/
def isIdentifierName (name : String) : Bool :=
  match name.data with
  | [] => false
  | c :: cs => isIdentifierStart c && cs.all isIdentifierPart

/-- Whether the text handed to `new Function` parses: `"AST_" + type` is the name of the
function and every name of `props` is used after `this.` and `props.`. -/
def parses (type : String) (props : List String) : Bool :=
  type.data.all isIdentifierPart && props.all isIdentifierName

/-- The test `/^\$/.test(i)`. -/
def isStatic (key : String) : Bool :=
  key.data.head? == some '$'

/-- The keys of a behaviour table whose write would replace a property that `DEFNODE`
keeps on the constructor (`$PROPS`, ...), would be refused by the engine (`$name`,
`$length`, ...) or would replace the prototype chain (`__proto__`). Such tables are not
covered. -/
def reserved : List String :=
  ["$PROPS", "$SELF_PROPS", "$SUBCLASSES", "$BASE", "$TYPE", "$prototype", "$name",
    "$length", "$caller", "$arguments", "__proto__"]

/-- The behaviour tables that are covered: no reserved key; as in every object literal of
strict mode code, no key twice; and an own property `hasOwnProperty`, which the loop over
the table calls, is not a function whose result is unknown. -/
def covered (methods : Table) : Bool :=
  methods.all (fun e => e.1 ∉ reserved) && decide (methods.map Prod.fst).Nodup &&
  (match methods.lookup "hasOwnProperty" with
    | some (.fn _) => false
    | some (.ctor _) => false
    | some (.builtin _) => false
    | _ => true)

/-- The call `methods.hasOwnProperty(i)` in the loop over the behaviour table, for a key
`i` that the loop enumerates. The method is looked up on the table: a table without own
property `hasOwnProperty` inherits the one of `Object.prototype`, which answers `true`
for an own key; an own property is called, and `none` is the `TypeError` of a call of
a value that is no function (or a function whose result is unknown, in a table that is
not covered). -/
def hasOwnProperty (methods : Table) (i : String) : Option Bool :=
  match methods.lookup "hasOwnProperty" with
  | none => some true
  | some (.test _ yes) => some (decide (i ∈ yes))
  | some _ => none

/-- The entries of the behaviour table that pass `if (methods.hasOwnProperty(i))`, in the
order of the loop; `none` when a call `methods.hasOwnProperty(i)` throws. -/
def copied (methods : Table) : Option Table :=
  if methods.all (fun e => (hasOwnProperty methods e.1).isSome) then
    some (methods.filter fun e => hasOwnProperty methods e.1 == some true)
  else none

/-- The own properties of `ctor.prototype` after `ctor.prototype.CTOR = ctor`, the write
of `TYPE`, and the loop over the entries of the behaviour table that pass the test of
the loop. -/
def prototype (k : Nat) (type : String) (methods : Table) : Table :=
  methods.foldl (fun t e => if isStatic e.1 then t else (e.1, e.2) :: t)
    ((if type = "" then [] else [("TYPE", Value.prim (.string type))]) ++
      [("CTOR", Value.ctor k)])

/-- The static properties written by the loop over the entries of the behaviour table
that pass the test of the loop: `ctor[i.substr(1)] = methods[i]`. -/
def statics (methods : Table) : Table :=
  methods.foldl
    (fun t e => if isStatic e.1 then (String.mk (e.1.data.drop 1), e.2) :: t else t) []

end DEFNODE

/-- The function `DEFNODE(type, props, methods, base)` in the state `reg`: the state after
the call and the constructor returned. `props` and `methods` are `none` for `null`.
The result is `none` when `new Function` throws a `SyntaxError`, when a call
`methods.hasOwnProperty(i)` throws a `TypeError`, and for a behaviour table that is not
covered. -/
def DEFNODE (reg : Registry) (type : String) (props : Option String)
    (methods : Option Table) (base : BaseArg) : Option (Registry × Nat) :=
  let base := reg.resolve base
  let self_props := DEFNODE.fields props
  match (match base with
    | none => some none
    | some b => (reg.ctors[b]?).map some) with
  | none => none
  | some baseCtor =>
    let props := self_props ++ (match baseCtor with
      | some B => B.PROPS
      | none => [])
    let hook :=
      (match base with
        | some b => (reg.protoGet b "initialize").truthy
        | none => false) ||
      (match methods with
        | some m => ((m.lookup "initialize").getD (.prim .undefined)).truthy
        | none => false)
    if !DEFNODE.parses type props then none
    else if !DEFNODE.covered (methods.getD []) then none
    else
      match DEFNODE.copied (methods.getD []) with
      | none => none
      | some entries =>
        let k := reg.ctors.length
        let ctor : Ctor :=
          { TYPE := if type = "" then none else some type
            PROPS := props
            SELF_PROPS := self_props
            BASE := base
            statics := DEFNODE.statics entries
            proto := DEFNODE.prototype k type entries
            callsInitialize := hook }
        let subclasses :=
          match base with
          | some b => reg.subclasses.set b (reg.SUBCLASSES b ++ [k])
          | none => reg.subclasses
        some ({ ctors := reg.ctors ++ [ctor], subclasses := subclasses ++ [[]],
                vars := reg.vars }, k)

/-- What holds after every sequence of `DEFNODE` calls: a base is made before the kinds
derived from it, the full field list of a kind is its own fields followed by the full
field list of its base, the kind is in `SUBCLASSES` of its base and every element of
`SUBCLASSES` has that base, and a kind whose prototype chain holds a truthy `initialize`
has a constructor that calls it. -/
structure Registry.Inv (reg : Registry) : Prop where
  sub_len : reg.subclasses.length = reg.ctors.length
  vars_lt : ∀ x k, reg.vars.lookup x = some k → k < reg.ctors.length
  base_lt : ∀ (k : Nat) (C : Ctor) (b : Nat), reg.ctors[k]? = some C → C.BASE = some b → b < k
  props_base : ∀ (k : Nat) (C : Ctor) (b : Nat), reg.ctors[k]? = some C → C.BASE = some b →
    ∃ B : Ctor, reg.ctors[b]? = some B ∧ C.PROPS = C.SELF_PROPS ++ B.PROPS
  props_root : ∀ (k : Nat) (C : Ctor), reg.ctors[k]? = some C → C.BASE = none → C.PROPS = C.SELF_PROPS
  sub_mem : ∀ (k : Nat) (C : Ctor) (b : Nat), reg.ctors[k]? = some C → C.BASE = some b → k ∈ reg.SUBCLASSES b
  sub_base : ∀ (b k : Nat), k ∈ reg.SUBCLASSES b → ∃ C : Ctor, reg.ctors[k]? = some C ∧ C.BASE = some b
  hook : ∀ (k : Nat) (C : Ctor), reg.ctors[k]? = some C →
    (reg.protoGet k "initialize").truthy = true → C.callsInitialize = true

/-- The own fields of constructor `k` followed by the own fields of its base, of the base
of its base and so on, for at most `fuel` links. -/
def Registry.fieldsUp (reg : Registry) : Nat → Nat → List String
  | 0, _ => []
  | fuel + 1, k =>
    match reg.ctors[k]? with
    | none => []
    | some c =>
      c.SELF_PROPS ++
        (match c.BASE with
          | some b => Registry.fieldsUp reg fuel b
          | none => [])

/-- A statement `var name = DEFNODE(type, props, methods, base);`. -/
structure Definition where
  name : String
  type : String
  props : Option String
  methods : Option Table
  base : BaseArg
  deriving Repr

/-- Run one definition: call `DEFNODE` and store the constructor in the variable. -/
def Registry.define (reg : Registry) (d : Definition) : Option Registry :=
  match DEFNODE reg d.type d.props d.methods d.base with
  | none => none
  | some (reg1, k) => some { reg1 with vars := (d.name, k) :: reg1.vars }

/-- Run a list of definitions in order. -/
def Registry.run : List Definition → Registry → Option Registry
  | [], reg => some reg
  | d :: ds, reg =>
    match reg.define d with
    | none => none
    | some reg1 => Registry.run ds reg1

/-- What a constructor call does, in order: property writes on `this` and calls. -/
inductive Event where
  | set (field : String) (v : Value)
  | call (f : Value)
  deriving DecidableEq, Repr

/-- Whether the event is a call. -/
def Event.isCall : Event → Bool
  | .call _ => true
  | .set .. => false

/-- An object made by a constructor of `DEFNODE`: the constructor and the own
properties. -/
structure Instance where
  CTOR : Nat
  own : Table
  deriving DecidableEq, Repr

/-- The read `inst[key]`: an own property, else the prototype chain. -/
def Instance.get (reg : Registry) (inst : Instance) (key : String) : Value :=
  match inst.own.lookup key with
  | some v => v
  | none => reg.protoGet inst.CTOR key

/-- The result of `new ctor(props)`: the object as the generated function body leaves it
once the fields are copied, which is the object that `initialize` is called on, and what
the body did in order. The function called as `initialize` is the client's. -/
structure Constructed where
  inst : Instance
  trace : List Event
  deriving DecidableEq, Repr

/-- The call `new ctor(props)` of constructor `k`, whose body is
`if (props) { this.pn = props.pn; ...; this.p1 = props.p1; this.initialize(); }`
with the last statement only when `callsInitialize`. `props` is `none` for no argument
(or a falsy one) and else the property read of the argument. `none`: the call throws a
`TypeError` because `this.initialize` is no function. -/
def construct (reg : Registry) (k : Nat) (props : Option (String → Value)) :
    Option Constructed :=
  match reg.ctors[k]? with
  | none => none
  | some c =>
    match props with
    | none => some ⟨⟨k, []⟩, []⟩
    | some p =>
      let order := c.PROPS.reverse
      let inst : Instance := ⟨k, order.foldl (fun t f => (f, p f) :: t) []⟩
      let sets := order.map fun f => Event.set f (p f)
      if c.callsInitialize then
        if (inst.get reg "initialize").callable then
          some ⟨inst, sets ++ [Event.call (inst.get reg "initialize")]⟩
        else none
      else some ⟨inst, sets⟩

namespace AST

/-- The `DEFNODE` calls of `lib/ast-comments.js`, part `base`. Functions and object
literals of the behaviour tables are numbered in source order. -/
def program.base : List Definition := [
  ⟨"AST_Token", "Token", (some "type value line col pos endpos nlb comments_before file"),
    some [],
    .null⟩,
  ⟨"AST_Node", "Node", (some "start end"),
    some [("clone", .fn 1),
      ("$documentation", .prim (.string "Base class of all AST nodes")),
      ("$propdoc", .obj 2),
      ("_walk", .fn 3),
      ("walk", .fn 4)],
    .null⟩,
  ⟨"AST_Statement", "Statement", none,
    some [("$documentation", .prim (.string "Base class of all statements"))],
    .omitted⟩,
  ⟨"AST_Debugger", "Debugger", none,
    some [("$documentation", .prim (.string "Represents a debugger statement"))],
    (.var "AST_Statement")⟩,
  ⟨"AST_Directive", "Directive", (some "value scope"),
    some [("$documentation", .prim (.string "Represents a directive, like \"use strict\";")),
      ("$propdoc", .obj 5)],
    (.var "AST_Statement")⟩]

/-- The `DEFNODE` calls of `lib/ast-comments.js`, part `statements`. Functions and object
literals of the behaviour tables are numbered in source order. -/
def program.statements : List Definition := [
  ⟨"AST_SimpleStatement", "SimpleStatement", (some "body"),
    some [("$documentation", .prim (.string "A statement consisting of an expression, i.e. a = 1 + 2")),
      ("$propdoc", .obj 6),
      ("_walk", .fn 7)],
    (.var "AST_Statement")⟩,
  ⟨"AST_Block", "Block", (some "body"),
    some [("$documentation", .prim (.string "A body of statements (usually bracketed)")),
      ("$propdoc", .obj 8),
      ("_walk", .fn 9)],
    (.var "AST_Statement")⟩,
  ⟨"AST_BlockStatement", "BlockStatement", none,
    some [("$documentation", .prim (.string "A block statement"))],
    (.var "AST_Block")⟩,
  ⟨"AST_Scope", "Scope", (some "directives variables functions uses_with uses_eval parent_scope enclosed cname"),
    some [("$documentation", .prim (.string "Base class for all statements introducing a lexical scope")),
      ("$propdoc", .obj 10)],
    (.var "AST_Block")⟩,
  ⟨"AST_Toplevel", "Toplevel", (some "globals"),
    some [("$documentation", .prim (.string "The toplevel scope")),
      ("$propdoc", .obj 11),
      ("wrap_commonjs", .fn 12)],
    (.var "AST_Scope")⟩,
  ⟨"AST_Lambda", "Lambda", (some "name argnames uses_arguments"),
    some [("$documentation", .prim (.string "Base class for functions")),
      ("$propdoc", .obj 13),
      ("_walk", .fn 14)],
    (.var "AST_Scope")⟩,
  ⟨"AST_Accessor", "Accessor", none,
    some [("$documentation", .prim (.string "A setter/getter function"))],
    (.var "AST_Lambda")⟩,
  ⟨"AST_Function", "Function", none,
    some [("$documentation", .prim (.string "A function expression"))],
    (.var "AST_Lambda")⟩,
  ⟨"AST_Defun", "Defun", none,
    some [("$documentation", .prim (.string "A function definition"))],
    (.var "AST_Lambda")⟩]

/-- The `DEFNODE` calls of `lib/ast-comments.js`, part `switches`. Functions and object
literals of the behaviour tables are numbered in source order. -/
def program.switches : List Definition := [
  ⟨"AST_Switch", "Switch", (some "expression"),
    some [("$documentation", .prim (.string "A `switch` statement")),
      ("$propdoc", .obj 15),
      ("_walk", .fn 16)],
    (.var "AST_Block")⟩,
  ⟨"AST_SwitchBranch", "SwitchBranch", none,
    some [("$documentation", .prim (.string "Base class for `switch` branches"))],
    (.var "AST_Block")⟩,
  ⟨"AST_Default", "Default", none,
    some [("$documentation", .prim (.string "A `default` switch branch"))],
    (.var "AST_SwitchBranch")⟩,
  ⟨"AST_Case", "Case", (some "expression"),
    some [("$documentation", .prim (.string "A `case` switch branch")),
      ("$propdoc", .obj 17),
      ("_walk", .fn 18)],
    (.var "AST_SwitchBranch")⟩,
  ⟨"AST_Try", "Try", (some "bcatch bfinally"),
    some [("$documentation", .prim (.string "A `try` statement")),
      ("$propdoc", .obj 19),
      ("_walk", .fn 20)],
    (.var "AST_Block")⟩,
  ⟨"AST_Catch", "Catch", (some "argname"),
    some [("$documentation", .prim (.string "A `catch` node; only makes sense as part of a `try` statement")),
      ("$propdoc", .obj 21),
      ("_walk", .fn 22)],
    (.var "AST_Block")⟩,
  ⟨"AST_Finally", "Finally", none,
    some [("$documentation", .prim (.string "A `finally` node; only makes sense as part of a `try` statement"))],
    (.var "AST_Block")⟩]

/-- The `DEFNODE` calls of `lib/ast-comments.js`, part `loops`. Functions and object
literals of the behaviour tables are numbered in source order. -/
def program.loops : List Definition := [
  ⟨"AST_EmptyStatement", "EmptyStatement", none,
    some [("$documentation", .prim (.string "The empty statement (empty block or simply a semicolon)")),
      ("_walk", .fn 23)],
    (.var "AST_Statement")⟩,
  ⟨"AST_StatementWithBody", "StatementWithBody", (some "body"),
    some [("$documentation", .prim (.string "Base class for all statements that contain one nested body: `For`, `ForIn`, `Do`, `While`, `With`")),
      ("$propdoc", .obj 24),
      ("_walk", .fn 25)],
    (.var "AST_Statement")⟩,
  ⟨"AST_LabeledStatement", "LabeledStatement", (some "label"),
    some [("$documentation", .prim (.string "Statement with a label")),
      ("$propdoc", .obj 26),
      ("_walk", .fn 27)],
    (.var "AST_StatementWithBody")⟩,
  ⟨"AST_DWLoop", "DWLoop", (some "condition"),
    some [("$documentation", .prim (.string "Base class for do/while statements")),
      ("$propdoc", .obj 28),
      ("_walk", .fn 29)],
    (.var "AST_StatementWithBody")⟩,
  ⟨"AST_Do", "Do", none,
    some [("$documentation", .prim (.string "A `do` statement"))],
    (.var "AST_DWLoop")⟩,
  ⟨"AST_While", "While", none,
    some [("$documentation", .prim (.string "A `while` statement"))],
    (.var "AST_DWLoop")⟩,
  ⟨"AST_For", "For", (some "init condition step"),
    some [("$documentation", .prim (.string "A `for` statement")),
      ("$propdoc", .obj 30),
      ("_walk", .fn 31)],
    (.var "AST_StatementWithBody")⟩,
  ⟨"AST_ForIn", "ForIn", (some "init name object"),
    some [("$documentation", .prim (.string "A `for ... in` statement")),
      ("$propdoc", .obj 32),
      ("_walk", .fn 33)],
    (.var "AST_StatementWithBody")⟩,
  ⟨"AST_With", "With", (some "expression"),
    some [("$documentation", .prim (.string "A `with` statement")),
      ("$propdoc", .obj 34),
      ("_walk", .fn 35)],
    (.var "AST_StatementWithBody")⟩,
  ⟨"AST_If", "If", (some "condition alternative"),
    some [("$documentation", .prim (.string "A `if` statement")),
      ("$propdoc", .obj 36),
      ("_walk", .fn 37)],
    (.var "AST_StatementWithBody")⟩]

/-- The `DEFNODE` calls of `lib/ast-comments.js`, part `jumps`. Functions and object
literals of the behaviour tables are numbered in source order. -/
def program.jumps : List Definition := [
  ⟨"AST_Jump", "Jump", none,
    some [("$documentation", .prim (.string "Base class for “jumps” (for now that's `return`, `throw`, `break` and `continue`)"))],
    (.var "AST_Statement")⟩,
  ⟨"AST_Exit", "Exit", (some "value"),
    some [("$documentation", .prim (.string "Base class for “exits” (`return` and `throw`)")),
      ("$propdoc", .obj 38),
      ("_walk", .fn 39)],
    (.var "AST_Jump")⟩,
  ⟨"AST_Return", "Return", none,
    some [("$documentation", .prim (.string "A `return` statement"))],
    (.var "AST_Exit")⟩,
  ⟨"AST_Throw", "Throw", none,
    some [("$documentation", .prim (.string "A `throw` statement"))],
    (.var "AST_Exit")⟩,
  ⟨"AST_LoopControl", "LoopControl", (some "label"),
    some [("$documentation", .prim (.string "Base class for loop control statements (`break` and `continue`)")),
      ("$propdoc", .obj 40),
      ("_walk", .fn 41)],
    (.var "AST_Jump")⟩,
  ⟨"AST_Break", "Break", none,
    some [("$documentation", .prim (.string "A `break` statement"))],
    (.var "AST_LoopControl")⟩,
  ⟨"AST_Continue", "Continue", none,
    some [("$documentation", .prim (.string "A `continue` statement"))],
    (.var "AST_LoopControl")⟩,
  ⟨"AST_Definitions", "Definitions", (some "definitions"),
    some [("$documentation", .prim (.string "Base class for `var` or `const` nodes (variable declarations/initializations)")),
      ("$propdoc", .obj 42),
      ("_walk", .fn 43)],
    (.var "AST_Statement")⟩,
  ⟨"AST_Var", "Var", none,
    some [("$documentation", .prim (.string "A `var` statement"))],
    (.var "AST_Definitions")⟩,
  ⟨"AST_Const", "Const", none,
    some [("$documentation", .prim (.string "A `const` statement"))],
    (.var "AST_Definitions")⟩]

/-- The `DEFNODE` calls of `lib/ast-comments.js`, part `expressions`. Functions and object
literals of the behaviour tables are numbered in source order. -/
def program.expressions : List Definition := [
  ⟨"AST_VarDef", "VarDef", (some "name value"),
    some [("$documentation", .prim (.string "A variable declaration; only appears in a AST_Definitions node")),
      ("$propdoc", .obj 44),
      ("_walk", .fn 45)],
    .omitted⟩,
  ⟨"AST_Call", "Call", (some "expression args"),
    some [("$documentation", .prim (.string "A function call expression")),
      ("$propdoc", .obj 46),
      ("_walk", .fn 47)],
    .omitted⟩,
  ⟨"AST_New", "New", none,
    some [("$documentation", .prim (.string "An object instantiation.  Derives from a function call since it has exactly the same properties"))],
    (.var "AST_Call")⟩,
  ⟨"AST_Seq", "Seq", (some "car cdr"),
    some [("$documentation", .prim (.string "A sequence expression (two comma-separated expressions)")),
      ("$propdoc", .obj 48),
      ("$cons", .fn 49),
      ("$from_array", .fn 50),
      ("to_array", .fn 51),
      ("add", .fn 52),
      ("_walk", .fn 53)],
    .omitted⟩,
  ⟨"AST_PropAccess", "PropAccess", (some "expression property"),
    some [("$documentation", .prim (.string "Base class for property access expressions, i.e. `a.foo` or `a[\"foo\"]`")),
      ("$propdoc", .obj 54)],
    .omitted⟩,
  ⟨"AST_Dot", "Dot", none,
    some [("$documentation", .prim (.string "A dotted property access expression")),
      ("_walk", .fn 55)],
    (.var "AST_PropAccess")⟩,
  ⟨"AST_Sub", "Sub", none,
    some [("$documentation", .prim (.string "Index-style property access, i.e. `a[\"foo\"]`")),
      ("_walk", .fn 56)],
    (.var "AST_PropAccess")⟩]

/-- The `DEFNODE` calls of `lib/ast-comments.js`, part `operators`. Functions and object
literals of the behaviour tables are numbered in source order. -/
def program.operators : List Definition := [
  ⟨"AST_Unary", "Unary", (some "operator expression"),
    some [("$documentation", .prim (.string "Base class for unary expressions")),
      ("$propdoc", .obj 57),
      ("_walk", .fn 58)],
    .omitted⟩,
  ⟨"AST_UnaryPrefix", "UnaryPrefix", none,
    some [("$documentation", .prim (.string "Unary prefix expression, i.e. `typeof i` or `++i`"))],
    (.var "AST_Unary")⟩,
  ⟨"AST_UnaryPostfix", "UnaryPostfix", none,
    some [("$documentation", .prim (.string "Unary postfix expression, i.e. `i++`"))],
    (.var "AST_Unary")⟩,
  ⟨"AST_Binary", "Binary", (some "left operator right"),
    some [("$documentation", .prim (.string "Binary expression, i.e. `a + b`")),
      ("$propdoc", .obj 59),
      ("_walk", .fn 60)],
    .omitted⟩,
  ⟨"AST_Assign", "Assign", none,
    some [("$documentation", .prim (.string "An assignment expression — `a = b + 5`"))],
    (.var "AST_Binary")⟩,
  ⟨"AST_Conditional", "Conditional", (some "condition consequent alternative"),
    some [("$documentation", .prim (.string "Conditional expression using the ternary operator, i.e. `a ? b : c`")),
      ("$propdoc", .obj 61),
      ("_walk", .fn 62)],
    .omitted⟩,
  ⟨"AST_Array", "Array", (some "elements"),
    some [("$documentation", .prim (.string "An array literal")),
      ("$propdoc", .obj 63),
      ("_walk", .fn 64)],
    .omitted⟩,
  ⟨"AST_Object", "Object", (some "properties"),
    some [("$documentation", .prim (.string "An object literal")),
      ("$propdoc", .obj 65),
      ("_walk", .fn 66)],
    .omitted⟩,
  ⟨"AST_ObjectProperty", "ObjectProperty", (some "key value"),
    some [("$documentation", .prim (.string "Base class for literal object properties")),
      ("$propdoc", .obj 67),
      ("_walk", .fn 68)],
    .omitted⟩,
  ⟨"AST_ObjectKeyVal", "ObjectKeyVal", none,
    some [("$documentation", .prim (.string "A key: value object property"))],
    (.var "AST_ObjectProperty")⟩,
  ⟨"AST_ObjectSetter", "ObjectSetter", none,
    some [("$documentation", .prim (.string "An object setter property"))],
    (.var "AST_ObjectProperty")⟩,
  ⟨"AST_ObjectGetter", "ObjectGetter", none,
    some [("$documentation", .prim (.string "An object getter property"))],
    (.var "AST_ObjectProperty")⟩]

/-- The `DEFNODE` calls of `lib/ast-comments.js`, part `symbols`. Functions and object
literals of the behaviour tables are numbered in source order. -/
def program.symbols : List Definition := [
  ⟨"AST_Symbol", "Symbol", (some "scope name thedef"),
    some [("$propdoc", .obj 69),
      ("$documentation", .prim (.string "Base class for all symbols"))],
    .omitted⟩,
  ⟨"AST_SymbolAccessor", "SymbolAccessor", none,
    some [("$documentation", .prim (.string "The name of a property accessor (setter/getter function)"))],
    (.var "AST_Symbol")⟩,
  ⟨"AST_SymbolDeclaration", "SymbolDeclaration", (some "init"),
    some [("$documentation", .prim (.string "A declaration symbol (symbol in var/const, function name or argument, symbol in catch)")),
      ("$propdoc", .obj 70)],
    (.var "AST_Symbol")⟩,
  ⟨"AST_SymbolVar", "SymbolVar", none,
    some [("$documentation", .prim (.string "Symbol defining a variable"))],
    (.var "AST_SymbolDeclaration")⟩,
  ⟨"AST_SymbolFunarg", "SymbolFunarg", none,
    some [("$documentation", .prim (.string "Symbol naming a function argument"))],
    (.var "AST_SymbolVar")⟩,
  ⟨"AST_SymbolConst", "SymbolConst", none,
    some [("$documentation", .prim (.string "A constant declaration"))],
    (.var "AST_SymbolDeclaration")⟩,
  ⟨"AST_SymbolDefun", "SymbolDefun", none,
    some [("$documentation", .prim (.string "Symbol defining a function"))],
    (.var "AST_SymbolDeclaration")⟩,
  ⟨"AST_SymbolLambda", "SymbolLambda", none,
    some [("$documentation", .prim (.string "Symbol naming a function expression"))],
    (.var "AST_SymbolDeclaration")⟩,
  ⟨"AST_SymbolCatch", "SymbolCatch", none,
    some [("$documentation", .prim (.string "Symbol naming the exception in catch"))],
    (.var "AST_SymbolDeclaration")⟩,
  ⟨"AST_Label", "Label", (some "references"),
    some [("$documentation", .prim (.string "Symbol naming a label (declaration)")),
      ("$propdoc", .obj 71)],
    (.var "AST_Symbol")⟩,
  ⟨"AST_SymbolRef", "SymbolRef", none,
    some [("$documentation", .prim (.string "Reference to some symbol (not definition/declaration)"))],
    (.var "AST_Symbol")⟩,
  ⟨"AST_LabelRef", "LabelRef", none,
    some [("$documentation", .prim (.string "Reference to a label symbol"))],
    (.var "AST_Symbol")⟩,
  ⟨"AST_This", "This", none,
    some [("$documentation", .prim (.string "The `this` symbol"))],
    (.var "AST_Symbol")⟩]

/-- The `DEFNODE` calls of `lib/ast-comments.js`, part `constants`. Functions and object
literals of the behaviour tables are numbered in source order. -/
def program.constants : List Definition := [
  ⟨"AST_Constant", "Constant", none,
    some [("$documentation", .prim (.string "Base class for all constants")),
      ("getValue", .fn 72)],
    .omitted⟩,
  ⟨"AST_String", "String", (some "value"),
    some [("$documentation", .prim (.string "A string literal")),
      ("$propdoc", .obj 73)],
    (.var "AST_Constant")⟩,
  ⟨"AST_Number", "Number", (some "value"),
    some [("$documentation", .prim (.string "A number literal")),
      ("$propdoc", .obj 74)],
    (.var "AST_Constant")⟩,
  ⟨"AST_RegExp", "RegExp", (some "value"),
    some [("$documentation", .prim (.string "A regexp literal")),
      ("$propdoc", .obj 75)],
    (.var "AST_Constant")⟩,
  ⟨"AST_Atom", "Atom", none,
    some [("$documentation", .prim (.string "Base class for atoms"))],
    (.var "AST_Constant")⟩,
  ⟨"AST_Null", "Null", none,
    some [("$documentation", .prim (.string "The `null` atom")),
      ("value", .prim .null)],
    (.var "AST_Atom")⟩,
  ⟨"AST_NaN", "NaN", none,
    some [("$documentation", .prim (.string "The impossible value")),
      ("value", .nan)],
    (.var "AST_Atom")⟩,
  ⟨"AST_Undefined", "Undefined", none,
    some [("$documentation", .prim (.string "The `undefined` value")),
      ("value", .prim .undefined)],
    (.var "AST_Atom")⟩,
  ⟨"AST_Infinity", "Infinity", none,
    some [("$documentation", .prim (.string "The `Infinity` value")),
      ("value", .infinity)],
    (.var "AST_Atom")⟩,
  ⟨"AST_Boolean", "Boolean", none,
    some [("$documentation", .prim (.string "Base class for booleans"))],
    (.var "AST_Atom")⟩,
  ⟨"AST_False", "False", none,
    some [("$documentation", .prim (.string "The `false` atom")),
      ("value", .prim (.bool false))],
    (.var "AST_Boolean")⟩,
  ⟨"AST_True", "True", none,
    some [("$documentation", .prim (.string "The `true` atom")),
      ("value", .prim (.bool true))],
    (.var "AST_Boolean")⟩]

/-- The `DEFNODE` calls of `lib/ast-comments.js` in source order. -/
def program : List Definition :=
  program.base ++
  program.statements ++
  program.switches ++
  program.loops ++
  program.jumps ++
  program.expressions ++
  program.operators ++
  program.symbols ++
  program.constants

/-- The state after the definitions of the source file. -/
def registry : Option Registry := Registry.run program Registry.empty

/-- The state after the definitions of the source file (they all succeed). -/
def reg : Registry := registry.getD Registry.empty

end AST

namespace Sample

/-- A program in which a kind declares an `initialize` hook: the root kind of the source,
a kind `Label` whose table has `initialize`, and a kind derived from it. -/
def hooked : List Definition := [
  ⟨"AST_Node", "Node", some "start end", some [("clone", .fn 1), ("_walk", .fn 3)], .null⟩,
  ⟨"AST_Label", "Label", some "references", some [("initialize", .fn 7)], .omitted⟩,
  ⟨"AST_Inner", "Inner", some "depth", some [], .var "AST_Label"⟩]

/-- The state after the definitions of `hooked`. -/
def hookedReg : Registry := (Registry.run hooked Registry.empty).getD Registry.empty

/-- An argument object with `references` and `depth`. -/
def innerProps (key : String) : Value :=
  if key = "references" then .obj 800
  else if key = "depth" then .prim (.number 3)
  else .prim .undefined

/-- The constructor `AST_Lambda` after the definitions of the source file. -/
def Lambda : Ctor :=
  { TYPE := some "Lambda"
    PROPS := ["name", "argnames", "uses_arguments", "directives", "variables", "functions",
      "uses_with", "uses_eval", "parent_scope", "enclosed", "cname", "body", "start", "end"]
    SELF_PROPS := ["name", "argnames", "uses_arguments"]
    BASE := some 8
    statics := [("propdoc", .obj 13),
      ("documentation", .prim (.string "Base class for functions"))]
    proto := [("_walk", .fn 14), ("TYPE", .prim (.string "Lambda")), ("CTOR", .ctor 10)]
    callsInitialize := false }

/-- The constructor `AST_Inner` after the definitions of `hooked`. -/
def Inner : Ctor :=
  { TYPE := some "Inner"
    PROPS := ["depth", "references", "start", "end"]
    SELF_PROPS := ["depth"]
    BASE := some 1
    statics := []
    proto := [("TYPE", .prim (.string "Inner")), ("CTOR", .ctor 2)]
    callsInitialize := true }

/-- An argument object with `name`, `body` and `start`. -/
def lambdaProps (key : String) : Value :=
  if key = "name" then .obj 900
  else if key = "body" then .obj 901
  else if key = "start" then .obj 902
  else .prim .undefined

/-- A kind with a field named `initialize` whose behaviour table declares a hook:
`var AST_Shadow = DEFNODE("Shadow", "initialize x", { initialize: function... }, null)`. -/
def shadowed : List Definition := [
  ⟨"AST_Shadow", "Shadow", some "initialize x", some [("initialize", .fn 7)], .null⟩]

/-- The state after the definitions of `shadowed`. -/
def shadowedReg : Registry := (Registry.run shadowed Registry.empty).getD Registry.empty

/-- The argument object `{ x: 1 }`. -/
def onlyX (key : String) : Value :=
  if key = "x" then .prim (.number 1) else .prim .undefined

/-- The argument object `{ x: 1, initialize: g }` with another function `g`. -/
def withInitialize (key : String) : Value :=
  if key = "x" then .prim (.number 1)
  else if key = "initialize" then .fn 9
  else .prim .undefined

/-- A kind whose behaviour table declares a hook and has an own `hasOwnProperty` that
answers `false` for every key:
`DEFNODE("Hidden", "x", { hasOwnProperty: function () { return false; },
initialize: function... }, null)`. -/
def hidden : List Definition := [
  ⟨"AST_Hidden", "Hidden", some "x",
    some [("hasOwnProperty", .test 5 []), ("initialize", .fn 7)], .null⟩]

/-- The state after the definitions of `hidden`. -/
def hiddenReg : Registry := (Registry.run hidden Registry.empty).getD Registry.empty

/-- A kind whose behaviour table has the number `5` as `initialize`, derived from a kind
that declares a hook:
`var AST_Base = DEFNODE("Base", "x", { initialize: function... }, null)`, then
`DEFNODE("Sub", null, { initialize: 5 }, AST_Base)`. -/
def overridden : List Definition := [
  ⟨"AST_Base", "Base", some "x", some [("initialize", .fn 7)], .null⟩,
  ⟨"AST_Sub", "Sub", none, some [("initialize", .prim (.number 5))], .var "AST_Base"⟩]

/-- The state after the definitions of `overridden`. -/
def overriddenReg : Registry :=
  (Registry.run overridden Registry.empty).getD Registry.empty

end Sample

/-! ## TreeWalker queries -/

/-- The property `condition` of a node: `undefined` (here `none`) for a kind without the
field and for a `For` whose condition is `null`. -/
def Node.condition? : Node → Option Node
  | .If _ condition _ _ => some condition
  | .Conditional _ condition _ _ => some condition
  | .DWLoop _ _ condition _ => some condition
  | .For _ _ condition _ _ => condition
  | _ => none

/-- The property `operator` of a node. -/
def Node.operator? : Node → Option String
  | .Unary _ _ operator _ => some operator
  | .Binary _ _ _ operator _ => some operator
  | _ => none

/-- The property `expression` of a node. -/
def Node.expression? : Node → Option Node
  | .Switch _ expression _ => some expression
  | .Case _ expression _ => some expression
  | .With _ expression _ => some expression
  | .Call _ _ expression _ => some expression
  | .Dot _ expression _ => some expression
  | .Sub _ expression _ => some expression
  | .Unary _ _ _ expression => some expression
  | _ => none

/-- The property `name` where it is a string: the text of a symbol; `undefined` for the
other leaves. The kinds whose `name` holds a node (`Lambda`, `ForIn`, `VarDef`) are no
labels and are read as `undefined` as well. -/
def Node.name : Node → JSValue
  | .leaf _ k text => if k.toKind.instanceof .Symbol then .string text else .undefined
  | _ => .undefined

/-- The test `field === self` between a field value and a node: the same object. -/
def Node.strictEq (field : Option Node) (self : Node) : Bool :=
  match field with
  | some x => x.addr == self.addr
  | none => false

namespace TreeWalker

/-- The loop `for (var i = stack.length; --i >= 0;) { var x = stack[i]; if (test(x)) return x; }`
from index `i - 1` down: the first element from the top of the stack that passes `test`,
`undefined` (here `none`) when the loop ends. -/
def scan (test : Node → Bool) (stack : List Node) : Nat → Option Node
  | 0 => none
  | i + 1 =>
    match stack[i]? with
    | none => scan test stack i
    | some x => if test x then some x else scan test stack i

/-- The method `find_parent(type)`. -/
def find_parent (w : WalkState) (type : Kind) : Option Node :=
  scan (fun x => x.kind.instanceof type) w.stack w.stack.length

/-- The first test of the loop of `in_boolean_context`: `p` forces `self` to a boolean. -/
def in_boolean_context.forces (p self : Node) : Bool :=
  (p.kind.instanceof .If && Node.strictEq p.condition? self) ||
  (p.kind.instanceof .Conditional && Node.strictEq p.condition? self) ||
  (p.kind.instanceof .DWLoop && Node.strictEq p.condition? self) ||
  (p.kind.instanceof .For && Node.strictEq p.condition? self) ||
  (p.kind.instanceof .UnaryPrefix && p.operator? == some "!" &&
    Node.strictEq p.expression? self)

/-- The second test of the loop: `p instanceof AST_Binary && (p.operator == "&&" ||
p.operator == "||")`. -/
def in_boolean_context.logical (p : Node) : Bool :=
  p.kind.instanceof .Binary && (p.operator? == some "&&" || p.operator? == some "||")

/-- The loop `while (i > 0) { var p = stack[--i]; ... self = p; }` of
`in_boolean_context`; falling out of the loop returns `undefined`. -/
def in_boolean_context.loop (stack : List Node) : Nat → Node → JSValue
  | 0, _ => .undefined
  | i + 1, self =>
    match stack[i]? with
    | none => .bool false
    | some p =>
      if in_boolean_context.forces p self then .bool true
      else if !in_boolean_context.logical p then .bool false
      else in_boolean_context.loop stack i p

/-- The method `in_boolean_context()`. On an empty stack `self` is `undefined` and the
loop is not entered. -/
def in_boolean_context (w : WalkState) : JSValue :=
  match w.stack.length with
  | 0 => .undefined
  | i + 1 =>
    match w.stack[i]? with
    | none => .undefined
    | some self => in_boolean_context.loop w.stack i self

/-- The test of the first loop of `loopcontrol_target`:
`x instanceof AST_LabeledStatement && x.label.name == label.name`. -/
def loopcontrol_target.labelled (label : Node) (x : Node) : Bool :=
  x.kind.instanceof .LabeledStatement &&
    (match x with
      | .LabeledStatement _ l _ => l.name == label.name
      | _ => false)

/-- The test of the second loop of `loopcontrol_target`. -/
def loopcontrol_target.loops (x : Node) : Bool :=
  x.kind.instanceof .Switch || x.kind.instanceof .For || x.kind.instanceof .ForIn ||
    x.kind.instanceof .DWLoop

/-- The property `body` of a statement with a body. -/
def loopcontrol_target.body : Node → Option Node
  | .LabeledStatement _ _ body => some body
  | _ => none

/-- The method `loopcontrol_target(label)`; `none` is a call without label. -/
def loopcontrol_target (w : WalkState) (label : Option Node) : Option Node :=
  match label with
  | some l =>
    (scan (loopcontrol_target.labelled l) w.stack w.stack.length).bind
      loopcontrol_target.body
  | none => scan loopcontrol_target.loops w.stack w.stack.length

/-- The first node of kind `type` among the nodes that enclose the current node, from the
innermost outward: the scan of `find_parent` started below the top of the stack. -/
def firstEnclosing (w : WalkState) (type : Kind) : Option Node :=
  scan (fun x => x.kind.instanceof type) w.stack (w.stack.length - 1)

end TreeWalker

/-- Whether `self` sits in a slot of `p` that forces a boolean: the condition of an `If`,
of a conditional expression, of a `do`, `while` or `for` loop, or the operand of a prefix
`!`. -/
def Node.inBooleanSlot (p self : Node) : Bool :=
  match p with
  | .If _ condition _ _ => condition.addr == self.addr
  | .Conditional _ condition _ _ => condition.addr == self.addr
  | .DWLoop _ _ condition _ => condition.addr == self.addr
  | .For _ _ (some condition) _ _ => condition.addr == self.addr
  | .Unary _ .UnaryPrefix operator expression =>
    operator == "!" && expression.addr == self.addr
  | _ => false

/-- Whether the node is a `Binary` expression with operator `&&` or `||`. -/
def Node.isLogical : Node → Bool
  | .Binary _ _ _ operator _ => operator == "&&" || operator == "||"
  | _ => false

/-- Whether the node is a `Switch`, `For`, `ForIn`, `Do` or `While` node (or a bare
`DWLoop`). -/
def Node.isLoopOrSwitch : Node → Bool
  | .Switch .. => true
  | .For .. => true
  | .ForIn .. => true
  | .DWLoop .. => true
  | _ => false

namespace Sample

/-- The stack inside `if (!(a && (b || c))) ...` at the symbol `c`. -/
def notAndOr : List Node :=
  [.If 1 (.Unary 2 .UnaryPrefix "!" (.Binary 3 .Binary (sym 4 "a") "&&"
      (.Binary 5 .Binary (sym 6 "b") "||" (sym 7 "c")))) (sym 8 "s") none,
    .Unary 2 .UnaryPrefix "!" (.Binary 3 .Binary (sym 4 "a") "&&"
      (.Binary 5 .Binary (sym 6 "b") "||" (sym 7 "c"))),
    .Binary 3 .Binary (sym 4 "a") "&&" (.Binary 5 .Binary (sym 6 "b") "||" (sym 7 "c")),
    .Binary 5 .Binary (sym 6 "b") "||" (sym 7 "c"),
    sym 7 "c"]

/-- The stack inside `f(a || b)` at the symbol `b`. -/
def callArg : List Node :=
  [.Call 1 .Call (sym 2 "f") [.Binary 3 .Binary (sym 4 "a") "||" (sym 5 "b")],
    .Binary 3 .Binary (sym 4 "a") "||" (sym 5 "b"),
    sym 5 "b"]

/-- The label `name` as declared by a labeled statement. -/
def lbl (addr : Nat) (name : String) : Node := .leaf addr .Label name

/-- The label reference `name` of a `break` or `continue`. -/
def lblRef (addr : Nat) (name : String) : Node := .leaf addr .LabelRef name

/-- The innermost statement of `labelled`: `break outer;`. -/
def breakOuter : Node := .LoopControl 7 .Break (some (lblRef 8 "outer"))

/-- The statement `inner: while (y) break outer;`. -/
def innerLoop : Node :=
  .LabeledStatement 4 (lbl 5 "inner") (.DWLoop 6 .While (sym 9 "y") breakOuter)

/-- The statement `outer: for (;;) inner: while (y) break outer;`. -/
def outerLoop : Node :=
  .LabeledStatement 1 (lbl 2 "outer") (.For 3 none none none innerLoop)

/-- The stack at `break outer;` in `outer: for (;;) inner: while (y) break outer;`. -/
def labelled : List Node :=
  [outerLoop, .For 3 none none none innerLoop, innerLoop,
    .DWLoop 6 .While (sym 9 "y") breakOuter, breakOuter]

/-- The stack at the inner loop of `while (x) while (y) ;`. -/
def nestedWhile : List Node :=
  [.DWLoop 1 .While (sym 2 "x") (.DWLoop 3 .While (sym 4 "y") (.leaf 5 .EmptyStatement "")),
    .DWLoop 3 .While (sym 4 "y") (.leaf 5 .EmptyStatement "")]

end Sample

/-! ## Dictionary -/

/-- A `Dictionary` object: the own properties of `this._values` in creation order, as
pairs of property name and value, and `this._size`. The object `_values` is made by
`Object.create(null)`, so it has no prototype and a property read or an `in` test sees
only own properties. -/
structure Dictionary (V : Type) where
  _values : List (String × V)
  _size : Int

namespace Dictionary

/-- The constructor: `this._values = Object.create(null); this._size = 0;`. -/
def new {V : Type} : Dictionary V := ⟨[], 0⟩

/-- The property name `"$" + key` under which a key is stored. -/
def name (key : String) : String := "$" ++ key

/-- The method `has`: `("$" + key) in this._values`. -/
def has {V : Type} (d : Dictionary V) (key : String) : Bool :=
  (d._values.lookup (name key)).isSome

/-- The method `get`: `this._values["$" + key]`; `none` is the `undefined` read from a
missing property. -/
def get {V : Type} (d : Dictionary V) (key : String) : Option V :=
  d._values.lookup (name key)

/-- The assignment `values[name] = val`: an existing property gets the new value, a new
property is added last. -/
def write {V : Type} : List (String × V) → String → V → List (String × V)
  | [], name, val => [(name, val)]
  | (n, v) :: rest, name, val =>
    if n = name then (n, val) :: rest else (n, v) :: write rest name val

/-- The method `set`: `if (!this.has(key)) ++this._size; this._values["$" + key] = val;
return this;`. -/
def set {V : Type} (d : Dictionary V) (key : String) (val : V) : Dictionary V :=
  { _size := if !d.has key then d._size + 1 else d._size
    _values := write d._values (name key) val }

/-- The method `del`: `if (this.has(key)) { --this._size; delete this._values["$" + key]; }
return this;`. -/
def del {V : Type} (d : Dictionary V) (key : String) : Dictionary V :=
  if d.has key then
    { _size := d._size - 1
      _values := d._values.filter fun e => e.1 != name key }
  else d

/-- The method `size`. -/
def size {V : Type} (d : Dictionary V) : Int := d._size

/-- A call of `set` or of `del`. -/
inductive Op (V : Type) where
  | set (key : String) (val : V)
  | del (key : String)

/-- The dictionary after one call. -/
def step {V : Type} (d : Dictionary V) : Op V → Dictionary V
  | .set key val => d.set key val
  | .del key => d.del key

/-- The dictionary reached from a new one by a sequence of calls. -/
def run {V : Type} (ops : List (Op V)) : Dictionary V :=
  ops.foldl step new

end Dictionary

/-! ## defaults -/

/-- A plain object: its own enumerable properties in enumeration order, inheriting from
`Object.prototype`. The keys are distinct, and none is `__proto__`, for which an
assignment `o[key] = val` would not write an own property. -/
abbrev Obj (V : Type) := List (String × V)

/-- What `defaults` has to know of the values that the properties of its arguments hold. -/
class Values (V : Type) where
  /-- The method call `self.hasOwnProperty(key)` when the property `hasOwnProperty` of
  `self` holds the value `f`: whether the result is truthy, and `none` when the call
  throws, as the call of a value that is no function does. The function called only
  reads. -/
  call (f : V) (self : Obj V) (key : String) : Option Bool
  /-- The read `Object.prototype[key]`: the member of that name, else `undefined`. -/
  inherited (key : String) : V

/-- The test `Object.prototype.hasOwnProperty.call(o, key)`: `key` is an own property
of `o`. -/
def Obj.owns {V : Type} (o : Obj V) (key : String) : Bool :=
  (o.lookup key).isSome

/-- The read `o[key]`: the own property, else the member of `Object.prototype`. -/
def Obj.get {V : Type} [Values V] (o : Obj V) (key : String) : V :=
  (o.lookup key).getD (Values.inherited key)

/-- The call `o.hasOwnProperty(key)`. The method is looked up on `o`: an own property
`hasOwnProperty` is called, whatever it holds; an object without one inherits the method
of `Object.prototype`. `none`: the call throws. -/
def Obj.hasOwnProperty {V : Type} [Values V] (o : Obj V) (key : String) : Option Bool :=
  match o.lookup "hasOwnProperty" with
  | some f => Values.call f o key
  | none => some (o.owns key)

/-- The assignment `o[key] = val`: an own property gets the new value, a new property is
added last. -/
def Obj.assign {V : Type} : Obj V → String → V → Obj V
  | [], key, val => [(key, val)]
  | (k, v) :: rest, key, val =>
    if k = key then (k, val) :: rest else (k, v) :: Obj.assign rest key val

namespace Sample

/-- A rewrite that returns `MAP.at_top(MAP.skip)` for element 2 and keeps the others. -/
def hoistSkip (x : Nat) (i : Nat) : MapVal Nat :=
  if i = 1 then .at_top .skip else .plain x

/-- Words of three different lengths. -/
def threeLengths : List String :=
  ["a", "bb", "ccc", "ddd"]

end Sample

namespace Sample

/-- The statement `for (; c; ) ;`: no `init`, no `step`. -/
def forCond : Node :=
  .For 1 none (some (sym 2 "c")) none (.leaf 3 .EmptyStatement "")

/-- The statement `for (;;) ;`: no clause at all. -/
def forBare : Node :=
  .For 1 none none none (.leaf 2 .EmptyStatement "")

/-- The statement `for (i; c; s) ;` with the three clauses. -/
def forFull : Node :=
  .For 1 (some (sym 2 "i")) (some (sym 3 "c")) (some (sym 4 "s")) (.leaf 5 .EmptyStatement "")

/-- The statement `for (var k in o) ;` with the loop variable in the `name` field. -/
def forIn : Node :=
  .ForIn 1 (.Definitions 2 .Var [.VarDef 3 (.leaf 4 .SymbolVar "k") none])
    (some (sym 9 "k")) (sym 5 "o") (.leaf 6 .EmptyStatement "")

/-- A callback that on the node of identity `a` calls `descend()` once and then returns
`v`, and returns `undefined` elsewhere. -/
def descendOnce (a : Nat) (v : JSValue) : Callback :=
  fun _ n => if n.addr = a then .descend fun _ => .ret v else .ret .undefined

end Sample

/-! ## defaults on a store of objects

`defaults` writes into the object that `args` refers to. Objects live in a store, a list
indexed by address, so that the state of `args` and of `defs` after a call that returns
or throws can be compared with their state before. -/

namespace defaults

/-- The argument `args` as a value: `true`, a falsy value (`undefined`, `null`, `false`,
left out), or the address of an object. -/
inductive Ref where
  | istrue
  | falsy
  | obj (address : Nat)
  deriving DecidableEq, Repr

/-- The object at `address`. -/
def read {V : Type} (store : List (Obj V)) (address : Nat) : Obj V :=
  store.getD address []

/-- The assignment `object[key] = val` on the object at `address`. -/
def write {V : Type} (store : List (Obj V)) (address : Nat) (key : String) (val : V) :
    List (Obj V) :=
  store.set address (Obj.assign (read store address) key val)

/-- The `DefaultsError` thrown: its message and the address of `defs`. -/
structure Thrown where
  msg : String
  defs : Nat
  deriving DecidableEq, Repr

/-- How a call of `defaults` ends: it returns the object at address `ret`, it throws the
`DefaultsError` `e`, or a call `hasOwnProperty(i)` throws (a `TypeError` when the property
`hasOwnProperty` of the object is no function). -/
inductive Outcome where
  | ok (ret : Nat)
  | error (e : Thrown)
  | typeError
  deriving DecidableEq, Repr

/-- The loop `for (var i in ret) if (ret.hasOwnProperty(i) && !defs.hasOwnProperty(i))
throw new DefaultsError(...)` over the keys of `ret` still to come: `some (some i)` when
it throws the `DefaultsError` at the key `i`, `some none` when it ends, `none` when a call
`hasOwnProperty(i)` throws. -/
def check {V : Type} [Values V] (ret defs : Obj V) : List String → Option (Option String)
  | [] => some none
  | i :: keys =>
    match ret.hasOwnProperty i with
    | none => none
    | some false => check ret defs keys
    | some true =>
      match defs.hasOwnProperty i with
      | none => none
      | some false => some (some i)
      | some true => check ret defs keys

/-- The statement `if (croak) for (var i in ret) ...`: the loop of `check` over the keys
of `ret` when `croak` is truthy. -/
def unsupported {V : Type} [Values V] (ret defs : Obj V) (croak : Bool) :
    Option (Option String) :=
  if croak then check ret defs (ret.map Prod.fst) else some none

/-- The loop `for (var i in defs) if (defs.hasOwnProperty(i)) { ret[i] = (args &&
args.hasOwnProperty(i)) ? args[i] : defs[i]; }` over the keys that `defs` has when the
loop starts; `args` is `none` when falsy. The result is the store when the loop stops
and whether it ran to its end: `false` when a call `hasOwnProperty(i)` throws. -/
def fillLoop {V : Type} [Values V] (args : Option Nat) (ret defs : Nat) :
    List String → List (Obj V) → List (Obj V) × Bool
  | [], store => (store, true)
  | i :: keys, store =>
    match (read store defs).hasOwnProperty i with
    | none => (store, false)
    | some false => fillLoop args ret defs keys store
    | some true =>
      match args with
      | none => fillLoop args ret defs keys (write store ret i ((read store defs).get i))
      | some a =>
        match (read store a).hasOwnProperty i with
        | none => (store, false)
        | some true =>
          fillLoop args ret defs keys (write store ret i ((read store a).get i))
        | some false =>
          fillLoop args ret defs keys (write store ret i ((read store defs).get i))

/-- The function `defaults(args, defs, croak)` run on a store: the store after the call,
and how the call ends. An object literal `{}` is a new object at the end of the store.
The object returned is `args` itself when `args` is an object, written in place. -/
def run {V : Type} [Values V] (store : List (Obj V)) (args : Ref) (defs : Nat)
    (croak : Bool) : List (Obj V) × Outcome :=
  -- `if (args === true) args = {};`
  let (store, args) : List (Obj V) × Option Nat :=
    match args with
    | .istrue => (store ++ [[]], some store.length)
    | .falsy => (store, none)
    | .obj a => (store, some a)
  -- `var ret = args || {};`
  let (store, ret) : List (Obj V) × Nat :=
    match args with
    | some a => (store, a)
    | none => (store ++ [[]], store.length)
  match unsupported (read store ret) (read store defs) croak with
  | none => (store, .typeError)
  | some (some i) => (store, .error ⟨"`" ++ i ++ "` is not a supported option", defs⟩)
  | some none =>
    match fillLoop args ret defs ((read store defs).map Prod.fst) store with
    | (store, true) => (store, .ok ret)
    | (store, false) => (store, .typeError)

end defaults

namespace Sample

/-- The values of the options in the examples: a number, `undefined`, the member `name`
of `Object.prototype`, and a function `function () { return answer; }`. -/
inductive Setting where
  | number (n : Nat)
  | undefined
  | member (name : String)
  | constant (answer : Bool)
  deriving DecidableEq, Repr

/-- The result of a call `self.f()` without argument of the value `f`, as
`toLocaleString` makes it on `toString`: whether it is truthy, `none` when the call
throws. -/
def Setting.call0 (f : Setting) (self : Obj Setting) : Option Bool :=
  match f with
  | .constant answer => some answer
  | .member name =>
    if name = "hasOwnProperty" ∨ name = "propertyIsEnumerable" then
      some (self.owns "undefined")
    else if name = "constructor" ∨ name = "toString" ∨ name = "valueOf" then some true
    else if name = "isPrototypeOf" ∨ name = "__lookupGetter__" ∨ name = "__lookupSetter__"
    then some false
    else none
  | _ => none

/-- The result of a call `self.f(key)` of the value `f`: whether it is truthy, `none`
when the call throws. Of the members of `Object.prototype`, `hasOwnProperty` and
`propertyIsEnumerable` test for an own property; `constructor` returns a `String` object,
`toString` a string that is not empty and `valueOf` the object; `toLocaleString` calls
`self.toString()`; `isPrototypeOf` returns `false` for a string;
`__lookupGetter__` and `__lookupSetter__` find an accessor for `__proto__` alone;
`__defineGetter__` and `__defineSetter__` throw without a function, and `__proto__`
is no function. -/
def Setting.call (f : Setting) (self : Obj Setting) (key : String) : Option Bool :=
  match f with
  | .constant answer => some answer
  | .member name =>
    if name = "hasOwnProperty" ∨ name = "propertyIsEnumerable" then some (self.owns key)
    else if name = "constructor" ∨ name = "toString" ∨ name = "valueOf" then some true
    else if name = "toLocaleString" then
      match self.lookup "toString" with
      | some g => g.call0 self
      | none => some true
    else if name = "isPrototypeOf" then some false
    else if name = "__lookupGetter__" ∨ name = "__lookupSetter__" then
      some (decide (key = "__proto__") && !self.owns key)
    else none
  | _ => none

instance : Values Setting where
  call := Setting.call
  inherited key := if key ∈ ObjectPrototype.names then .member key else .undefined

/-- Two objects: the options `{warnings: 1, foo: 2}` at address 0 and the defaults
`{warnings: 0, mangle: 5}` at address 1. -/
def options : List (Obj Setting) :=
  [[("warnings", .number 1), ("foo", .number 2)],
    [("warnings", .number 0), ("mangle", .number 5)]]

/-- Two objects: the options `{hasOwnProperty: 1}` at address 0 and the defaults `{a: 0}`
at address 1. -/
def numbered : List (Obj Setting) :=
  [[("hasOwnProperty", .number 1)], [("a", .number 0)]]

/-- Two objects: the options `{b: 1}` at address 0 and the defaults `{hasOwnProperty: 1}`
at address 1. -/
def numberedDefs : List (Obj Setting) :=
  [[("b", .number 1)], [("hasOwnProperty", .number 1)]]

/-- Two objects: the options `{a: 1, hasOwnProperty: function () { return false; }}` at
address 0 and the defaults `{a: 0}` at address 1. -/
def denying : List (Obj Setting) :=
  [[("a", .number 1), ("hasOwnProperty", .constant false)], [("a", .number 0)]]

/-- Two objects: the options `{}` at address 0 and the defaults
`{a: 0, hasOwnProperty: function () { return false; }}` at address 1. -/
def denyingDefs : List (Obj Setting) :=
  [[], [("a", .number 0), ("hasOwnProperty", .constant false)]]

end Sample

/-! # Theorems -/

open TreeWalker

/-! ### Kinds -/

/-- Every kind derives from `AST_Node`: the bounded walk up the `BASE` links reaches the
root from every kind. -/
theorem instanceof_Node (k : Kind) : k.instanceof .Node = true := by
  cases k <;> rfl

/-! ### The `_walk` methods written with `children` -/

theorem walkEach_cons (visit : Callback) (n : Node) (l : List Node) (w : WalkState) :
    walkEach visit (n :: l) w = (discard (n._walk visit w)).bind (walkEach visit l) := by
  rw [walkEach]
  cases h : n._walk visit w with
  | none => simp [discard]
  | some r => obtain ⟨w1, v⟩ := r; simp [discard]

theorem walkEach_nil (visit : Callback) (w : WalkState) : walkEach visit [] w = some w := by
  rw [walkEach]

theorem walkEach_append (visit : Callback) (l1 l2 : List Node) (w : WalkState) :
    walkEach visit (l1 ++ l2) w = (walkEach visit l1 w).bind (walkEach visit l2) := by
  induction l1 generalizing w with
  | nil => simp [walkEach_nil]
  | cons n l ih =>
    simp only [List.cons_append, walkEach_cons]
    cases discard (n._walk visit w) with
    | none => simp
    | some w1 => simp [ih]

theorem walkEach_singleton (visit : Callback) (n : Node) (w : WalkState) :
    walkEach visit [n] w = discard (n._walk visit w) := by
  rw [walkEach_cons]
  cases discard (n._walk visit w) <;> simp [walkEach_nil]

theorem walkIf_eq (visit : Callback) (o : Option Node) (w : WalkState) :
    walkIf visit o w = walkEach visit o.toList w := by
  cases o with
  | none => simp [walkIf, walkEach_nil]
  | some n => simp [walkIf, walkEach_singleton]

theorem walk_body_eq (visit : Callback) (b : Body) (w : WalkState) :
    walk_body visit b w = if b.ok then walkEach visit b.nodes w else none := by
  cases b with
  | single n => simp [walk_body, Body.ok, Body.nodes, walkEach_singleton]
  | seq l => simp [walk_body, Body.ok, Body.nodes]

theorem bind_none_right {α β : Type} (x : Option α) : x.bind (fun _ => (none : Option β)) = none := by
  cases x <;> rfl

theorem bind_walkEach_nil (visit : Callback) (x : Option WalkState) :
    x.bind (walkEach visit []) = x := by
  cases x <;> simp [walkEach_nil]

theorem walk_unfold (visit : Callback) (n : Node) (w : WalkState) :
    n._walk visit w = TreeWalker._visit visit n (n.descendArg visit) w := by
  cases n
  case Exit a k v =>
    cases v <;> simp [Node._walk, Node.descendArg, Node.hasDescend, Node.bodyOk,
      Node.children, walkEach_singleton]
  case LoopControl a k v =>
    cases v <;> simp [Node._walk, Node.descendArg, Node.hasDescend, Node.bodyOk,
      Node.children, walkEach_singleton]
  all_goals
    simp only [Node._walk, Node.descendArg, Node.hasDescend, Node.bodyOk, Node.children,
      walkIf_eq, walk_body_eq, walkEach_append, walkEach_singleton, walkEach_cons, if_true,
      List.singleton_append, List.cons_append, List.nil_append, List.append_assoc,
      bind_walkEach_nil]
  all_goals first
    | rfl
    | (congr 2; funext w1; split <;> simp [bind_none_right, Option.bind_assoc])

theorem sizeOf_lt_of_mem_toList {c : Node} {o : Option Node} (h : c ∈ o.toList) :
    sizeOf c < sizeOf o := by
  cases o with
  | none => simp at h
  | some n =>
    simp only [Option.toList_some, List.mem_singleton] at h
    subst h
    simp only [Option.some.sizeOf_spec]
    omega

theorem sizeOf_lt_of_mem_list {c : Node} {l : List Node} (h : c ∈ l) :
    sizeOf c < sizeOf l :=
  List.sizeOf_lt_of_mem h

theorem sizeOf_lt_of_mem_nodes {c : Node} {b : Body} (h : c ∈ b.nodes) :
    sizeOf c < sizeOf b := by
  cases b with
  | single n =>
    simp only [Body.nodes, List.mem_singleton] at h
    subst h
    simp only [Body.single.sizeOf_spec]
    omega
  | seq l =>
    simp only [Body.nodes] at h
    have := sizeOf_lt_of_mem_list h
    simp only [Body.seq.sizeOf_spec]
    omega

theorem sizeOf_lt_of_mem_children {c n : Node} (h : c ∈ n.children) : sizeOf c < sizeOf n := by
  cases n <;>
    simp only [Node.children, List.mem_append, List.mem_cons, List.mem_singleton,
      List.not_mem_nil, or_false] at h
  all_goals try casesm* _ ∨ _
  all_goals
    first
    | (have hlt := sizeOf_lt_of_mem_toList ‹_ ∈ Option.toList _›; simp; omega)
    | (have hlt := sizeOf_lt_of_mem_nodes ‹_ ∈ Body.nodes _›; simp; omega)
    | (have hlt := sizeOf_lt_of_mem_list ‹_ ∈ _›; simp; omega)
    | (subst_vars; simp; done)
    | (subst_vars; simp; omega)

theorem Node.induction_on_children {P : Node → Prop}
    (step : ∀ n, (∀ c ∈ n.children, P c) → P n) (n : Node) : P n := by
  have key : ∀ k (m : Node), sizeOf m < k → P m := by
    intro k
    induction k with
    | zero => intro m hm; omega
    | succ k ih =>
      intro m hm
      apply step
      intro c hc
      exact ih c (by have := sizeOf_lt_of_mem_children hc; omega)
  exact key (sizeOf n + 1) n (by omega)

theorem preorderOpt_eq (o : Option Node) : preorderOpt o = o.toList.flatMap Node.preorder := by
  cases o <;> simp [preorderOpt]

theorem preorderAll_eq (l : List Node) : preorderAll l = l.flatMap Node.preorder := by
  induction l with
  | nil => simp [preorderAll]
  | cons n l ih => simp [preorderAll, ih]

theorem body_preorder_eq (b : Body) : b.preorder = b.nodes.flatMap Node.preorder := by
  cases b <;> simp [Body.preorder, Body.nodes, preorderAll_eq]

theorem node_preorder_eq (n : Node) : n.preorder = n :: n.children.flatMap Node.preorder := by
  cases n <;> simp [Node.preorder, Node.children, preorderOpt_eq, preorderAll_eq, body_preorder_eq]

/-! ### Totality on well-formed trees -/

theorem Node.WellFormed.bodyOk_self {n : Node} (h : n.WellFormed) : n.bodyOk = true :=
  h n (by rw [node_preorder_eq]; exact List.mem_cons_self _ _)

theorem Node.WellFormed.child {n c : Node} (h : n.WellFormed) (hc : c ∈ n.children) :
    c.WellFormed := by
  intro m hm
  apply h m
  rw [node_preorder_eq]
  exact List.mem_cons_of_mem _ (List.mem_flatMap.mpr ⟨c, hc, hm⟩)

theorem children_eq_nil_of_hasDescend_false {n : Node} (h : n.hasDescend = false) :
    n.children = [] := by
  cases n <;> simp_all [Node.hasDescend, Node.children]

theorem runScript_total (thunk : WalkState → Option WalkState)
    (ht : ∀ w, ∃ w1, thunk w = some w1) (s : Script) (w : WalkState) :
    ∃ w1 v, runScript thunk s w = some (w1, v) := by
  induction s generalizing w with
  | ret v => exact ⟨w, v, rfl⟩
  | descend k ih =>
    obtain ⟨w1, h1⟩ := ht w
    obtain ⟨w2, v, h2⟩ := ih w1 w1
    exact ⟨w2, v, by simp [runScript, h1, h2]⟩
  | push n k ih => simpa [runScript] using ih (push n w)
  | pop k ih => simpa [runScript] using ih (pop w)

theorem walkEach_total (visit : Callback) (l : List Node)
    (h : ∀ c ∈ l, ∀ w, ∃ w1 v, c._walk visit w = some (w1, v)) (w : WalkState) :
    ∃ w1, walkEach visit l w = some w1 := by
  induction l generalizing w with
  | nil => exact ⟨w, walkEach_nil visit w⟩
  | cons n l ih =>
    obtain ⟨w1, v, h1⟩ := h n (List.mem_cons_self _ _) w
    obtain ⟨w2, h2⟩ := ih (fun c hc => h c (List.mem_cons_of_mem _ hc)) w1
    exact ⟨w2, by simp [walkEach_cons, discard, h1, h2]⟩

theorem visit_none (visit : Callback) (n : Node) (w : WalkState) :
    _visit visit n none w =
      (runScript noop (visit (enter n w) n) (enter n w)).map fun r => (pop r.1, r.2) := by
  unfold _visit
  simp only [Option.getD]
  cases runScript noop (visit (enter n w) n) (enter n w) with
  | none => rfl
  | some r => rfl

theorem visit_some (visit : Callback) (n : Node) (d : WalkState → Option WalkState)
    (w : WalkState) :
    _visit visit n (some d) w =
      (runScript d (visit (enter n w) n) (enter n w)).bind fun r =>
        (if r.2.truthy then some r.1 else d r.1).map fun w3 => (pop w3, r.2) := by
  unfold _visit
  simp only [Option.getD]
  cases runScript d (visit (enter n w) n) (enter n w) with
  | none => rfl
  | some r =>
    obtain ⟨w2, v⟩ := r
    cases hv : v.truthy with
    | true => simp [hv]
    | false =>
      cases hd : d w2 with
      | none => simp [hv, hd]
      | some w3 => simp [hv, hd]

theorem visit_total (visit : Callback) (n : Node)
    (descend : Option (WalkState → Option WalkState))
    (hd : ∀ d, descend = some d → ∀ w, ∃ w1, d w = some w1) (w : WalkState) :
    ∃ w1 v, _visit visit n descend w = some (w1, v) := by
  cases descend with
  | none =>
    obtain ⟨w2, v, h2⟩ := runScript_total noop (fun w => ⟨w, rfl⟩) (visit (enter n w) n) (enter n w)
    exact ⟨pop w2, v, by simp [visit_none, h2]⟩
  | some d =>
    obtain ⟨w2, v, h2⟩ := runScript_total d (hd d rfl) (visit (enter n w) n) (enter n w)
    cases hv : v.truthy with
    | true => exact ⟨pop w2, v, by simp [visit_some, h2, hv]⟩
    | false =>
      obtain ⟨w3, h3⟩ := hd d rfl w2
      exact ⟨pop w3, v, by simp [visit_some, h2, hv, h3]⟩

theorem walk_total (visit : Callback) (n : Node) :
    n.WellFormed → ∀ w, ∃ w1 v, n._walk visit w = some (w1, v) := by
  induction n using Node.induction_on_children with
  | step n ih =>
    intro hwf w
    rw [walk_unfold]
    apply visit_total
    intro d hd w0
    unfold Node.descendArg at hd
    split at hd
    · cases hd
      simp only [hwf.bodyOk_self, if_true]
      exact walkEach_total visit _ (fun c hc => ih c hc (hwf.child hc)) w0
    · cases hd


/-! ### Default traversal visits the tree in preorder -/

theorem runScript_quiet (thunk : WalkState → Option WalkState) (s : Script) (v : JSValue)
    (h : s.quiet = some v) (w : WalkState) :
    ∃ w1, runScript thunk s w = some (w1, v) ∧ w1.calls = w.calls := by
  induction s generalizing w with
  | ret u =>
    simp only [Script.quiet, Option.some.injEq] at h
    exact ⟨w, by simp [runScript, h], rfl⟩
  | descend k _ => simp [Script.quiet] at h
  | push n k ih =>
    obtain ⟨w1, h1, h2⟩ := ih h (push n w)
    exact ⟨w1, by simpa [runScript] using h1, by simpa [push] using h2⟩
  | pop k ih =>
    obtain ⟨w1, h1, h2⟩ := ih h (pop w)
    exact ⟨w1, by simpa [runScript] using h1, by simpa [pop] using h2⟩

theorem walkEach_preorder (visit : Callback) (l : List Node)
    (h : ∀ c ∈ l, ∀ w, ∃ w1 v, c._walk visit w = some (w1, v) ∧
      w1.calls.map Prod.fst = w.calls.map Prod.fst ++ c.preorder) (w : WalkState) :
    ∃ w1, walkEach visit l w = some w1 ∧
      w1.calls.map Prod.fst = w.calls.map Prod.fst ++ l.flatMap Node.preorder := by
  induction l generalizing w with
  | nil => exact ⟨w, walkEach_nil visit w, by simp⟩
  | cons n l ih =>
    obtain ⟨w1, v, h1, e1⟩ := h n (List.mem_cons_self _ _) w
    obtain ⟨w2, h2, e2⟩ := ih (fun c hc => h c (List.mem_cons_of_mem _ hc)) w1
    exact ⟨w2, by simp [walkEach_cons, discard, h1, h2], by simp [e2, e1]⟩

theorem walk_preorder_aux (visit : Callback)
    (hq : ∀ w n, ∃ v, (visit w n).quiet = some v ∧ v.truthy = false) (n : Node) :
    n.WellFormed → ∀ w, ∃ w1 v, n._walk visit w = some (w1, v) ∧
      w1.calls.map Prod.fst = w.calls.map Prod.fst ++ n.preorder := by
  induction n using Node.induction_on_children with
  | step n ih =>
    intro hwf w
    obtain ⟨v, hv, hfalse⟩ := hq (enter n w) n
    rw [walk_unfold, node_preorder_eq]
    unfold Node.descendArg
    cases hd : n.hasDescend with
    | false =>
      obtain ⟨w2, h2, e2⟩ := runScript_quiet noop _ v hv (enter n w)
      refine ⟨pop w2, v, by simp [visit_none, h2], ?_⟩
      simp [pop, e2, enter, children_eq_nil_of_hasDescend_false hd]
    | true =>
      simp only [if_true, hwf.bodyOk_self]
      obtain ⟨w2, h2, e2⟩ := runScript_quiet (walkEach visit n.children) _ v hv (enter n w)
      obtain ⟨w3, h3, e3⟩ :=
        walkEach_preorder visit n.children (fun c hc => ih c hc (hwf.child hc)) w2
      refine ⟨pop w3, v, ?_, ?_⟩
      · rw [visit_some]
        simp [h2, hfalse, h3]
      · simp [pop, e3, e2, enter]

/-! ### Stack discipline -/

theorem Grows.refl (P : Node × List Node → Prop) (w : WalkState) : Grows P w w :=
  ⟨rfl, [], by simp, by simp⟩

theorem Grows.trans {P : Node × List Node → Prop} {w1 w2 w3 : WalkState}
    (h12 : Grows P w1 w2) (h23 : Grows P w2 w3) : Grows P w1 w3 := by
  obtain ⟨s12, a12, c12, p12⟩ := h12
  obtain ⟨s23, a23, c23, p23⟩ := h23
  refine ⟨s23.trans s12, a12 ++ a23, by simp [c23, c12], ?_⟩
  intro e he
  rcases List.mem_append.mp he with he | he
  · exact p12 e he
  · exact p23 e he

theorem Grows.mono {P Q : Node × List Node → Prop} {w1 w2 : WalkState}
    (h : Grows P w1 w2) (hPQ : ∀ e, P e → Q e) : Grows Q w1 w2 := by
  obtain ⟨s, a, c, p⟩ := h
  exact ⟨s, a, c, fun e he => hPQ e (p e he)⟩

theorem runScript_grows (P : Node × List Node → Prop) (base : List Node)
    (thunk : WalkState → Option WalkState)
    (hth : ∀ w w1, w.stack = base → thunk w = some w1 → Grows P w w1)
    (s : Script) (hs : s.NoStackOps) (w : WalkState) (hw : w.stack = base)
    (w1 : WalkState) (v : JSValue) (h : runScript thunk s w = some (w1, v)) :
    Grows P w w1 := by
  induction s generalizing w with
  | ret u =>
    simp only [runScript, Option.some.injEq, Prod.mk.injEq] at h
    rw [← h.1]
    exact Grows.refl P w
  | descend k ih =>
    simp only [runScript] at h
    cases ht : thunk w with
    | none => simp [ht] at h
    | some w2 =>
      simp only [ht] at h
      have g1 := hth w w2 hw ht
      have g2 := ih w2 (hs w2) w2 (g1.1.trans hw) h
      exact g1.trans g2
  | push n k _ => exact absurd hs (by simp [Script.NoStackOps])
  | pop k _ => exact absurd hs (by simp [Script.NoStackOps])

theorem walkEach_grows (visit : Callback) (P : Node × List Node → Prop) (base : List Node)
    (l : List Node)
    (h : ∀ c ∈ l, ∀ w w1 v, w.stack = base → c._walk visit w = some (w1, v) → Grows P w w1)
    (w : WalkState) (hw : w.stack = base) (w1 : WalkState)
    (he : walkEach visit l w = some w1) : Grows P w w1 := by
  induction l generalizing w with
  | nil =>
    simp only [walkEach_nil, Option.some.injEq] at he
    rw [← he]
    exact Grows.refl P w
  | cons n l ih =>
    rw [walkEach] at he
    cases hn : n._walk visit w with
    | none => simp [hn] at he
    | some r =>
      obtain ⟨w2, v⟩ := r
      simp only [hn] at he
      have g1 := h n (List.mem_cons_self _ _) w w2 v hw hn
      have g2 := ih (fun c hc => h c (List.mem_cons_of_mem _ hc)) w2 (g1.1.trans hw) he
      exact g1.trans g2

theorem visit_grows (visit : Callback) (hv : ∀ w n, (visit w n).NoStackOps) (n : Node)
    (descend : Option (WalkState → Option WalkState)) (w : WalkState)
    (P : Node × List Node → Prop) (hP : P (n, w.stack ++ [n]))
    (hd : ∀ d, descend = some d →
      ∀ w2 w3, w2.stack = w.stack ++ [n] → d w2 = some w3 → Grows P w2 w3)
    (w1 : WalkState) (v : JSValue) (h : _visit visit n descend w = some (w1, v)) :
    Grows P w w1 := by
  have hthunk : ∀ w2 w3, w2.stack = w.stack ++ [n] → (descend.getD noop) w2 = some w3 →
      Grows P w2 w3 := by
    intro w2 w3 h2 h3
    cases descend with
    | none =>
      simp only [Option.getD, noop, Option.some.injEq] at h3
      rw [← h3]
      exact Grows.refl P w2
    | some d => exact hd d rfl w2 w3 h2 h3
  have finish : ∀ w3, Grows P (enter n w) w3 → Grows P w (pop w3) := by
    intro w3 g
    obtain ⟨s, a, c, p⟩ := g
    refine ⟨by simp [pop, s, enter], (n, w.stack ++ [n]) :: a, by simp [pop, c, enter], ?_⟩
    intro e he
    rcases List.mem_cons.mp he with he | he
    · rw [he]; exact hP
    · exact p e he
  cases descend with
  | none =>
    rw [visit_none] at h
    cases hr : runScript noop (visit (enter n w) n) (enter n w) with
    | none => simp [hr] at h
    | some r =>
      obtain ⟨w2, u⟩ := r
      simp only [hr, Option.map_some', Option.some.injEq, Prod.mk.injEq] at h
      rw [← h.1]
      exact finish w2 (runScript_grows P _ noop hthunk _ (hv _ _) _ rfl w2 u hr)
  | some d =>
    rw [visit_some] at h
    cases hr : runScript d (visit (enter n w) n) (enter n w) with
    | none => simp [hr] at h
    | some r =>
      obtain ⟨w2, u⟩ := r
      have g2 : Grows P (enter n w) w2 :=
        runScript_grows P _ d hthunk _ (hv _ _) _ rfl w2 u hr
      simp only [hr, Option.some_bind] at h
      cases hu : u.truthy with
      | true =>
        simp only [hu, if_true, Option.map_some', Option.some.injEq, Prod.mk.injEq] at h
        rw [← h.1]
        exact finish w2 g2
      | false =>
        simp only [hu, Bool.false_eq_true, if_false] at h
        cases h3 : d w2 with
        | none => simp [h3] at h
        | some w3 =>
          simp only [h3, Bool.false_eq_true, if_false, Option.map_some', Option.some.injEq,
            Prod.mk.injEq] at h
          rw [← h.1]
          exact finish w3 (g2.trans (hd d rfl w2 w3 g2.1 h3))

theorem OnPath.self (base : List Node) (n : Node) : OnPath base n (n, base ++ [n]) :=
  ⟨[n], rfl, ⟨rfl, List.chain'_singleton n⟩, rfl⟩

theorem OnPath.lift {base : List Node} {n c : Node} (hc : c ∈ n.children)
    {e : Node × List Node} (h : OnPath (base ++ [n]) c e) : OnPath base n e := by
  obtain ⟨t, ht, ⟨hhead, hchain⟩, hlast⟩ := h
  cases t with
  | nil => simp at hhead
  | cons x t =>
    simp only [List.head?_cons, Option.some.injEq] at hhead
    subst hhead
    refine ⟨n :: x :: t, by simp [ht], ⟨rfl, ?_⟩, ?_⟩
    · exact List.Chain'.cons hc hchain
    · simpa [List.getLast?_cons_cons] using hlast

theorem walk_grows (visit : Callback) (hv : ∀ w n, (visit w n).NoStackOps) (n : Node) :
    ∀ w w1 v, n._walk visit w = some (w1, v) → Grows (OnPath w.stack n) w w1 := by
  induction n using Node.induction_on_children with
  | step n ih =>
    intro w w1 v h
    rw [walk_unfold] at h
    refine visit_grows visit hv n _ w _ (OnPath.self _ _) ?_ w1 v h
    intro d hd w2 w3 hw2 h3
    unfold Node.descendArg at hd
    split at hd
    · simp only [Option.some.injEq] at hd
      subst hd
      split at h3
      · refine walkEach_grows visit _ (w.stack ++ [n]) n.children ?_ w2 hw2 w3 h3
        intro c hc w4 w5 u hw4 h5
        have := ih c hc w4 w5 u h5
        rw [hw4] at this
        exact this.mono fun e he => OnPath.lift hc he
      · cases h3
    · cases hd


theorem self_eq_getLast? (stack : List Node) (cs : List (Node × List Node)) :
    TreeWalker.self ⟨stack, cs⟩ = stack.getLast? := by
  unfold TreeWalker.self index
  rw [List.getLast?_eq_getElem?]
  cases stack with
  | nil => simp
  | cons x t =>
    have : ¬ ((((x :: t).length : Int) - 1) < 0) := by
      have := List.length_cons x t
      omega
    simp only [this, if_false]
    congr 1
    simp

theorem parent_eq_enclosing (stack : List Node) (cs : List (Node × List Node)) (k : Nat) :
    TreeWalker.parent ⟨stack, cs⟩ (some k) = stack.dropLast.reverse[k]? := by
  unfold TreeWalker.parent index
  simp only [Option.getD_some]
  by_cases hk : k + 2 ≤ stack.length
  · have h1 : ¬ ((stack.length : Int) - 2 - (k : Int) < 0) := by omega
    have h2 : ((stack.length : Int) - 2 - (k : Int)).toNat = stack.length - 2 - k := by omega
    simp only [h1, if_false, h2]
    rw [List.getElem?_reverse (by simp; omega), List.getElem?_dropLast]
    simp only [List.length_dropLast]
    have h3 : stack.length - 1 - 1 - k = stack.length - 2 - k := by omega
    have h4 : stack.length - 2 - k < stack.length - 1 := by omega
    simp [h3, h4]
  · have h1 : (stack.length : Int) - 2 - (k : Int) < 0 := by omega
    simp only [h1, if_true]
    symm
    apply List.getElem?_eq_none
    simp
    omega

/-- Claim C1. When the callback always returns a falsy value and never calls `descend`,
walking a tree whose bodies are statements or sequences returns, and the callback has
then been invoked on exactly the nodes of the tree in preorder, once per occurrence: a
node first, then the subtrees of its structural children in the field order of its
kind (a single-statement body once, a sequence body element by element). -/
theorem walk_visits_preorder (visit : Callback)
    (hq : ∀ w n, ∃ v, (visit w n).quiet = some v ∧ v.truthy = false)
    (n : Node) (hwf : n.WellFormed) (w : WalkState) :
    ∃ w1 v, n.walk visit w = some (w1, v) ∧
      w1.calls.map Prod.fst = w.calls.map Prod.fst ++ n.preorder ∧
      n.preorder = n :: n.children.flatMap Node.preorder := by
  obtain ⟨w1, v, h1, h2⟩ := walk_preorder_aux visit hq n hwf w
  exact ⟨w1, v, h1, h2, node_preorder_eq n⟩

/-- Witness for `walk_visits_preorder`: on `if (c) { x; ; } else debugger;` the callback
sees the `If`, its condition, the body block with its two statements in order, then the
alternative block with its single statement. -/
theorem walk_visits_preorder_witness :
    (∃ w1 v, Sample.ifTree.walk Sample.falsy Sample.fresh = some (w1, v) ∧
      w1.calls.map Prod.fst = Sample.fresh.calls.map Prod.fst ++ Sample.ifTree.preorder ∧
      Sample.ifTree.preorder =
        Sample.ifTree :: Sample.ifTree.children.flatMap Node.preorder) ∧
    Sample.ifTree.preorder.map Node.addr = [0, 1, 2, 3, 4, 5, 6, 7] :=
  ⟨walk_visits_preorder Sample.falsy (fun _ _ => ⟨.undefined, rfl, rfl⟩) Sample.ifTree
    (by decide) Sample.fresh, by decide⟩

/-- Claim C2. When the callback, called on a node, returns a truthy value without calling
`descend`, `_visit` returns that value and the callback has been invoked exactly once
more, on the node itself: whatever `descend` function the node's kind supplies, no child
and no deeper descendant is visited. -/
theorem visit_truthy_skips_children (visit : Callback) (n : Node) (w : WalkState)
    (v : JSValue) (hq : (visit (TreeWalker.enter n w) n).quiet = some v)
    (ht : v.truthy = true) :
    (∀ descend, ∃ w1, TreeWalker._visit visit n descend w = some (w1, v) ∧
      w1.calls = w.calls ++ [(n, w.stack ++ [n])]) ∧
    (∃ w1, n.walk visit w = some (w1, v) ∧ w1.calls = w.calls ++ [(n, w.stack ++ [n])]) := by
  have key : ∀ descend, ∃ w1, TreeWalker._visit visit n descend w = some (w1, v) ∧
      w1.calls = w.calls ++ [(n, w.stack ++ [n])] := by
    intro descend
    cases descend with
    | none =>
      obtain ⟨w2, h2, e2⟩ := runScript_quiet noop _ v hq (enter n w)
      exact ⟨pop w2, by simp [visit_none, h2], by simp [pop, e2, enter]⟩
    | some d =>
      obtain ⟨w2, h2, e2⟩ := runScript_quiet d _ v hq (enter n w)
      exact ⟨pop w2, by simp [visit_some, h2, ht], by simp [pop, e2, enter]⟩
  refine ⟨key, ?_⟩
  obtain ⟨w1, h1, h2⟩ := key (n.descendArg visit)
  exact ⟨w1, by rw [Node.walk, walk_unfold]; exact h1, h2⟩

/-- Witness for `visit_truthy_skips_children`: a block with two statements, visited by a
callback that returns `true` on blocks; the only call is the one on the block. -/
theorem visit_truthy_skips_children_witness :
    Sample.block.children ≠ [] ∧
    ∃ w1, Sample.block.walk Sample.skipBlocks Sample.fresh = some (w1, .bool true) ∧
      w1.calls = Sample.fresh.calls ++ [(Sample.block, Sample.fresh.stack ++ [Sample.block])] :=
  ⟨by simp [Sample.block, Node.children, Body.nodes],
    (visit_truthy_skips_children Sample.skipBlocks Sample.block Sample.fresh (.bool true)
      rfl rfl).2⟩

/-- Claim C3, as amended. In a traversal started with an empty stack, by a callback that
does not itself call `push` or `pop`, every invocation of the callback on a node `n` sees
a stack that is a path of the tree from the root down to `n`, with `n` on top: `self()`
is `n`, `parent(k)` is entry `k` of the enclosing nodes listed from the innermost outwards
(`parent()` is `parent(0)`), so it is defined for `k` below the depth of `n` and
`undefined` from the depth on. -/
theorem callback_sees_root_path (visit : Callback) (hv : ∀ w n, (visit w n).NoStackOps)
    (root : Node) (hwf : root.WellFormed) (w : WalkState) (hw : w.stack = []) :
    ∃ w1 v added, root.walk visit w = some (w1, v) ∧ w1.calls = w.calls ++ added ∧
      ∀ e ∈ added,
        IsPathFrom root e.2 ∧ e.2.getLast? = some e.1 ∧
        (∀ cs, TreeWalker.self ⟨e.2, cs⟩ = some e.1) ∧
        (∀ cs k, TreeWalker.parent ⟨e.2, cs⟩ (some k) = e.2.dropLast.reverse[k]?) ∧
        (∀ cs, TreeWalker.parent ⟨e.2, cs⟩ none = TreeWalker.parent ⟨e.2, cs⟩ (some 0)) ∧
        (∀ cs k, k < e.2.length - 1 → (TreeWalker.parent ⟨e.2, cs⟩ (some k)).isSome = true) ∧
        (∀ cs k, e.2.length - 1 ≤ k → TreeWalker.parent ⟨e.2, cs⟩ (some k) = none) := by
  obtain ⟨w1, v, h1⟩ := walk_total visit root hwf w
  obtain ⟨-, added, hc, hp⟩ := walk_grows visit hv root w w1 v h1
  refine ⟨w1, v, added, h1, hc, ?_⟩
  intro e he
  obtain ⟨t, ht, hpath, hlast⟩ := hp e he
  rw [hw, List.nil_append] at ht
  rw [ht]
  refine ⟨hpath, hlast, ?_, ?_, ?_, ?_, ?_⟩
  · intro cs
    rw [self_eq_getLast?, hlast]
  · intro cs k
    exact parent_eq_enclosing t cs k
  · intro cs
    rfl
  · intro cs k hk
    rw [parent_eq_enclosing, Option.isSome_iff_exists]
    have : k < t.dropLast.reverse.length := by simpa using hk
    exact ⟨_, List.getElem?_eq_getElem this⟩
  · intro cs k hk
    rw [parent_eq_enclosing]
    apply List.getElem?_eq_none
    simpa using hk

/-- Witness for `callback_sees_root_path`: the sample `if` statement walked by a callback
that descends by itself on the `If`. -/
theorem callback_sees_root_path_witness :
    ∃ w1 v added, Sample.ifTree.walk Sample.custom Sample.fresh = some (w1, v) ∧
      w1.calls = Sample.fresh.calls ++ added ∧
      ∀ e ∈ added,
        IsPathFrom Sample.ifTree e.2 ∧ e.2.getLast? = some e.1 ∧
        (∀ cs, TreeWalker.self ⟨e.2, cs⟩ = some e.1) ∧
        (∀ cs k, TreeWalker.parent ⟨e.2, cs⟩ (some k) = e.2.dropLast.reverse[k]?) ∧
        (∀ cs, TreeWalker.parent ⟨e.2, cs⟩ none = TreeWalker.parent ⟨e.2, cs⟩ (some 0)) ∧
        (∀ cs k, k < e.2.length - 1 → (TreeWalker.parent ⟨e.2, cs⟩ (some k)).isSome = true) ∧
        (∀ cs k, e.2.length - 1 ≤ k → TreeWalker.parent ⟨e.2, cs⟩ (some k) = none) :=
  callback_sees_root_path Sample.custom
    (fun _ n => by cases n <;> simp [Sample.custom, Script.NoStackOps])
    Sample.ifTree (by decide) Sample.fresh rfl

/-- Counterexample to claim C3 as stated. The walker's `push` and `pop` are public, and
the callback `Sample.pushing` pushes a node before it calls `descend()` on the `If`.
The walk starts with an empty stack and returns with an empty stack, and the callback
for the condition `c`, whose only enclosing node is the `If` (node 0), runs on the stack
`[0, 2, 1]`, which is no path of the tree: `parent()` is the pushed node 2 and not the
`If`, and `parent(1)`, which should be `undefined`, is the `If`. -/
theorem callback_after_push_not_on_path :
    Sample.fresh.stack = [] ∧
    (Sample.ifTree.walk Sample.pushing Sample.fresh).map
        (fun r => (r.1.stack.map Node.addr,
          r.1.calls.map fun e => (e.1.addr, e.2.map Node.addr))) =
      some ([], [(0, [0]), (1, [0, 2, 1]), (2, [0, 2, 2]), (3, [0, 2, 2, 3]),
        (4, [0, 2, 2, 3, 4]), (5, [0, 2, 2, 5]), (6, [0, 2, 6]), (7, [0, 2, 6, 7])]) ∧
    (Sample.ifTree.walk Sample.pushing Sample.fresh).bind (fun r => r.1.calls[1]?) =
      some (Sample.sym 1 "c", [Sample.ifTree, Sample.block, Sample.sym 1 "c"]) ∧
    (TreeWalker.parent ⟨[Sample.ifTree, Sample.block, Sample.sym 1 "c"], []⟩ none).map
        Node.addr = some 2 ∧
    (TreeWalker.parent ⟨[Sample.ifTree, Sample.block, Sample.sym 1 "c"], []⟩ (some 1)).map
        Node.addr = some 0 ∧
    ¬ IsPathFrom Sample.ifTree [Sample.ifTree, Sample.block, Sample.sym 1 "c"] := by
  refine ⟨rfl, by decide, by rfl, by decide, by decide, ?_⟩
  intro h
  have h2 := h.2
  simp only [List.chain'_cons, Sample.block, Sample.sym, Node.children] at h2
  have h3 := h2.2.1
  revert h3
  simp [Body.nodes]

/-- Claim C4. When the callback does not itself call `push` or `pop`, a walk that returns
leaves the walker's stack exactly as it found it, whatever the callback returned and
however often it called `descend`; and on a tree whose bodies are statements or
sequences the walk does return. -/
theorem walk_restores_stack (visit : Callback) (hv : ∀ w n, (visit w n).NoStackOps)
    (n : Node) (w : WalkState) :
    (∀ w1 v, n.walk visit w = some (w1, v) → w1.stack = w.stack) ∧
    (n.WellFormed → ∃ w1 v, n.walk visit w = some (w1, v) ∧ w1.stack = w.stack) := by
  have key : ∀ w1 v, n.walk visit w = some (w1, v) → w1.stack = w.stack :=
    fun w1 v h => (walk_grows visit hv n w w1 v h).1
  refine ⟨key, fun hwf => ?_⟩
  obtain ⟨w1, v, h1⟩ := walk_total visit n hwf w
  exact ⟨w1, v, h1, key w1 v h1⟩

/-- Witness for `walk_restores_stack`: the sample `if` statement, walked from a stack
that already holds one node, by a callback that descends by itself on the `If`. -/
theorem walk_restores_stack_witness :
    ∃ w1 v, Sample.ifTree.walk Sample.custom ⟨[Sample.sym 9 "outer"], []⟩ = some (w1, v) ∧
      w1.stack = [Sample.sym 9 "outer"] :=
  (walk_restores_stack Sample.custom
    (fun _ n => by cases n <;> simp [Sample.custom, Script.NoStackOps])
    Sample.ifTree ⟨[Sample.sym 9 "outer"], []⟩).2 (by decide)


/-! ### mergeSort -/

theorem mergeLoop_eq_merge {α : Type} (cmp : α → α → Int) (a b : List α) :
    ∀ (k : Nat) (r : List α) (ai bi : Nat), (a.length - ai) + (b.length - bi) ≤ k →
      mergeSort.mergeLoop cmp a b r ai bi =
        r ++ List.merge (a.drop ai) (b.drop bi) (fun x y => decide (cmp x y ≤ 0)) := by
  intro k
  induction k with
  | zero =>
    intro r ai bi hk
    rw [mergeSort.mergeLoop]
    have ha : ¬ ai < a.length := by omega
    have hb : ¬ bi < b.length := by omega
    have h : ¬ (ai < a.length ∧ bi < b.length) := fun h => ha h.1
    simp [h, ha, hb, List.drop_eq_nil_of_le (Nat.le_of_not_lt ha),
      List.drop_eq_nil_of_le (Nat.le_of_not_lt hb)]
  | succ k ih =>
    intro r ai bi hk
    rw [mergeSort.mergeLoop]
    by_cases h : ai < a.length ∧ bi < b.length
    · simp only [h, and_self, dite_true]
      rw [List.drop_eq_getElem_cons h.1, List.drop_eq_getElem_cons h.2, List.cons_merge_cons]
      by_cases hc : cmp (a.get ⟨ai, h.1⟩) (b.get ⟨bi, h.2⟩) ≤ 0
      · have hc2 : cmp a[ai] b[bi] ≤ 0 := hc
        simp only [hc, if_true, hc2, decide_True]
        rw [ih _ _ _ (by omega), List.drop_eq_getElem_cons h.2]
        simp
      · have hc2 : ¬ cmp a[ai] b[bi] ≤ 0 := hc
        simp only [hc, if_false, hc2, decide_False]
        rw [ih _ _ _ (by omega), List.drop_eq_getElem_cons h.1]
        simp
    · simp only [h, dite_false]
      by_cases ha : ai < a.length
      · have hb : ¬ bi < b.length := fun hb => h ⟨ha, hb⟩
        simp [ha, hb, List.drop_eq_nil_of_le (Nat.le_of_not_lt hb)]
      · simp only [ha, if_false, List.drop_eq_nil_of_le (Nat.le_of_not_lt ha), List.nil_merge]
        by_cases hb : bi < b.length
        · simp [hb]
        · simp [hb, List.drop_eq_nil_of_le (Nat.le_of_not_lt hb)]

theorem merge_eq_listMerge {α : Type} (cmp : α → α → Int) (a b : List α) :
    mergeSort.merge cmp a b = List.merge a b (fun x y => decide (cmp x y ≤ 0)) := by
  unfold mergeSort.merge
  rw [mergeLoop_eq_merge cmp a b _ [] 0 0 (Nat.le_refl _)]
  simp

theorem ms_short {α : Type} (cmp : α → α → Int) (a : List α) (h : a.length ≤ 1) :
    mergeSort._ms cmp a = a := by
  rw [mergeSort._ms]
  simp [h]

theorem ms_long {α : Type} (cmp : α → α → Int) (a : List α) (h : ¬ a.length ≤ 1) :
    mergeSort._ms cmp a =
      List.merge (mergeSort._ms cmp (a.take (a.length / 2)))
        (mergeSort._ms cmp (a.drop (a.length / 2))) (fun x y => decide (cmp x y ≤ 0)) := by
  rw [mergeSort._ms]
  simp only [h, dite_false, merge_eq_listMerge]

/-- Induction along the recursion of `_ms`: short arrays, and arrays split in two halves. -/
theorem ms_induction {α : Type} {P : List α → Prop}
    (short : ∀ a, a.length ≤ 1 → P a)
    (long : ∀ a, ¬ a.length ≤ 1 → P (a.take (a.length / 2)) → P (a.drop (a.length / 2)) → P a)
    (a : List α) : P a := by
  have key : ∀ k (a : List α), a.length ≤ k → P a := by
    intro k
    induction k with
    | zero => intro a h; exact short a (by omega)
    | succ k ih =>
      intro a h
      by_cases hs : a.length ≤ 1
      · exact short a hs
      · apply long a hs
        · apply ih; simp only [List.length_take]; omega
        · apply ih; simp only [List.length_drop]; omega
  exact key a.length a (Nat.le_refl _)

theorem ms_perm {α : Type} (cmp : α → α → Int) (a : List α) :
    (mergeSort._ms cmp a).Perm a := by
  induction a using ms_induction with
  | short a h => rw [ms_short cmp a h]
  | long a h ihl ihr =>
    rw [ms_long cmp a h]
    have h1 := @List.merge_perm_append α (fun x y => decide (cmp x y ≤ 0))
      (mergeSort._ms cmp (a.take (a.length / 2))) (mergeSort._ms cmp (a.drop (a.length / 2)))
    have h2 := h1.trans (List.Perm.append ihl ihr)
    rwa [List.take_append_drop] at h2

theorem ms_sorted {α : Type} (cmp : α → α → Int) (hcmp : TotalPreorder cmp) (a : List α) :
    (mergeSort._ms cmp a).Pairwise (fun x y => decide (cmp x y ≤ 0) = true) := by
  induction a using ms_induction with
  | short a h =>
    rw [ms_short cmp a h]
    match a, h with
    | [], _ => exact List.Pairwise.nil
    | [x], _ => exact List.pairwise_singleton _ _
  | long a h ihl ihr =>
    rw [ms_long cmp a h]
    apply List.sorted_merge
    · intro x y z hxy hyz
      simp only [decide_eq_true_eq] at *
      exact hcmp.trans x y z hxy hyz
    · intro x y
      simp only [Bool.or_eq_true, decide_eq_true_eq]
      exact hcmp.total x y
    · exact ihl
    · exact ihr

theorem sublist_merge_left {α : Type} (le : α → α → Bool) :
    ∀ (l₁ l₂ : List α), l₁.Sublist (List.merge l₁ l₂ le)
  | [], l₂ => by simp
  | l₁, [] => by simp [List.merge_right]
  | x :: l₁, y :: l₂ => by
    rw [List.cons_merge_cons]
    split
    · exact (sublist_merge_left le l₁ (y :: l₂)).cons₂ x
    · exact (sublist_merge_left le (x :: l₁) l₂).cons y

theorem sublist_merge_right {α : Type} (le : α → α → Bool) :
    ∀ (l₁ l₂ : List α), l₂.Sublist (List.merge l₁ l₂ le)
  | [], l₂ => by simp
  | l₁, [] => by simp
  | x :: l₁, y :: l₂ => by
    rw [List.cons_merge_cons]
    split
    · exact (sublist_merge_right le l₁ (y :: l₂)).cons x
    · exact (sublist_merge_right le (x :: l₁) l₂).cons₂ y

/-- In a merge, an element of the sorted left input stays before every element of the
right input that it is below or equal to. -/
theorem pair_sublist_merge {α : Type} (le : α → α → Bool)
    (trans : ∀ a b c, le a b = true → le b c = true → le a c = true) (x y : α)
    (hxy : le x y = true) :
    ∀ (l₁ l₂ : List α), l₁.Pairwise (fun a b => le a b = true) → x ∈ l₁ → y ∈ l₂ →
      [x, y].Sublist (List.merge l₁ l₂ le)
  | [], _, _, hx, _ => by simp at hx
  | _ :: _, [], _, _, hy => by simp at hy
  | a :: l₁, b :: l₂, hs, hx, hy => by
    rw [List.cons_merge_cons]
    have hab : ¬ le a b = true → y ∈ l₂ := by
      intro hn
      rcases List.mem_cons.mp hy with hyb | hyb
      · exfalso
        apply hn
        subst hyb
        rcases List.mem_cons.mp hx with hxa | hxa
        · subst hxa; exact hxy
        · exact trans a x y (List.rel_of_pairwise_cons hs hxa) hxy
      · exact hyb
    split
    · rcases List.mem_cons.mp hx with hxa | hxa
      · subst hxa
        exact List.Sublist.cons₂ x
          (List.singleton_sublist.mpr (List.mem_merge_right le hy))
      · exact (pair_sublist_merge le trans x y hxy l₁ (b :: l₂)
          (List.Pairwise.of_cons hs) hxa hy).cons a
    · rename_i hn
      exact (pair_sublist_merge le trans x y hxy (a :: l₁) l₂ hs hx (hab hn)).cons b

theorem ms_pair_sublist {α : Type} (cmp : α → α → Int) (hcmp : TotalPreorder cmp) (x y : α)
    (hxy : cmp x y ≤ 0) (a : List α) :
    [x, y].Sublist a → [x, y].Sublist (mergeSort._ms cmp a) := by
  induction a using ms_induction with
  | short a h => rw [ms_short cmp a h]; exact id
  | long a h ihl ihr =>
    intro hsub
    rw [ms_long cmp a h]
    rw [← List.take_append_drop (a.length / 2) a, List.sublist_append_iff] at hsub
    obtain ⟨r₁, r₂, hr, h₁, h₂⟩ := hsub
    match r₁, hr, h₁ with
    | [], hr, _ =>
      simp only [List.nil_append] at hr
      subst hr
      exact (ihr h₂).trans (sublist_merge_right _ _ _)
    | [u], hr, h₁ =>
      simp only [List.singleton_append, List.cons.injEq] at hr
      obtain ⟨hu, hr⟩ := hr
      subst hu
      subst hr
      apply pair_sublist_merge _ _ x y (by simpa using hxy) _ _ (ms_sorted cmp hcmp _)
      · exact (ms_perm cmp _).mem_iff.mpr (List.singleton_sublist.mp h₁)
      · exact (ms_perm cmp _).mem_iff.mpr (List.singleton_sublist.mp h₂)
      · intro p q r hpq hqr
        simp only [decide_eq_true_eq] at *
        exact hcmp.trans p q r hpq hqr
    | [u, v], hr, h₁ =>
      simp only [List.cons_append, List.nil_append, List.cons.injEq] at hr
      obtain ⟨hu, hv, -⟩ := hr
      subst hu
      subst hv
      exact (ihl h₁).trans (sublist_merge_left _ _ _)
    | u :: v :: t :: r, hr, _ =>
      simp at hr


theorem mergeSort_eq_ms {α : Type} (a : List α) (cmp : α → α → Int) :
    mergeSort a cmp = mergeSort._ms cmp a := by
  unfold mergeSort
  split
  · rw [ms_short cmp a (by omega)]
  · rfl

theorem ms_map {α β : Type} (f : α → β) (cmp : β → β → Int) (l : List α) :
    mergeSort._ms cmp (l.map f) = (mergeSort._ms (fun x y => cmp (f x) (f y)) l).map f := by
  induction l using ms_induction with
  | short l h =>
    rw [ms_short _ l h, ms_short cmp (l.map f) (by simpa using h)]
  | long l h ihl ihr =>
    rw [ms_long _ l h, ms_long cmp (l.map f) (by simpa using h)]
    simp only [List.length_map, ← List.map_take, ← List.map_drop, ihl, ihr]
    symm
    apply List.map_merge
    intro x _ y _
    rfl

theorem pair_sublist_of_lt {α : Type} (l : List α) (i j : Nat) (hij : i < j)
    (hj : j < l.length) : [l[i], l[j]].Sublist l := by
  have h1 : [l[i]].Sublist (l.take j) := by
    rw [List.singleton_sublist, List.mem_take_iff_getElem]
    exact ⟨i, by omega, rfl⟩
  have h2 : [l[j]].Sublist (l.drop j) := by
    rw [List.drop_eq_getElem_cons hj]
    exact List.Sublist.cons₂ _ (List.nil_sublist _)
  have h3 := List.Sublist.append h1 h2
  rwa [List.take_append_drop] at h3

theorem totalPreorder_on_snd {α : Type} (cmp : α → α → Int) (hcmp : TotalPreorder cmp) :
    TotalPreorder (fun p q : Nat × α => cmp p.2 q.2) :=
  ⟨fun x y => hcmp.total x.2 y.2, fun x y z => hcmp.trans x.2 y.2 z.2⟩

theorem totalPreorder_byFst : TotalPreorder Sample.byFst :=
  ⟨fun x y => by unfold Sample.byFst; omega, fun x y z => by unfold Sample.byFst; omega⟩

theorem mergeSort_pairs :
    mergeSort Sample.pairs Sample.byFst = [(0, 'c'), (1, 'a'), (1, 'b')] := by
  simp [mergeSort, mergeSort._ms, mergeSort.merge, mergeSort.mergeLoop, Sample.byFst,
    Sample.pairs]

/-- Claim C5. `mergeSort` is stable for a comparator that is a total preorder: two
elements that compare equal and stand in this order in the array stand in this order
in the result. With every element tagged by its index (so that equal values at
different positions stay apart), `a[i]` precedes `a[j]` in the sorted tagged array
whenever `i < j` and `cmp(a[i], a[j]) = 0`, and the tags do not change the sorted
values. -/
theorem mergeSort_stable {α : Type} (cmp : α → α → Int) (hcmp : TotalPreorder cmp)
    (a : List α) :
    (∀ x y, cmp x y = 0 → [x, y].Sublist a → [x, y].Sublist (mergeSort a cmp)) ∧
    (∀ i j (_ : i < j) (hj : j < a.length), cmp a[i] a[j] = 0 →
      [(i, a[i]), (j, a[j])].Sublist (mergeSort a.enum fun p q => cmp p.2 q.2)) ∧
    (mergeSort a.enum fun p q => cmp p.2 q.2).map Prod.snd = mergeSort a cmp := by
  refine ⟨?_, ?_, ?_⟩
  · intro x y hxy hsub
    rw [mergeSort_eq_ms]
    exact ms_pair_sublist cmp hcmp x y (by omega) a hsub
  · intro i j hij hj h0
    rw [mergeSort_eq_ms]
    apply ms_pair_sublist _ (totalPreorder_on_snd cmp hcmp) _ _ (by simp only; omega)
    have h := pair_sublist_of_lt a.enum i j hij (by simpa using hj)
    simpa using h
  · rw [mergeSort_eq_ms, mergeSort_eq_ms, ← ms_map Prod.snd cmp a.enum, List.enum_map_snd]

/-- Witness for `mergeSort_stable`: sorting `[(1,'a'), (1,'b'), (0,'c')]` by first
component gives `[(0,'c'), (1,'a'), (1,'b')]`, with `(1,'a')` still before `(1,'b')`. -/
theorem mergeSort_stable_witness :
    [((1 : Int), 'a'), (1, 'b')].Sublist (mergeSort Sample.pairs Sample.byFst) ∧
    mergeSort Sample.pairs Sample.byFst = [(0, 'c'), (1, 'a'), (1, 'b')] :=
  ⟨(mergeSort_stable Sample.byFst totalPreorder_byFst Sample.pairs).1 (1, 'a') (1, 'b')
      (by decide) (by decide),
    mergeSort_pairs⟩

/-- Claim C6. For a comparator that is a total preorder the result of `mergeSort` is
ordered: `cmp(r[k], r[k+1]) <= 0` at every pair of adjacent positions (and then at every
pair of positions in increasing order). -/
theorem mergeSort_ordered {α : Type} (cmp : α → α → Int) (hcmp : TotalPreorder cmp)
    (a : List α) :
    (∀ k x y, (mergeSort a cmp)[k]? = some x → (mergeSort a cmp)[k + 1]? = some y →
      cmp x y ≤ 0) ∧
    (mergeSort a cmp).Pairwise (fun x y => cmp x y ≤ 0) := by
  have hp : (mergeSort a cmp).Pairwise (fun x y => cmp x y ≤ 0) := by
    rw [mergeSort_eq_ms]
    simpa using ms_sorted cmp hcmp a
  refine ⟨?_, hp⟩
  intro k x y hx hy
  rw [List.pairwise_iff_getElem] at hp
  obtain ⟨hk, rfl⟩ := List.getElem?_eq_some.mp hx
  obtain ⟨hk1, rfl⟩ := List.getElem?_eq_some.mp hy
  exact hp k (k + 1) hk hk1 (by omega)

/-- Witness for `mergeSort_ordered`: positions 0 and 1 of the sorted sample array. -/
theorem mergeSort_ordered_witness : Sample.byFst (0, 'c') (1, 'a') ≤ 0 :=
  (mergeSort_ordered Sample.byFst totalPreorder_byFst Sample.pairs).1 0 (0, 'c') (1, 'a')
    (by rw [mergeSort_pairs]; rfl) (by rw [mergeSort_pairs]; rfl)

/-- Claim C7. For any comparator whatever, `mergeSort` returns a permutation of its
argument: the same elements with the same multiplicities, so the same length; an array
of length 0 or 1 is returned as it is (a copy). -/
theorem mergeSort_perm {α : Type} (cmp : α → α → Int) (a : List α) :
    (mergeSort a cmp).Perm a ∧ (mergeSort a cmp).length = a.length ∧
    ((mergeSort a cmp : List α) : Multiset α) = (a : Multiset α) ∧
    (a.length < 2 → mergeSort a cmp = a) := by
  have hp : (mergeSort a cmp).Perm a := by
    rw [mergeSort_eq_ms]
    exact ms_perm cmp a
  refine ⟨hp, hp.length_eq, Multiset.coe_eq_coe.mpr hp, ?_⟩
  · intro h
    unfold mergeSort
    simp [h]

/-! ### MAP -/

theorem doit_of_not_last {α β : Type} (f : α → Nat → MapVal β) (backwards : Bool) (x : α)
    (i : Nat) (s : MAP.Acc β) (h : (f x i).isLast = false) :
    MAP.doit f backwards x i s =
      (⟨s.ret ++ (match f x i with
          | .at_top _ => []
          | .skip => []
          | .splice vs => MAP.spliced backwards vs
          | v => [v]),
        s.top ++ (match f x i with
          | .at_top (.splice vs) => MAP.spliced backwards vs
          | .at_top v => [v]
          | _ => [])⟩, false) := by
  unfold MAP.doit
  cases hf : f x i with
  | plain v => simp
  | skip => simp
  | splice vs => simp
  | at_top v => cases v <;> simp
  | last v => simp [hf, MapVal.isLast] at h

theorem doit_forward {α β : Type} (f : α → Nat → MapVal β) (x : α) (i : Nat) (s : MAP.Acc β)
    (h : (f x i).isLast = false) :
    MAP.doit f false x i s = (⟨s.ret ++ (f x i).retPart, s.top ++ (f x i).topPart⟩, false) := by
  rw [doit_of_not_last f false x i s h]
  cases hf : f x i with
  | plain v => simp [MapVal.retPart, MapVal.topPart, MapVal.contribution]
  | skip => simp [MapVal.retPart, MapVal.topPart, MapVal.contribution]
  | splice vs => simp [MapVal.retPart, MapVal.topPart, MapVal.contribution, MAP.spliced]
  | at_top v =>
    cases v <;> simp [MapVal.retPart, MapVal.topPart, MapVal.hoisted, MAP.spliced]
  | last v => simp [MapVal.retPart, MapVal.topPart, MapVal.contribution]

theorem forwardLoop_of_not_last {α β : Type} (f : α → Nat → MapVal β) (rest : List α) :
    ∀ (i : Nat) (s : MAP.Acc β),
      (∀ k x, rest[k]? = some x → (f x (i + k)).isLast = false) →
      MAP.forwardLoop f rest i s =
        ⟨s.ret ++ ((rest.enumFrom i).map fun p => f p.2 p.1).flatMap MapVal.retPart,
          s.top ++ ((rest.enumFrom i).map fun p => f p.2 p.1).flatMap MapVal.topPart⟩ := by
  induction rest with
  | nil => intro i s _; simp [MAP.forwardLoop]
  | cons x rest ih =>
    intro i s h
    have hx : (f x i).isLast = false := by simpa using h 0 x (List.getElem?_cons_zero)
    rw [MAP.forwardLoop, doit_forward f x i s hx]
    simp only
    rw [ih (i + 1) _ (fun k y hy => by
      have := h (k + 1) y (by simpa using hy)
      rwa [show i + 1 + k = i + (k + 1) by omega])]
    simp [List.enumFrom_cons]

theorem map_forward_of_not_last {α β : Type} (a : List α) (f : α → Nat → MapVal β)
    (h : ∀ i x, a[i]? = some x → (f x i).isLast = false) :
    MAP a f false =
      (MAP.results a f).flatMap MapVal.topPart ++ (MAP.results a f).flatMap MapVal.retPart := by
  unfold MAP MAP.results List.enum
  simp only [Bool.false_eq_true, if_false]
  rw [forwardLoop_of_not_last f a 0 _ (fun k x hx => by simpa using h k x hx)]
  simp

/-- Claim C9. When `f` returns neither an `AtTop` nor a `Last` for any element, forward
`MAP(a, f)` is the concatenation, in input order, of what each result contributes:
nothing for `MAP.skip`, the elements of `seq` in order for `MAP.splice(seq)`, the value
itself otherwise. -/
theorem MAP_forward_concat {α β : Type} (a : List α) (f : α → Nat → MapVal β)
    (h : ∀ i x, a[i]? = some x → (f x i).isAtTop = false ∧ (f x i).isLast = false) :
    MAP a f false = (MAP.results a f).flatMap MapVal.contribution := by
  rw [map_forward_of_not_last a f (fun i x hx => (h i x hx).2)]
  have hres : ∀ r ∈ MAP.results a f, r.isAtTop = false := by
    intro r hr
    simp only [MAP.results, List.mem_map] at hr
    obtain ⟨p, hp, rfl⟩ := hr
    have := List.mk_mem_enum_iff_getElem?.mp (show (p.1, p.2) ∈ a.enum from hp)
    exact (h p.1 p.2 this).1
  have htop : (MAP.results a f).flatMap MapVal.topPart = [] := by
    rw [List.flatMap_eq_nil_iff]
    intro r hr
    have := hres r hr
    cases r <;> simp_all [MapVal.topPart, MapVal.isAtTop]
  have hret : (MAP.results a f).flatMap MapVal.retPart =
      (MAP.results a f).flatMap MapVal.contribution := by
    apply List.flatMap_congr
    intro r hr
    have := hres r hr
    cases r <;> simp_all [MapVal.retPart, MapVal.isAtTop]
  rw [htop, hret, List.nil_append]

/-- Witness for `MAP_forward_concat`: over 5 elements, element 3 skipped and element 5
replaced by a splice of 2, the forward result has 5 elements. -/
theorem MAP_forward_concat_witness :
    MAP Sample.five Sample.rewrite false =
      (MAP.results Sample.five Sample.rewrite).flatMap MapVal.contribution ∧
    (MAP Sample.five Sample.rewrite false).length = 5 ∧
    MAP Sample.five Sample.rewrite false =
      [.plain 1, .plain 2, .plain 4, .plain 50, .plain 51] :=
  ⟨MAP_forward_concat Sample.five Sample.rewrite (fun i x _ => by
      unfold Sample.rewrite
      split
      · exact ⟨rfl, rfl⟩
      · split <;> exact ⟨rfl, rfl⟩),
    rfl, rfl⟩

/-- Claim C10. When `f` returns no `Last`, forward `MAP(a, f)` is `T ++ N`: `T` collects,
in input order, what the results of the form `MAP.at_top(v)` hoist (`v` itself, or the
elements of `seq` when `v` is `MAP.splice(seq)`), `N` collects, in input order, the
contributions of all other results; so every hoisted value precedes every value that is
not hoisted. -/
theorem MAP_forward_hoists {α β : Type} (a : List α) (f : α → Nat → MapVal β)
    (h : ∀ i x, a[i]? = some x → (f x i).isLast = false) :
    MAP a f false =
      (MAP.results a f).flatMap MapVal.topPart ++ (MAP.results a f).flatMap MapVal.retPart ∧
    (MAP.results a f).flatMap MapVal.topPart =
      ((MAP.results a f).filter MapVal.isAtTop).flatMap MapVal.topPart ∧
    (MAP.results a f).flatMap MapVal.retPart =
      ((MAP.results a f).filter fun r => !r.isAtTop).flatMap MapVal.contribution := by
  refine ⟨map_forward_of_not_last a f h, ?_, ?_⟩
  · induction MAP.results a f with
    | nil => rfl
    | cons r l ih =>
      cases r <;> simp_all [List.filter_cons, MapVal.isAtTop, MapVal.topPart]
  · induction MAP.results a f with
    | nil => rfl
    | cons r l ih =>
      cases r <;> simp_all [List.filter_cons, MapVal.isAtTop, MapVal.retPart]

/-- Witness for `MAP_forward_hoists`: elements 2 and 4 are hoisted (the latter as a splice
of two values) and come first, in input order, before the values that stay in place. -/
theorem MAP_forward_hoists_witness :
    MAP Sample.five Sample.hoist false =
      [.plain 20, .plain 40, .plain 41] ++ [.plain 1, .plain 5] :=
  ((MAP_forward_hoists Sample.five Sample.hoist (fun i x _ => by
      unfold Sample.hoist
      split
      · rfl
      · split
        · rfl
        · split <;> rfl)).1).trans rfl

/-! ### makePredicate -/

open makePredicate in
theorem label_append_of_ne_nil (cat : List String) (w : String) (h : cat ≠ []) :
    label (cat ++ [w]) = label cat := by
  cases cat with
  | nil => exact absurd rfl h
  | cons x t => rfl

open makePredicate in
theorem head_length_eq_iff (cat : List String) (n : Nat) (h : cat ≠ []) :
    cat.head?.map String.length = some n ↔ label cat = n := by
  cases cat with
  | nil => exact absurd rfl h
  | cons x t => simp [label]

open makePredicate in
theorem place_labels (w : String) (cats : List (List String)) (hne : ∀ cat ∈ cats, cat ≠ []) :
    (place w cats).map label =
      if w.length ∈ cats.map label then cats.map label else cats.map label ++ [w.length] := by
  induction cats with
  | nil => simp [place, label]
  | cons cat cats ih =>
    have hcat : cat ≠ [] := hne cat (List.mem_cons_self _ _)
    have ih := ih fun c hc => hne c (List.mem_cons_of_mem _ hc)
    unfold place
    by_cases h : label cat = w.length
    · have h1 : cat.head?.map String.length = some w.length :=
        (head_length_eq_iff cat _ hcat).mpr h
      simp [h1, label_append_of_ne_nil cat w hcat, h]
    · have h1 : ¬ cat.head?.map String.length = some w.length :=
        fun hh => h ((head_length_eq_iff cat _ hcat).mp hh)
      have h2 : ¬ w.length = label cat := fun hh => h hh.symm
      simp only [h1, if_false, List.map_cons, ih, List.mem_cons, h2, false_or]
      split <;> simp

open makePredicate in
theorem place_mem (w : String) (cats : List (List String)) (x : String) :
    (∃ cat ∈ place w cats, x ∈ cat) ↔ x = w ∨ ∃ cat ∈ cats, x ∈ cat := by
  induction cats with
  | nil => simp [place]
  | cons cat cats ih =>
    unfold place
    split
    · simp only [List.mem_cons, exists_eq_or_imp, List.mem_append, List.mem_singleton]
      tauto
    · simp only [List.mem_cons, exists_eq_or_imp, ih]
      tauto

open makePredicate in
theorem place_nonempty (w : String) (cats : List (List String))
    (hne : ∀ cat ∈ cats, cat ≠ []) : ∀ cat ∈ place w cats, cat ≠ [] := by
  induction cats with
  | nil => simp [place]
  | cons cat cats ih =>
    have ih := ih fun c hc => hne c (List.mem_cons_of_mem _ hc)
    unfold place
    split
    · intro c hc
      rcases List.mem_cons.mp hc with hc | hc
      · subst hc; simp
      · exact hne c (List.mem_cons_of_mem _ hc)
    · intro c hc
      rcases List.mem_cons.mp hc with hc | hc
      · subst hc; exact hne _ (List.mem_cons_self _ _)
      · exact ih c hc

open makePredicate in
theorem place_uniform (w : String) (cats : List (List String))
    (hne : ∀ cat ∈ cats, cat ≠ [])
    (hu : ∀ cat ∈ cats, ∀ x ∈ cat, x.length = label cat) :
    ∀ cat ∈ place w cats, ∀ x ∈ cat, x.length = label cat := by
  induction cats with
  | nil =>
    intro c hc x hx
    simp only [place, List.mem_singleton] at hc
    subst hc
    simp only [List.mem_singleton] at hx
    subst hx
    rfl
  | cons cat cats ih =>
    have hcat : cat ≠ [] := hne cat (List.mem_cons_self _ _)
    have ih := ih (fun c hc => hne c (List.mem_cons_of_mem _ hc))
      (fun c hc => hu c (List.mem_cons_of_mem _ hc))
    unfold place
    split
    · rename_i h
      intro c hc x hx
      rcases List.mem_cons.mp hc with hc | hc
      · subst hc
        rw [label_append_of_ne_nil cat w hcat]
        rcases List.mem_append.mp hx with hx | hx
        · exact hu cat (List.mem_cons_self _ _) x hx
        · simp only [List.mem_singleton] at hx
          subst hx
          exact ((head_length_eq_iff cat _ hcat).mp h).symm
      · exact hu c (List.mem_cons_of_mem _ hc) x hx
    · intro c hc x hx
      rcases List.mem_cons.mp hc with hc | hc
      · subst hc; exact hu _ (List.mem_cons_self _ _) x hx
      · exact ih c hc x hx

open makePredicate in
theorem place_bucketed (ws : List String) (cats : List (List String)) (w : String)
    (h : Bucketed ws cats) : Bucketed (ws ++ [w]) (place w cats) where
  nonempty := place_nonempty w cats h.nonempty
  uniform := place_uniform w cats h.nonempty h.uniform
  distinct := by
    rw [place_labels w cats h.nonempty]
    split
    · exact h.distinct
    · rename_i hn
      exact List.Nodup.append h.distinct (List.nodup_singleton _)
        (by simpa [List.Disjoint] using hn)
  complete := by
    intro x
    rw [place_mem, List.mem_append, List.mem_singleton, h.complete x]
    exact or_comm

open makePredicate in
theorem foldl_place_bucketed (rest : List String) :
    ∀ (ws : List String) (cats : List (List String)), Bucketed ws cats →
      Bucketed (ws ++ rest) (rest.foldl (fun cats w => place w cats) cats) := by
  induction rest with
  | nil => intro ws cats h; simpa using h
  | cons w rest ih =>
    intro ws cats h
    have := ih (ws ++ [w]) (place w cats) (place_bucketed ws cats w h)
    simpa using this

open makePredicate in
theorem classify_bucketed (words : List String) : Bucketed words (classify words) := by
  have h0 : Bucketed [] [] :=
    ⟨by simp, by simp, by simp, by simp⟩
  simpa [classify] using foldl_place_bucketed words [] [] h0

open makePredicate in
theorem makePredicate.Bucketed.of_perm {words : List String} {cats cats' : List (List String)}
    (h : Bucketed words cats) (hp : cats'.Perm cats) : Bucketed words cats' where
  nonempty := fun c hc => h.nonempty c (hp.mem_iff.mp hc)
  uniform := fun c hc => h.uniform c (hp.mem_iff.mp hc)
  distinct := (hp.map label).nodup_iff.mpr h.distinct
  complete := by
    intro w
    rw [h.complete w]
    constructor
    · rintro ⟨c, hc, hw⟩; exact ⟨c, hp.mem_iff.mpr hc, hw⟩
    · rintro ⟨c, hc, hw⟩; exact ⟨c, hp.mem_iff.mp hc, hw⟩


open makePredicate in
theorem compareTo_exec (ws : List String) (s : String) :
    (compareTo ws).exec s = some (.bool (decide (s ∈ ws))) := by
  unfold compareTo
  split
  · simp only [Compare.exec, Option.some.injEq, JSValue.bool.injEq]
    rw [Bool.eq_iff_iff]
    simp
  · simp [Compare.exec]

open makePredicate in
theorem compareTo_parses (ws : List String) (h : ws ≠ []) : (compareTo ws).parses = true := by
  unfold compareTo
  split
  · rfl
  · cases ws with
    | nil => exact absurd rfl h
    | cons x t => rfl

open makePredicate in
theorem execCases_buckets (s : String) (cats : List (List String)) :
    execCases s (cats.map fun cat => (label cat, compareTo cat)) false =
      (cats.find? fun cat => s.length == label cat).map fun cat =>
        JSValue.bool (decide (s ∈ cat)) := by
  induction cats with
  | nil => rfl
  | cons cat cats ih =>
    simp only [List.map_cons, execCases, Bool.false_or, compareTo_exec, List.find?_cons]
    cases h : s.length == label cat with
    | true => simp
    | false => simpa using ih

open makePredicate in
theorem makePredicate.Bucketed.mem_of_label {words : List String} {cats : List (List String)}
    (h : Bucketed words cats) {cat : List String} (hc : cat ∈ cats) {s : String}
    (hl : label cat = s.length) : s ∈ cat ↔ s ∈ words := by
  constructor
  · intro hs
    exact (h.complete s).mpr ⟨cat, hc, hs⟩
  · intro hs
    obtain ⟨cat2, hc2, hs2⟩ := (h.complete s).mp hs
    have hl2 : label cat2 = label cat := by rw [← h.uniform cat2 hc2 s hs2, hl]
    have : cat2 = cat := List.inj_on_of_nodup_map h.distinct hc2 hc hl2
    rwa [← this]

open makePredicate in
theorem makePredicate.Bucketed.labels {words : List String} {cats : List (List String)}
    (h : Bucketed words cats) (n : Nat) :
    n ∈ cats.map label ↔ n ∈ words.map String.length := by
  simp only [List.mem_map]
  constructor
  · rintro ⟨cat, hc, rfl⟩
    obtain ⟨w, hw⟩ := List.exists_mem_of_ne_nil cat (h.nonempty cat hc)
    exact ⟨w, (h.complete w).mpr ⟨cat, hc, hw⟩, h.uniform cat hc w hw⟩
  · rintro ⟨w, hw, rfl⟩
    obtain ⟨cat, hc, hwc⟩ := (h.complete w).mp hw
    exact ⟨cat, hc, (h.uniform cat hc w hwc).symm⟩

open makePredicate in
theorem classify_length (words : List String) :
    (classify words).length = (words.map String.length).dedup.length := by
  have h := classify_bucketed words
  have hp : ((classify words).map label).Perm (words.map String.length).dedup :=
    (List.perm_ext_iff_of_nodup h.distinct (List.nodup_dedup _)).mpr fun n => by
      rw [h.labels n, List.mem_dedup]
  simpa using hp.length_eq

theorem pieces_ne_nil (cs : List Char) : Words.pieces cs ≠ [] := by
  cases cs with
  | nil => simp [Words.pieces]
  | cons c cs =>
    unfold Words.pieces
    split
    · simp
    · split <;> simp

theorem toList_ne_nil (words : Words) (h : words ≠ .array []) : words.toList ≠ [] := by
  cases words with
  | array ws =>
    intro hw
    apply h
    simpa [Words.toList] using hw
  | string s =>
    simpa [Words.toList, Words.split] using pieces_ne_nil s.toList

/-- The generated body for the array `[]` is `switch(str){return true}return false;`,
which `new Function` refuses. -/
theorem makePredicate_empty_array (sort : List (List String) → List (List String)) :
    (makePredicate sort (.array [])).isNone = true := by
  rfl

open makePredicate in
theorem body_call (sort : List (List String) → List (List String))
    (hsort : ∀ l, (sort l).Perm l) (ws : List String) (hne : ws ≠ []) (s : String) :
    (body sort ws).parses = true ∧
    ((ws.map String.length).dedup.length ≤ 3 ∨ s.length ∈ ws.map String.length →
      (body sort ws).call s = .bool (decide (s ∈ ws))) ∧
    (3 < (ws.map String.length).dedup.length → s.length ∉ ws.map String.length →
      (body sort ws).call s = .undefined ∧ s ∉ ws) := by
  have hb : Bucketed ws (sort (classify ws)) := (classify_bucketed ws).of_perm (hsort _)
  unfold body
  simp only [classify_length]
  by_cases h3 : (ws.map String.length).dedup.length > 3
  · simp only [h3, if_true, Body.parses, Body.call, execCases_buckets]
    refine ⟨?_, ?_, ?_⟩
    · simp only [List.all_eq_true, List.mem_map]
      rintro _ ⟨cat, hc, rfl⟩
      exact compareTo_parses cat (hb.nonempty cat hc)
    · intro h
      have hlen : s.length ∈ ws.map String.length := by
        rcases h with h | h
        · omega
        · exact h
      obtain ⟨cat, hc, hl⟩ := List.mem_map.mp ((hb.labels _).mpr hlen)
      cases hf : (sort (classify ws)).find? fun cat => s.length == label cat with
      | none =>
        have := List.find?_eq_none.mp hf cat hc
        simp [hl] at this
      | some c =>
        have hc2 := List.mem_of_find?_eq_some hf
        have hl2 : label c = s.length := by
          have := List.find?_some hf
          simp only [beq_iff_eq] at this
          exact this.symm
        simp [hb.mem_of_label hc2 hl2]
    · intro _ hlen
      have hnone : (sort (classify ws)).find? (fun cat => s.length == label cat) = none := by
        rw [List.find?_eq_none]
        intro cat hc hl
        apply hlen
        rw [← hb.labels]
        simp only [beq_iff_eq] at hl
        exact List.mem_map.mpr ⟨cat, hc, hl.symm⟩
      refine ⟨by simp [hnone], ?_⟩
      intro hs
      exact hlen (List.mem_map.mpr ⟨s, hs, rfl⟩)
  · simp only [h3, if_false, Body.parses, Body.call, compareTo_exec, Option.getD_some]
    exact ⟨compareTo_parses ws hne, fun _ => trivial, fun h => h.elim⟩

/-- What the predicate of `makePredicate` returns, for a word set given as a non-empty
array or as a space-separated string: it is truthy exactly on the members of the set. Its
value is the boolean `s ∈ W` when the set has at most three distinct word lengths (flat
match) or when `s` has the length of some word (nested dispatch, so a non-member of the
same length as a member gets `false`); with more than three distinct lengths it is
`undefined` for a string of any other length. -/
theorem makePredicate_membership (sort : List (List String) → List (List String))
    (hsort : ∀ l, (sort l).Perm l) (words : Words) (hne : words ≠ .array []) :
    ∃ p, makePredicate sort words = some p ∧
      (∀ s, (p s).truthy = decide (s ∈ words.toList)) ∧
      (∀ s, (words.toList.map String.length).dedup.length ≤ 3 ∨
          s.length ∈ words.toList.map String.length →
        p s = .bool (decide (s ∈ words.toList))) ∧
      (∀ s, 3 < (words.toList.map String.length).dedup.length →
          s.length ∉ words.toList.map String.length → p s = .undefined) := by
  have hws := toList_ne_nil words hne
  have hparse := (body_call sort hsort words.toList hws "").1
  refine ⟨fun str => (makePredicate.body sort words.toList).call str, ?_, ?_, ?_, ?_⟩
  · simp [makePredicate, hparse]
  · intro s
    obtain ⟨-, h1, h2⟩ := body_call sort hsort words.toList hws s
    by_cases hc : (words.toList.map String.length).dedup.length ≤ 3 ∨
        s.length ∈ words.toList.map String.length
    · show ((makePredicate.body sort words.toList).call s).truthy = _
      rw [h1 hc]
      rfl
    · obtain ⟨hu, hs⟩ := h2 (by omega) (fun h => hc (Or.inr h))
      show ((makePredicate.body sort words.toList).call s).truthy = _
      rw [hu]
      simp [JSValue.truthy, hs]
  · intro s hc
    exact (body_call sort hsort words.toList hws s).2.1 hc
  · intro s h3 hl
    exact ((body_call sort hsort words.toList hws s).2.2 h3 hl).1

/-- An instance of `makePredicate_membership`: the string `"for var  if"` (with an empty
word between the two spaces) and a sort of the buckets by size. -/
theorem makePredicate_membership_witness :
    ∃ p, makePredicate Sample.bySize (.string "for var  if") = some p ∧
      (∀ s, (p s).truthy = decide (s ∈ (Words.string "for var  if").toList)) ∧
      (∀ s, (((Words.string "for var  if").toList).map String.length).dedup.length ≤ 3 ∨
          s.length ∈ ((Words.string "for var  if").toList).map String.length →
        p s = .bool (decide (s ∈ (Words.string "for var  if").toList))) ∧
      (∀ s, 3 < (((Words.string "for var  if").toList).map String.length).dedup.length →
          s.length ∉ ((Words.string "for var  if").toList).map String.length →
        p s = .undefined) :=
  makePredicate_membership Sample.bySize (fun l => List.perm_insertionSort _ l)
    (.string "for var  if") (fun h => Words.noConfusion h)

/-- Claim C8 at the input `makePredicate(["a", "bb", "ccc", "dddd", "eeee"])("zzzzz")`: the
claim, like the `@return` tag of the function and like the flat match and every bucket of
the nested dispatch, gives the boolean `false` for a string that is no member; with words
of four different lengths the generated `switch (str.length)` has no `default` and no
`return` after it, and the predicate called on a string of a fifth length returns
`undefined`. -/
theorem makePredicate_undefined_not_false :
    (makePredicate Sample.bySize (.array Sample.fourLengths)).map (fun p => p "zzzzz") =
      some .undefined ∧
    (makePredicate Sample.bySize (.array Sample.fourLengths)).map (fun p => p "zzzzz") ≠
      some (.bool (decide ("zzzzz" ∈ Sample.fourLengths))) := by
  decide

/-! ### MAP: terminate marker and backwards mode -/

theorem doit_of_last {α β : Type} (f : α → Nat → MapVal β) (x : α) (i : Nat) (s : MAP.Acc β)
    (v : MapVal β) (h : f x i = .last v) :
    MAP.doit f false x i s = (⟨s.ret ++ v.retPart, s.top ++ v.topPart⟩, true) := by
  unfold MAP.doit
  rw [h]
  cases v with
  | plain u => simp [MapVal.retPart, MapVal.topPart, MapVal.contribution]
  | skip => simp [MapVal.retPart, MapVal.topPart, MapVal.contribution]
  | splice vs => simp [MapVal.retPart, MapVal.topPart, MapVal.contribution, MAP.spliced]
  | at_top u =>
    cases u <;> simp [MapVal.retPart, MapVal.topPart, MapVal.hoisted, MAP.spliced]
  | last u => simp [MapVal.retPart, MapVal.topPart, MapVal.contribution]

theorem forwardLoop_stops {α β : Type} (f : α → Nat → MapVal β) (x : α) (post : List α)
    (v : MapVal β) (pre : List α) :
    ∀ (i : Nat) (s : MAP.Acc β),
      (∀ j y, pre[j]? = some y → (f y (i + j)).isLast = false) →
      f x (i + pre.length) = .last v →
      MAP.forwardLoop f (pre ++ x :: post) i s =
        ⟨s.ret ++ (((pre.enumFrom i).map fun p => f p.2 p.1).flatMap MapVal.retPart
            ++ v.retPart),
          s.top ++ (((pre.enumFrom i).map fun p => f p.2 p.1).flatMap MapVal.topPart
            ++ v.topPart)⟩ := by
  induction pre with
  | nil =>
    intro i s _ hx
    simp only [List.nil_append, MAP.forwardLoop]
    rw [doit_of_last f x i s v (by simpa using hx)]
    simp
  | cons y pre ih =>
    intro i s h hx
    have hy : (f y i).isLast = false := by simpa using h 0 y (List.getElem?_cons_zero)
    rw [List.cons_append, MAP.forwardLoop, doit_forward f y i s hy]
    simp only
    rw [ih (i + 1) _ (fun k z hz => by
      have := h (k + 1) z (by simpa using hz)
      rwa [show i + 1 + k = i + (k + 1) by omega])
      (by rw [← hx]; congr 1; simp; omega)]
    simp [List.enumFrom_cons]

theorem results_append_singleton {α β : Type} (l : List α) (x : α)
    (f : α → Nat → MapVal β) :
    MAP.results (l ++ [x]) f = MAP.results l f ++ [f x l.length] := by
  unfold MAP.results
  rw [List.enum_append]
  simp [List.enumFrom_cons]

theorem take_succ_of_getElem? {α : Type} (a : List α) (i : Nat) (x : α)
    (h : a[i]? = some x) : a.take (i + 1) = a.take i ++ [x] := by
  rw [List.take_succ, h]
  rfl

theorem map_forward_stops {α β : Type} (a : List α) (f : α → Nat → MapVal β) (k : Nat)
    (x : α) (v : MapVal β) (hk : a[k]? = some x) (hv : f x k = .last v)
    (hfirst : ∀ i y, i < k → a[i]? = some y → (f y i).isLast = false) :
    MAP a f false =
      (MAP.results (a.take k) f ++ [v]).flatMap MapVal.topPart ++
        (MAP.results (a.take k) f ++ [v]).flatMap MapVal.retPart := by
  obtain ⟨hlt, hx⟩ := List.getElem?_eq_some.mp hk
  have hsplit : a = a.take k ++ x :: a.drop (k + 1) := by
    rw [← hx, ← List.drop_eq_getElem_cons hlt, List.take_append_drop]
  have hlen : (a.take k).length = k := by
    rw [List.length_take]; omega
  unfold MAP
  simp only [Bool.false_eq_true, if_false]
  rw [hsplit, forwardLoop_stops f x (a.drop (k + 1)) v (a.take k) 0 ⟨[], []⟩
    (fun j y hy => by
      have hj : j < k := by
        have := (List.getElem?_eq_some.mp hy).1
        omega
      rw [Nat.zero_add]
      apply hfirst j y hj
      rw [List.getElem?_take] at hy
      simpa [hj] using hy)
    (by rw [hlen, Nat.zero_add]; exact hv)]
  rw [← hsplit]
  simp [MAP.results, List.enum]

theorem results_congr {α β : Type} (l : List α) (f g : α → Nat → MapVal β)
    (h : ∀ i y, l[i]? = some y → g y i = f y i) : MAP.results l g = MAP.results l f := by
  unfold MAP.results
  apply List.map_congr_left
  intro p hp
  exact h p.1 p.2 (List.mk_mem_enum_iff_getElem?.mp hp)

theorem getElem?_take_of_lt {α : Type} (a : List α) (i k : Nat) (h : i < k) :
    (a.take k)[i]? = a[i]? := by
  rw [List.getElem?_take]
  simp [h]

/-- Claim C11. When `k` is the first index at which `f` returns `MAP.last(v)`, forward
`MAP(a, f)` is built from the results at the indices below `k` followed by `v`, which
contributes like any result (nothing for `skip`, its elements for a splice, to the
leading segment for `at_top`): it is the result of processing `a[0..k]` with the result
at `k` taken to be `v`. Nothing depends on what `f` returns after index `k`, nor on the
elements after index `k`: `f` is not applied to them. -/
theorem MAP_stops_at_last {α β : Type} (a : List α) (f : α → Nat → MapVal β) (k : Nat)
    (x : α) (v : MapVal β) (hk : a[k]? = some x) (hv : f x k = .last v)
    (hfirst : ∀ i y, i < k → a[i]? = some y → (f y i).isLast = false) :
    MAP a f false =
      (MAP.results (a.take k) f ++ [v]).flatMap MapVal.topPart ++
        (MAP.results (a.take k) f ++ [v]).flatMap MapVal.retPart ∧
    (v.isLast = false →
      MAP a f false = MAP (a.take (k + 1)) (fun y i => if i = k then v else f y i) false) ∧
    (∀ g : α → Nat → MapVal β, (∀ i y, i ≤ k → a[i]? = some y → g y i = f y i) →
      MAP a g false = MAP a f false) ∧
    (∀ b : List α, b.take (k + 1) = a.take (k + 1) → MAP b f false = MAP a f false) := by
  have hmain := map_forward_stops a f k x v hk hv hfirst
  have hlen : (a.take k).length = k := by
    rw [List.length_take]
    have := (List.getElem?_eq_some.mp hk).1
    omega
  refine ⟨hmain, ?_, ?_, ?_⟩
  · intro hvl
    rw [hmain, map_forward_of_not_last]
    · rw [take_succ_of_getElem? a k x hk, results_append_singleton, hlen]
      rw [results_congr (a.take k) f (fun y i => if i = k then v else f y i)]
      · simp
      · intro i y hy
        have hi : i < k := by
          have := (List.getElem?_eq_some.mp hy).1
          omega
        simp [Nat.ne_of_lt hi]
    · intro i y hy
      by_cases hik : i = k
      · simp [hik, hvl]
      · have hi : i < k := by
          have := (List.getElem?_eq_some.mp hy).1
          simp only [List.length_take] at this
          omega
        simp only [hik, if_false]
        exact hfirst i y hi (by rwa [getElem?_take_of_lt a i (k + 1) (by omega)] at hy)
  · intro g hg
    rw [hmain, map_forward_stops a g k x v hk (by rw [hg k x (Nat.le_refl k) hk, hv])
      (fun i y hi hy => by rw [hg i y (Nat.le_of_lt hi) hy]; exact hfirst i y hi hy)]
    rw [results_congr (a.take k) f g (fun i y hy => by
      have hi : i < k := by
        have := (List.getElem?_eq_some.mp hy).1
        omega
      exact hg i y (Nat.le_of_lt hi) (by rwa [getElem?_take_of_lt a i k hi] at hy))]
  · intro b hb
    have hget : ∀ i, i ≤ k → b[i]? = a[i]? := by
      intro i hi
      rw [← getElem?_take_of_lt b i (k + 1) (by omega), hb,
        getElem?_take_of_lt a i (k + 1) (by omega)]
    have hbk : b.take k = a.take k := by
      have := congrArg (List.take k) hb
      simpa [List.take_take] using this
    rw [hmain, map_forward_stops b f k x v (by rw [hget k (Nat.le_refl k), hk]) hv
      (fun i y hi hy => hfirst i y hi (by rwa [hget i (Nat.le_of_lt hi)] at hy)), hbk]

/-- Witness for `MAP_stops_at_last`: element 3 of five yields `MAP.last` of a splice of
two values; the result holds the hoisted element 2, then the two spliced values, and
nothing of elements 4 and 5. -/
theorem MAP_stops_at_last_witness :
    MAP Sample.five Sample.stopAtThree false = [.plain 20, .plain 30, .plain 31] ∧
    MAP Sample.five Sample.stopAtThree false =
      MAP (Sample.five.take (2 + 1))
        (fun y i => if i = 2 then .splice [.plain 30, .plain 31]
          else Sample.stopAtThree y i) false :=
  ⟨((MAP_stops_at_last Sample.five Sample.stopAtThree 2 3 (.splice [.plain 30, .plain 31])
      rfl rfl (fun i y hi _ => by
        have h2 : i = 0 ∨ i = 1 := by omega
        rcases h2 with h2 | h2 <;> subst h2 <;> rfl)).1).trans rfl,
    (MAP_stops_at_last Sample.five Sample.stopAtThree 2 3 (.splice [.plain 30, .plain 31])
      rfl rfl (fun i y hi _ => by
        have h2 : i = 0 ∨ i = 1 := by omega
        rcases h2 with h2 | h2 <;> subst h2 <;> rfl)).2.1 rfl⟩

/-! ### MAP: backwards mode -/

theorem doit_backward {α β : Type} (f : α → Nat → MapVal β) (x : α) (i : Nat)
    (s : MAP.Acc β) (h : (f x i).isLast = false) :
    MAP.doit f true x i s =
      (⟨s.ret ++ (f x i).retPart.reverse, s.top ++ (f x i).topPart.reverse⟩, false) := by
  rw [doit_of_not_last f true x i s h]
  cases hf : f x i with
  | plain v => simp [MapVal.retPart, MapVal.topPart, MapVal.contribution]
  | skip => simp [MapVal.retPart, MapVal.topPart, MapVal.contribution]
  | splice vs => simp [MapVal.retPart, MapVal.topPart, MapVal.contribution, MAP.spliced]
  | at_top v =>
    cases v <;> simp [MapVal.retPart, MapVal.topPart, MapVal.hoisted, MAP.spliced]
  | last v => simp [MapVal.retPart, MapVal.topPart, MapVal.contribution]

theorem backwardLoop_of_not_last {α β : Type} (a : List α) (f : α → Nat → MapVal β)
    (h : ∀ i x, a[i]? = some x → (f x i).isLast = false) :
    ∀ (i : Nat), i ≤ a.length → ∀ (s : MAP.Acc β),
      MAP.backwardLoop f a i s =
        ⟨s.ret ++ ((MAP.results (a.take i) f).flatMap MapVal.retPart).reverse,
          s.top ++ ((MAP.results (a.take i) f).flatMap MapVal.topPart).reverse⟩ := by
  intro i
  induction i with
  | zero => intro _ s; simp [MAP.backwardLoop, MAP.results]
  | succ i ih =>
    intro hi s
    have hlt : i < a.length := by omega
    have hx : a[i]? = some a[i] := List.getElem?_eq_getElem hlt
    have hlen : (a.take i).length = i := by rw [List.length_take]; omega
    rw [MAP.backwardLoop, hx]
    simp only
    rw [doit_backward f a[i] i s (h i a[i] hx)]
    simp only
    rw [ih (by omega), take_succ_of_getElem? a i a[i] hx, results_append_singleton, hlen]
    simp

theorem map_backward_of_not_last {α β : Type} (a : List α) (f : α → Nat → MapVal β)
    (h : ∀ i x, a[i]? = some x → (f x i).isLast = false) :
    MAP a f true =
      (MAP.results a f).flatMap MapVal.topPart ++ (MAP.results a f).flatMap MapVal.retPart := by
  unfold MAP
  simp only [if_true]
  rw [backwardLoop_of_not_last a f h a.length (Nat.le_refl _)]
  simp

/-- Claim C12. When `f` never returns a `Last`, backwards mode gives the forward result:
`MAP(a, f, true) = MAP(a, f, false)`, whatever `skip`, `splice` and `at_top` markers `f`
returns: both are the hoisted values in input order followed by the other contributions
in input order, every spliced sequence in its own order. -/
theorem MAP_backwards_eq_forward {α β : Type} (a : List α) (f : α → Nat → MapVal β)
    (h : ∀ i x, a[i]? = some x → (f x i).isLast = false) :
    MAP a f true = MAP a f false ∧
    MAP a f true =
      (MAP.results a f).flatMap MapVal.topPart ++ (MAP.results a f).flatMap MapVal.retPart := by
  refine ⟨?_, map_backward_of_not_last a f h⟩
  rw [map_backward_of_not_last a f h, map_forward_of_not_last a f h]

/-- Witness for `MAP_backwards_eq_forward`: a rewrite with a hoisted value, a skip and a
hoisted splice. -/
theorem MAP_backwards_eq_forward_witness :
    MAP Sample.five Sample.hoist true = MAP Sample.five Sample.hoist false ∧
    MAP Sample.five Sample.hoist true =
      [.plain 20, .plain 40, .plain 41, .plain 1, .plain 5] :=
  ⟨(MAP_backwards_eq_forward Sample.five Sample.hoist (fun i x _ => by
      unfold Sample.hoist
      split
      · rfl
      · split
        · rfl
        · split <;> rfl)).1, rfl⟩

theorem not_atTop_parts {β : Type} (l : List (MapVal β))
    (h : ∀ r ∈ l, r.isAtTop = false) :
    l.flatMap MapVal.topPart = [] ∧
      l.flatMap MapVal.retPart = l.flatMap MapVal.contribution := by
  constructor
  · rw [List.flatMap_eq_nil_iff]
    intro r hr
    have := h r hr
    cases r <;> simp_all [MapVal.topPart, MapVal.isAtTop]
  · apply List.flatMap_congr
    intro r hr
    have := h r hr
    cases r <;> simp_all [MapVal.retPart, MapVal.isAtTop]

/-- Claim C13, as amended. When `f` returns only plain values, `skip` and splices,
`MAP(a, f, true)` has the same elements as `MAP(a, f, false)` in the same order: the
backwards result equals the forward result, the concatenation of the contributions in
input order. -/
theorem MAP_backwards_same_order {α β : Type} (a : List α) (f : α → Nat → MapVal β)
    (h : ∀ i x, a[i]? = some x → (f x i).isAtTop = false ∧ (f x i).isLast = false) :
    MAP a f true = (MAP.results a f).flatMap MapVal.contribution ∧
    MAP a f true = MAP a f false ∧
    (MAP a f true).Perm (MAP a f false) := by
  have hres : ∀ r ∈ MAP.results a f, r.isAtTop = false := by
    intro r hr
    simp only [MAP.results, List.mem_map] at hr
    obtain ⟨p, hp, rfl⟩ := hr
    exact (h p.1 p.2 (List.mk_mem_enum_iff_getElem?.mp hp)).1
  have hb := map_backward_of_not_last a f (fun i x hx => (h i x hx).2)
  have hf := map_forward_of_not_last a f (fun i x hx => (h i x hx).2)
  have heq : MAP a f true = MAP a f false := by rw [hb, hf]
  refine ⟨?_, heq, by rw [heq]⟩
  rw [hb, (not_atTop_parts _ hres).1, (not_atTop_parts _ hres).2, List.nil_append]

/-- Witness for `MAP_backwards_same_order`: 5 elements, element 3 skipped and element 5
replaced by a splice of 2; backwards mode gives the 5 values in input order. -/
theorem MAP_backwards_same_order_witness :
    MAP Sample.five Sample.rewrite true =
      (MAP.results Sample.five Sample.rewrite).flatMap MapVal.contribution ∧
    MAP Sample.five Sample.rewrite true =
      [.plain 1, .plain 2, .plain 4, .plain 50, .plain 51] :=
  ⟨(MAP_backwards_same_order Sample.five Sample.rewrite (fun i x _ => by
      unfold Sample.rewrite
      split
      · exact ⟨rfl, rfl⟩
      · split <;> exact ⟨rfl, rfl⟩)).1, rfl⟩

/-- Counterexample to claim C13 as stated: for 5 elements with element 3 skipped and
element 5 replaced by a splice of 2, the backwards result is the forward result
`[1, 2, 4, 50, 51]`, not its reversal. -/
theorem MAP_backwards_not_reversed :
    MAP Sample.five Sample.rewrite true ≠ (MAP Sample.five Sample.rewrite false).reverse := by
  have h1 : MAP Sample.five Sample.rewrite true =
      [.plain 1, .plain 2, .plain 4, .plain 50, .plain 51] := rfl
  have h2 : (MAP Sample.five Sample.rewrite false).reverse =
      [.plain 51, .plain 50, .plain 4, .plain 2, .plain 1] := rfl
  rw [h1, h2]
  simp

/-! ### AST_Seq -/

open AST_Seq in
theorem cells_append_singleton (alloc : Nat) (x : Node) (list : Option Node) (es : List Node) :
    cells alloc (es ++ [x]) list = cells (alloc + 1) es (some (cons alloc x list)) := by
  induction es with
  | nil => simp [cells, cons]
  | cons e es ih =>
    rw [List.cons_append, cells, cells, ih, List.length_append, List.length_singleton]
    congr 2
    omega

open AST_Seq in
theorem build_eq_cells (array : List Node) :
    ∀ (i : Nat), i ≤ array.length → ∀ (list : Option Node) (alloc : Nat),
      from_array.build array i list alloc = cells alloc (array.take i) list := by
  intro i
  induction i with
  | zero => intro _ list alloc; simp [from_array.build, cells]
  | succ i ih =>
    intro hi list alloc
    have hlt : i < array.length := by omega
    have hx : array[i]? = some array[i] := List.getElem?_eq_getElem hlt
    rw [from_array.build, hx]
    simp only
    rw [ih (by omega), take_succ_of_getElem? array i array[i] hx, cells_append_singleton]

open AST_Seq in
theorem collapse_seq_seq (a a2 : Nat) (car car2 : Node) (cdr2 : Option Node) :
    from_array.collapse (.Seq a car (some (.Seq a2 car2 cdr2))) =
      if cdr2.isNone then .Seq a car (some car2)
      else .Seq a car (some (from_array.collapse (.Seq a2 car2 cdr2))) := by
  rw [from_array.collapse]

open AST_Seq in
theorem loop_seq_seq (a a2 : Nat) (car car2 : Node) (cdr2 : Option Node) :
    to_array.loop (.Seq a car (some (.Seq a2 car2 cdr2))) =
      car :: to_array.loop (.Seq a2 car2 cdr2) := by
  rw [to_array.loop]

open AST_Seq in
theorem collapse_cells (alloc : Nat) (rest : List Node) :
    ∀ (e1 e2 : Node),
      from_array.collapse (.Seq (alloc + (e2 :: rest).length) e1 (cells alloc (e2 :: rest) none))
        = chain alloc e1 (e2 :: rest) := by
  induction rest with
  | nil => intro e1 e2; simp [cells, from_array.collapse, chain]
  | cons e3 rest ih =>
    intro e1 e2
    have h := ih e2 e3
    rw [cells] at h
    rw [show cells alloc (e2 :: e3 :: rest) none =
      some (.Seq (alloc + (e3 :: rest).length) e2
        (some (.Seq (alloc + rest.length) e3 (cells alloc rest none)))) from rfl]
    rw [collapse_seq_seq, h]
    simp only [Option.isNone_some, Bool.false_eq_true, if_false, chain, List.length_cons]
    congr 1

open AST_Seq in
theorem from_array_eq_chain (alloc : Nat) (e1 e2 : Node) (rest : List Node) :
    from_array alloc (e1 :: e2 :: rest) = some (chain alloc e1 (e2 :: rest)) := by
  unfold from_array
  simp only
  rw [build_eq_cells _ _ (Nat.le_refl _), List.take_length, cells, Option.map_some',
    collapse_cells]

open AST_Seq in
theorem chain_isSeq (alloc : Nat) (e1 e2 : Node) (rest : List Node) :
    (chain alloc e1 (e2 :: rest)).isSeq = true := rfl

open AST_Seq in
theorem to_array_chain (alloc : Nat) (rest : List Node) :
    ∀ (e1 e2 : Node),
      to_array.loop (chain alloc e1 (e2 :: rest)) =
        (e1 :: e2 :: rest).dropLast ++
          (if ((e2 :: rest).getLast (List.cons_ne_nil _ _)).isSeq then
            to_array.loop ((e2 :: rest).getLast (List.cons_ne_nil _ _))
          else [(e2 :: rest).getLast (List.cons_ne_nil _ _)]) := by
  induction rest with
  | nil =>
    intro e1 e2
    cases e2 <;> simp [chain, to_array.loop, Node.isSeq]
  | cons e3 rest ih =>
    intro e1 e2
    have h := ih e2 e3
    rw [show chain alloc e1 (e2 :: e3 :: rest) =
      .Seq (alloc + (e3 :: rest).length + 1) e1
        (some (.Seq (alloc + rest.length + 1) e2 (some (chain alloc e3 rest)))) from rfl]
    rw [loop_seq_seq, show Node.Seq (alloc + rest.length + 1) e2 (some (chain alloc e3 rest)) =
      chain alloc e2 (e3 :: rest) from rfl, h]
    simp [List.dropLast]

open AST_Seq in
theorem add_seq_seq (alloc a a2 : Nat) (node car car2 : Node) (cdr2 : Option Node) :
    add.loop alloc node (.Seq a car (some (.Seq a2 car2 cdr2))) =
      match add.loop alloc node (.Seq a2 car2 cdr2) with
      | none => none
      | some (c1, cell) => some (.Seq a car (some c1), cell) := by
  rw [add.loop]

open AST_Seq in
theorem add_chain (alloc alloc2 : Nat) (x : Node) (rest : List Node) :
    ∀ (e1 e2 : Node), ((e2 :: rest).getLast (List.cons_ne_nil _ _)).isSeq = false →
      add.loop alloc2 x (chain alloc e1 (e2 :: rest)) =
        some (chain alloc e1 ((e2 :: rest).dropLast ++
            [cons alloc2 ((e2 :: rest).getLast (List.cons_ne_nil _ _)) (some x)]),
          cons alloc2 ((e2 :: rest).getLast (List.cons_ne_nil _ _)) (some x)) := by
  induction rest with
  | nil =>
    intro e1 e2 h
    cases e2 <;> simp_all [chain, add.loop, Node.isSeq, cons]
  | cons e3 rest ih =>
    intro e1 e2 h
    have h3 := ih e2 e3 (by simpa using h)
    rw [show chain alloc e1 (e2 :: e3 :: rest) =
      .Seq (alloc + (e3 :: rest).length + 1) e1
        (some (.Seq (alloc + rest.length + 1) e2 (some (chain alloc e3 rest)))) from rfl,
      add_seq_seq,
      show Node.Seq (alloc + rest.length + 1) e2 (some (chain alloc e3 rest)) =
        chain alloc e2 (e3 :: rest) from rfl, h3]
    have hlen : ∀ c : Node, ((e3 :: rest).dropLast ++ [c]).length = (e3 :: rest).length := by
      intro c
      simp
    simp only [List.getLast_cons_cons, List.dropLast_cons₂, List.cons_append]
    rw [show ∀ (e : Node) (d : Node) (ds : List Node), chain alloc e (d :: ds) =
      .Seq (alloc + ds.length + 1) e (some (chain alloc d ds)) from fun _ _ _ => rfl]
    rw [hlen]

theorem chain_cdrAt (alloc : Nat) (es : List Node) :
    ∀ (e : Node),
      (∀ i, i < es.length →
        (Node.cdrAt i (AST_Seq.chain alloc e es)).map Node.isSeq = some true ∧
        (Node.cdrAt i (AST_Seq.chain alloc e es)).bind Node.car? = (e :: es)[i]? ∧
        (Node.cdrAt i (AST_Seq.chain alloc e es)).map Node.addr =
          some (alloc + (es.length - i))) ∧
      Node.cdrAt es.length (AST_Seq.chain alloc e es) = (e :: es).getLast? := by
  induction es with
  | nil =>
    intro e
    exact ⟨fun i hi => absurd hi (by simp), rfl⟩
  | cons e2 es ih =>
    intro e
    obtain ⟨hcells, hlast⟩ := ih e2
    refine ⟨?_, ?_⟩
    · intro i hi
      cases i with
      | zero =>
        simp only [Node.cdrAt, AST_Seq.chain, Option.map_some', Node.isSeq, Option.some_bind,
          Node.car?, List.getElem?_cons_zero, Node.addr, List.length_cons, Nat.sub_zero,
          true_and]
        rfl
      | succ j =>
        have hj : j < es.length := by simpa using hi
        obtain ⟨h1, h2, h3⟩ := hcells j hj
        simp only [Node.cdrAt, AST_Seq.chain, Node.cdr?, Option.some_bind,
          List.getElem?_cons_succ, List.length_cons]
        refine ⟨h1, h2, ?_⟩
        rw [h3]
        congr 2
        omega
    · simp only [List.length_cons, Node.cdrAt, AST_Seq.chain, Node.cdr?, Option.some_bind]
      rw [hlast]
      simp [List.getLast?_cons_cons]

theorem clone_facts (alloc : Nat) (x : Node) :
    (x.clone alloc).addr = alloc ∧ (x.clone alloc).clone x.addr = x ∧
      (x.clone alloc).kind = x.kind ∧ (x.clone alloc).children = x.children ∧
      (x.clone alloc).isSeq = x.isSeq := by
  cases x <;> exact ⟨rfl, rfl, rfl, rfl, rfl⟩

/-- Claim C14, as amended. For every list `L` of at least two nodes whose last element is
not itself an `AST_Seq`, flattening the chain built from `L` returns `L`:
`AST_Seq.from_array(L).to_array() = L`. -/
theorem seq_round_trip (alloc : Nat) (L : List Node) (h2 : 2 ≤ L.length)
    (hlast : ∀ x, L.getLast? = some x → x.isSeq = false) :
    (AST_Seq.from_array alloc L).bind Node.to_array = some L := by
  match L, h2 with
  | e1 :: e2 :: rest, _ =>
    have hl : ((e2 :: rest).getLast (List.cons_ne_nil _ _)).isSeq = false :=
      hlast _ (by simp [List.getLast?_cons_cons, List.getLast?_eq_getLast])
    rw [from_array_eq_chain, Option.some_bind, Node.to_array, chain_isSeq, if_pos rfl,
      to_array_chain, hl]
    simp only [Bool.false_eq_true, if_false, Option.some.injEq]
    rw [show (e1 :: e2 :: rest).dropLast = e1 :: (e2 :: rest).dropLast from rfl,
      List.cons_append, List.dropLast_append_getLast]

/-- Witness for `seq_round_trip`: lists of sizes 2, 3 and 10. -/
theorem seq_round_trip_witness :
    (AST_Seq.from_array 100 Sample.two).bind Node.to_array = some Sample.two ∧
    (AST_Seq.from_array 100 Sample.three).bind Node.to_array = some Sample.three ∧
    (AST_Seq.from_array 100 Sample.ten).bind Node.to_array = some Sample.ten :=
  ⟨seq_round_trip 100 Sample.two (by decide) (fun x hx => by
      cases Option.some.inj hx; rfl),
    seq_round_trip 100 Sample.three (by decide) (fun x hx => by
      cases Option.some.inj hx; rfl),
    seq_round_trip 100 Sample.ten (by decide) (fun x hx => by
      cases Option.some.inj hx; rfl)⟩

/-- Counterexample to claim C14 as stated. For the one-element list `[a]`, `from_array`
returns a copy of `a`, which is no `AST_Seq` and has no `to_array` (the call throws); for
the list `[a, (p, q)]`, whose last element is a chain, `to_array` returns `[a, p, q]`. -/
theorem seq_round_trip_fails :
    (AST_Seq.from_array 100 [Sample.sym 1 "a"]).bind Node.to_array = none ∧
    (AST_Seq.from_array 100 [Sample.sym 1 "a"]).bind Node.to_array ≠
      some [Sample.sym 1 "a"] ∧
    (AST_Seq.from_array 100 [Sample.sym 1 "a", Sample.pq]).bind Node.to_array =
      some [Sample.sym 1 "a", Sample.sym 21 "p", Sample.sym 22 "q"] ∧
    (AST_Seq.from_array 100 [Sample.sym 1 "a", Sample.pq]).bind Node.to_array ≠
      some [Sample.sym 1 "a", Sample.pq] := by
  have h1 : (AST_Seq.from_array 100 [Sample.sym 1 "a"]).bind Node.to_array = none := rfl
  have h2 : (AST_Seq.from_array 100 [Sample.sym 1 "a", Sample.pq]).bind Node.to_array =
      some [Sample.sym 1 "a", Sample.sym 21 "p", Sample.sym 22 "q"] := rfl
  refine ⟨h1, ?_, h2, ?_⟩
  · rw [h1]
    exact fun h => Option.noConfusion h
  · rw [h2]
    intro h
    have := congrArg (Option.map List.length) h
    simp at this

open AST_Seq in
theorem to_array_chain_ne_nil (alloc : Nat) (e1 : Node) (es : List Node) (h : es ≠ []) :
    to_array.loop (chain alloc e1 es) =
      (e1 :: es).dropLast ++
        (if (es.getLast h).isSeq then to_array.loop (es.getLast h) else [es.getLast h]) := by
  match es, h with
  | e2 :: rest, _ => exact to_array_chain alloc rest e1 e2

theorem loop_pair (a : Nat) (c x : Node) (hx : x.isSeq = false) :
    AST_Seq.to_array.loop (.Seq a c (some x)) = [c, x] := by
  cases x <;> first | rfl | exact absurd hx (by simp [Node.isSeq])

theorem seq_chain_to_array (alloc : Nat) (e1 : Node) (es : List Node) (h : es ≠ [])
    (hl : (es.getLast h).isSeq = false) :
    (AST_Seq.chain alloc e1 es).to_array = some (e1 :: es) := by
  match es, h with
  | e2 :: rest, h =>
    rw [Node.to_array, chain_isSeq, if_pos rfl, to_array_chain, hl]
    simp only [Bool.false_eq_true, if_false, Option.some.injEq]
    rw [show (e1 :: e2 :: rest).dropLast = e1 :: (e2 :: rest).dropLast from rfl,
      List.cons_append, List.dropLast_append_getLast]

/-- Claim C15. `AST_Seq.from_array([])` is `null`; `from_array([x])` is `x.clone()`, a new
node of the kind of `x` with the field values of `x`; and for a list `e1, e2, ..., en` of
at least two nodes the result is the right-nested chain of `n - 1` new cells in which the
`i`-th cell has `car` equal to `ei` and the last cell has `cdr` equal to `en` itself. -/
theorem from_array_shape (alloc : Nat) :
    AST_Seq.from_array alloc [] = none ∧
    (∀ x : Node, AST_Seq.from_array alloc [x] = some (x.clone alloc) ∧
      (x.clone alloc).addr = alloc ∧ (x.clone alloc).kind = x.kind ∧
      (x.clone alloc).children = x.children ∧ (x.clone alloc).isSeq = x.isSeq ∧
      (x.clone alloc).clone x.addr = x) ∧
    (∀ (e1 e2 : Node) (rest : List Node), ∃ s : Node,
      AST_Seq.from_array alloc (e1 :: e2 :: rest) = some s ∧
      s = AST_Seq.chain alloc e1 (e2 :: rest) ∧
      (∀ i, i < (e2 :: rest).length →
        (Node.cdrAt i s).map Node.isSeq = some true ∧
        (Node.cdrAt i s).bind Node.car? = (e1 :: e2 :: rest)[i]? ∧
        (Node.cdrAt i s).map Node.addr = some (alloc + ((e2 :: rest).length - i))) ∧
      Node.cdrAt (e2 :: rest).length s = (e1 :: e2 :: rest).getLast?) := by
  refine ⟨rfl, ?_, ?_⟩
  · intro x
    obtain ⟨h1, h2, h3, h4, h5⟩ := clone_facts alloc x
    exact ⟨rfl, h1, h3, h4, h5, h2⟩
  · intro e1 e2 rest
    obtain ⟨hc, hl⟩ := chain_cdrAt alloc (e2 :: rest) e1
    exact ⟨_, from_array_eq_chain alloc e1 e2 rest, rfl, hc, hl⟩

/-- Claim C16. For a chain `s` built by `from_array` from a list `L` of at least two nodes
whose last element is not a chain, and a node `x` that is not a chain, `s.add(x)` wraps the
slot at the end of the `cdr` spine, which held `last(L)`: that slot now holds the new cell
`Seq(last(L), x)`, which the call returns, the cells before it keep their `car` and their
identity, and afterwards `s.to_array() = L ++ [x]`. -/
theorem add_appends (alloc alloc2 : Nat) (L : List Node) (x : Node) (h2 : 2 ≤ L.length)
    (hlast : ∀ y, L.getLast? = some y → y.isSeq = false) (hx : x.isSeq = false) :
    ∃ s s2 last : Node,
      AST_Seq.from_array alloc L = some s ∧ L.getLast? = some last ∧
      s.to_array = some L ∧
      s.add alloc2 x = some (s2, AST_Seq.cons alloc2 last (some x)) ∧
      Node.cdrAt (L.length - 1) s = some last ∧
      Node.cdrAt (L.length - 1) s2 = some (AST_Seq.cons alloc2 last (some x)) ∧
      (∀ i, i < L.length - 1 →
        (Node.cdrAt i s2).map Node.isSeq = some true ∧
        (Node.cdrAt i s2).bind Node.car? = L[i]? ∧
        (Node.cdrAt i s2).map Node.addr = (Node.cdrAt i s).map Node.addr) ∧
      s2.to_array = some (L ++ [x]) := by
  match L, h2 with
  | e1 :: e2 :: rest, _ =>
    have hne : e2 :: rest ≠ [] := List.cons_ne_nil _ _
    have hl : ((e2 :: rest).getLast hne).isSeq = false :=
      hlast _ (by simp [List.getLast?_cons_cons, List.getLast?_eq_getLast])
    have hlen : ((e2 :: rest).dropLast ++
        [AST_Seq.cons alloc2 ((e2 :: rest).getLast hne) (some x)]).length =
        (e2 :: rest).length := by simp
    have hne2 : (e2 :: rest).dropLast ++
        [AST_Seq.cons alloc2 ((e2 :: rest).getLast hne) (some x)] ≠ [] := by simp
    obtain ⟨hc, hlst⟩ := chain_cdrAt alloc (e2 :: rest) e1
    obtain ⟨hc2, hlst2⟩ := chain_cdrAt alloc ((e2 :: rest).dropLast ++
      [AST_Seq.cons alloc2 ((e2 :: rest).getLast hne) (some x)]) e1
    rw [hlen] at hc2 hlst2
    refine ⟨AST_Seq.chain alloc e1 (e2 :: rest),
      AST_Seq.chain alloc e1 ((e2 :: rest).dropLast ++
        [AST_Seq.cons alloc2 ((e2 :: rest).getLast hne) (some x)]),
      (e2 :: rest).getLast hne, from_array_eq_chain alloc e1 e2 rest, ?_, ?_,
      add_chain alloc alloc2 x rest e1 e2 hl, ?_, ?_, ?_, ?_⟩
    · simp [List.getLast?_cons_cons, List.getLast?_eq_getLast]
    · have h := seq_chain_to_array alloc e1 (e2 :: rest) hne hl
      exact h
    · rw [show (e1 :: e2 :: rest).length - 1 = (e2 :: rest).length from rfl, hlst]
      simp [List.getLast?_cons_cons, List.getLast?_eq_getLast]
    · rw [show (e1 :: e2 :: rest).length - 1 = (e2 :: rest).length from rfl, hlst2]
      simp [List.getLast?_eq_getLast]
    · intro i hi
      have hi2 : i < (e2 :: rest).length := hi
      obtain ⟨a1, a2, a3⟩ := hc i hi2
      obtain ⟨b1, b2, b3⟩ := hc2 i hi2
      refine ⟨b1, ?_, by rw [a3, b3]⟩
      rw [b2]
      cases i with
      | zero => rw [List.getElem?_cons_zero, List.getElem?_cons_zero]
      | succ j =>
        have hj : j < (e2 :: rest).dropLast.length := by
          rw [List.length_dropLast]
          simp only [List.length_cons] at hi2 ⊢
          omega
        rw [List.getElem?_cons_succ, List.getElem?_cons_succ, List.getElem?_append_left hj,
          List.getElem?_dropLast, if_pos (by simpa using hj)]
    · rw [Node.to_array, show (AST_Seq.chain alloc e1 ((e2 :: rest).dropLast ++
          [AST_Seq.cons alloc2 ((e2 :: rest).getLast hne) (some x)])).isSeq = true from by
        cases hd : (e2 :: rest).dropLast ++
          [AST_Seq.cons alloc2 ((e2 :: rest).getLast hne) (some x)] with
        | nil => exact absurd hd hne2
        | cons d ds => rfl, if_pos rfl, to_array_chain_ne_nil alloc e1 _ hne2]
      simp only [List.getLast_append_singleton, AST_Seq.cons, Node.isSeq, if_true]
      rw [loop_pair _ _ x hx, List.dropLast_cons_of_ne_nil (by simp), List.dropLast_concat,
        List.cons_append, List.cons_append,
        show [(e2 :: rest).getLast hne, x] = [(e2 :: rest).getLast hne] ++ [x] from rfl,
        ← List.append_assoc, List.dropLast_append_getLast]

/-- Witness for `add_appends`: appending `c` to the chain built from `a, b`. -/
theorem add_appends_witness :
    2 ≤ Sample.two.length ∧ (Sample.sym 3 "c").isSeq = false ∧
    ∃ s s2 last : Node,
      AST_Seq.from_array 100 Sample.two = some s ∧ Sample.two.getLast? = some last ∧
      s.to_array = some Sample.two ∧
      s.add 200 (Sample.sym 3 "c") =
        some (s2, AST_Seq.cons 200 last (some (Sample.sym 3 "c"))) ∧
      Node.cdrAt (Sample.two.length - 1) s = some last ∧
      Node.cdrAt (Sample.two.length - 1) s2 =
        some (AST_Seq.cons 200 last (some (Sample.sym 3 "c"))) ∧
      (∀ i, i < Sample.two.length - 1 →
        (Node.cdrAt i s2).map Node.isSeq = some true ∧
        (Node.cdrAt i s2).bind Node.car? = Sample.two[i]? ∧
        (Node.cdrAt i s2).map Node.addr = (Node.cdrAt i s).map Node.addr) ∧
      s2.to_array = some (Sample.two ++ [Sample.sym 3 "c"]) :=
  ⟨by decide, rfl,
    add_appends 100 200 Sample.two (Sample.sym 3 "c") (by decide)
      (fun y hy => by cases Option.some.inj hy; rfl) rfl⟩

/-! ### DEFNODE -/

theorem DEFNODE_some {reg : Registry} {type : String} {props : Option String}
    {methods : Option Table} {base : BaseArg} {reg1 : Registry} {k : Nat}
    (h : DEFNODE reg type props methods base = some (reg1, k)) :
    k = reg.ctors.length ∧ reg1.vars = reg.vars ∧
    (∀ b, reg.resolve base = some b → b < reg.ctors.length) ∧
    reg1.subclasses =
      (match reg.resolve base with
        | some b => reg.subclasses.set b (reg.SUBCLASSES b ++ [k])
        | none => reg.subclasses) ++ [[]] ∧
    DEFNODE.covered (methods.getD []) = true ∧
    ∃ C, reg1.ctors = reg.ctors ++ [C] ∧ C.SELF_PROPS = DEFNODE.fields props ∧
      C.BASE = reg.resolve base ∧
      C.PROPS = DEFNODE.fields props ++
        (match (reg.resolve base).bind (fun b => reg.ctors[b]?) with
          | some B => B.PROPS
          | none => []) ∧
      C.TYPE = (if type = "" then none else some type) ∧
      C.proto = DEFNODE.prototype k type ((DEFNODE.copied (methods.getD [])).getD []) ∧
      C.callsInitialize =
        ((match reg.resolve base with
          | some b => (reg.protoGet b "initialize").truthy
          | none => false) ||
        (match methods with
          | some m => ((m.lookup "initialize").getD (.prim .undefined)).truthy
          | none => false)) := by
  unfold DEFNODE at h
  cases hb : reg.resolve base with
  | none =>
    simp only [hb] at h
    split at h
    · exact absurd h (by simp)
    · split at h
      · exact absurd h (by simp)
      · cases hcp : DEFNODE.copied (methods.getD []) with
        | none => simp [hcp] at h
        | some entries =>
          simp only [hcp, Option.some.injEq, Prod.mk.injEq] at h
          obtain ⟨h1, h2⟩ := h
          subst h1 h2
          refine ⟨rfl, rfl, by simp, rfl,
            by simpa using ‹¬(!DEFNODE.covered (methods.getD [])) = true›,
            _, rfl, rfl, rfl, ?_, rfl, rfl, ?_⟩
          · simp
          · simp
  | some b =>
    simp only [hb] at h
    cases hB : reg.ctors[b]? with
    | none => simp [hB] at h
    | some B =>
      simp only [hB, Option.map_some'] at h
      split at h
      · exact absurd h (by simp)
      · split at h
        · exact absurd h (by simp)
        · cases hcp : DEFNODE.copied (methods.getD []) with
          | none => simp [hcp] at h
          | some entries =>
            simp only [hcp, Option.some.injEq, Prod.mk.injEq] at h
            obtain ⟨h1, h2⟩ := h
            subst h1 h2
            have hlt : b < reg.ctors.length := by
              rcases Nat.lt_or_ge b reg.ctors.length with hlt | hge
              · exact hlt
              · rw [List.getElem?_eq_none hge] at hB
                exact absurd hB (by simp)
            refine ⟨rfl, rfl, ?_, rfl,
              by simpa using ‹¬(!DEFNODE.covered (methods.getD [])) = true›,
              _, rfl, rfl, rfl, ?_, rfl, rfl, ?_⟩
            · intro b2 hb2
              cases hb2
              exact hlt
            · simp [hB]
            · simp

theorem lookup_none_of_not_mem (key : String) (t : Table)
    (h : key ∉ t.map Prod.fst) : t.lookup key = none := by
  induction t with
  | nil => rfl
  | cons e es ih =>
    obtain ⟨a, v⟩ := e
    simp only [List.map_cons, List.mem_cons, not_or] at h
    rw [List.lookup_cons]
    have hne : (key == a) = false := by simpa using h.1
    rw [hne]
    exact ih h.2

theorem prototype_foldl_lookup (key : String) (hkey : DEFNODE.isStatic key = false)
    (methods : Table) :
    ∀ t : Table, (methods.map Prod.fst).Nodup →
      (methods.foldl (fun t e => if DEFNODE.isStatic e.1 then t else (e.1, e.2) :: t)
        t).lookup key =
      (match methods.lookup key with
        | some v => some v
        | none => t.lookup key) := by
  induction methods with
  | nil => intro t _; rfl
  | cons e es ih =>
    intro t hnd
    obtain ⟨a, v⟩ := e
    simp only [List.map_cons, List.nodup_cons] at hnd
    rw [List.foldl_cons, ih _ hnd.2, List.lookup_cons]
    by_cases hka : key = a
    · subst hka
      rw [lookup_none_of_not_mem key es hnd.1]
      simp [hkey, List.lookup_cons]
    · have hne : (key == a) = false := by simpa using hka
      rw [hne]
      cases es.lookup key with
      | some w => rfl
      | none =>
        simp only
        split
        · rfl
        · rw [List.lookup_cons, hne]

theorem prototype_lookup_initialize (k : Nat) (type : String) (methods : Table)
    (hnd : (methods.map Prod.fst).Nodup) :
    (DEFNODE.prototype k type methods).lookup "initialize" = methods.lookup "initialize" := by
  rw [DEFNODE.prototype, prototype_foldl_lookup "initialize" (by decide) methods _ hnd]
  cases methods.lookup "initialize" with
  | some v => rfl
  | none =>
    simp only
    by_cases ht : type = ""
    · simp [ht, List.lookup_cons]
    · simp [ht, List.lookup_cons]

theorem lookup_filter_some (p : String × Value → Bool) (m : Table)
    (hnd : (m.map Prod.fst).Nodup) (key : String) (v : Value)
    (h : (m.filter p).lookup key = some v) : m.lookup key = some v := by
  induction m with
  | nil => simp at h
  | cons e rest ih =>
    obtain ⟨a, u⟩ := e
    simp only [List.map_cons, List.nodup_cons] at hnd
    rw [List.filter_cons] at h
    by_cases hp : p (a, u) = true
    · rw [if_pos hp, List.lookup_cons] at h
      rw [List.lookup_cons]
      cases hka : key == a with
      | true => rw [hka] at h; exact h
      | false => rw [hka] at h; exact ih hnd.2 h
    · rw [if_neg hp] at h
      have hr := ih hnd.2 h
      have hne : (key == a) = false := by
        cases hka : key == a with
        | false => rfl
        | true =>
          have hk : key = a := by simpa using hka
          subst hk
          rw [lookup_none_of_not_mem key rest hnd.1] at hr
          cases hr
      rw [List.lookup_cons, hne]
      exact hr

theorem copied_sublist (m : Table) : ((DEFNODE.copied m).getD []).Sublist m := by
  unfold DEFNODE.copied
  split
  · exact List.filter_sublist m
  · exact List.nil_sublist m

theorem copied_lookup (m : Table) (hnd : (m.map Prod.fst).Nodup) (key : String) (v : Value)
    (h : ((DEFNODE.copied m).getD []).lookup key = some v) : m.lookup key = some v := by
  unfold DEFNODE.copied at h
  split at h
  · exact lookup_filter_some _ m hnd key v h
  · simp at h

theorem lookup_fuel (reg : Registry)
    (hlt : ∀ (k : Nat) (C : Ctor) (b : Nat), reg.ctors[k]? = some C → C.BASE = some b → b < k)
    (key : String) :
    ∀ fuel k, k < fuel → reg.lookup key fuel k = reg.lookup key (k + 1) k := by
  intro fuel
  induction fuel using Nat.strong_induction_on with
  | _ fuel ih =>
    intro k hk
    cases fuel with
    | zero => exact absurd hk (by omega)
    | succ f =>
      rw [Registry.lookup, Registry.lookup]
      cases hC : reg.ctors[k]? with
      | none => rfl
      | some C =>
        simp only
        cases C.proto.lookup key with
        | some v => rfl
        | none =>
          simp only
          cases hb : C.BASE with
          | none => rfl
          | some b =>
            simp only
            have hbk := hlt k C b hC hb
            rw [ih f (by omega) b (by omega), ih k (by omega) b hbk]

theorem protoGet_unfold (reg : Registry)
    (hlt : ∀ (k : Nat) (C : Ctor) (b : Nat), reg.ctors[k]? = some C → C.BASE = some b → b < k)
    (key : String) (k : Nat) :
    reg.protoGet k key =
      match reg.ctors[k]? with
      | none => .prim .undefined
      | some c =>
        match c.proto.lookup key with
        | some v => v
        | none =>
          match c.BASE with
          | some b => reg.protoGet b key
          | none => if key = "constructor" then .ctor k else ObjectPrototype.get key := by
  rw [Registry.protoGet, Registry.lookup]
  cases hC : reg.ctors[k]? with
  | none => rfl
  | some C =>
    simp only
    cases C.proto.lookup key with
    | some v => rfl
    | none =>
      simp only
      cases hb : C.BASE with
      | none => rfl
      | some b =>
        simp only
        rw [Registry.protoGet, lookup_fuel reg hlt key k b (hlt k C b hC hb)]

theorem lookup_append (reg reg1 : Registry) (C : Ctor)
    (hlt : ∀ (k : Nat) (C : Ctor) (b : Nat), reg.ctors[k]? = some C → C.BASE = some b → b < k)
    (h1 : reg1.ctors = reg.ctors ++ [C]) (key : String) :
    ∀ fuel k, k < reg.ctors.length → reg1.lookup key fuel k = reg.lookup key fuel k := by
  intro fuel
  induction fuel with
  | zero => intro k _; rfl
  | succ f ih =>
    intro k hk
    rw [Registry.lookup, Registry.lookup, h1, List.getElem?_append_left hk]
    cases hC : reg.ctors[k]? with
    | none => rfl
    | some D =>
      simp only
      cases D.proto.lookup key with
      | some v => rfl
      | none =>
        simp only
        cases hb : D.BASE with
        | none => rfl
        | some b =>
          simp only
          exact ih b (by have := hlt k D b hC hb; omega)

theorem protoGet_append (reg reg1 : Registry) (C : Ctor)
    (hlt : ∀ (k : Nat) (C : Ctor) (b : Nat), reg.ctors[k]? = some C → C.BASE = some b → b < k)
    (h1 : reg1.ctors = reg.ctors ++ [C]) (key : String) (k : Nat)
    (hk : k < reg.ctors.length) : reg1.protoGet k key = reg.protoGet k key :=
  lookup_append reg reg1 C hlt h1 key (k + 1) k hk

theorem SUBCLASSES_DEFNODE {reg : Registry} {type : String} {props : Option String}
    {methods : Option Table} {base : BaseArg} {reg1 : Registry} {k : Nat}
    (hlen : reg.subclasses.length = reg.ctors.length)
    (h : DEFNODE reg type props methods base = some (reg1, k)) (b : Nat) :
    reg1.SUBCLASSES b =
      if reg.resolve base = some b then reg.SUBCLASSES b ++ [k] else reg.SUBCLASSES b := by
  obtain ⟨hk, _, hres, hsub, _, _⟩ := DEFNODE_some h
  simp only [Registry.SUBCLASSES, List.getD_eq_getElem?_getD, hsub]
  cases hb : reg.resolve base with
  | none =>
    simp only [reduceCtorEq, if_false]
    rcases Nat.lt_trichotomy b reg.subclasses.length with hlt | heq | hgt
    · rw [List.getElem?_append_left hlt]
    · subst heq
      simp
    · rw [List.getElem?_eq_none (by simp; omega), List.getElem?_eq_none (by omega)]
  | some b0 =>
    have hb0 := hres b0 hb
    simp only [Option.some.injEq]
    rcases Nat.lt_trichotomy b reg.subclasses.length with hlt | heq | hgt
    · rw [List.getElem?_append_left (by simpa using hlt)]
      by_cases hbb : b0 = b
      · subst hbb
        simp [hlt]
      · simp [hbb, List.getElem?_set_ne hbb]
    · subst heq
      have hne : b0 ≠ reg.subclasses.length := by omega
      simp [hne]
    · have hne : b0 ≠ b := by omega
      rw [List.getElem?_eq_none (by simp; omega), List.getElem?_eq_none (by omega)]
      simp [hne]

theorem Inv_empty : Registry.empty.Inv where
  sub_len := rfl
  vars_lt := by intro x k h; simp [Registry.empty] at h
  base_lt := by intro k C b h; simp [Registry.empty] at h
  props_base := by intro k C b h; simp [Registry.empty] at h
  props_root := by intro k C h; simp [Registry.empty] at h
  sub_mem := by intro k C b h; simp [Registry.empty] at h
  sub_base := by intro b k h; simp [Registry.empty, Registry.SUBCLASSES] at h
  hook := by intro k C h; simp [Registry.empty] at h

theorem getElem?_append_singleton_eq {α : Type} (l : List α) (x y : α) (k : Nat)
    (h : (l ++ [x])[k]? = some y) : (k < l.length ∧ l[k]? = some y) ∨ (k = l.length ∧ y = x) := by
  rcases Nat.lt_trichotomy k l.length with hlt | heq | hgt
  · rw [List.getElem?_append_left hlt] at h
    exact Or.inl ⟨hlt, h⟩
  · subst heq
    simp at h
    exact Or.inr ⟨rfl, h.symm⟩
  · rw [List.getElem?_eq_none (by simp; omega)] at h
    exact absurd h (by simp)

theorem Inv_DEFNODE {reg : Registry} {type : String} {props : Option String}
    {methods : Option Table} {base : BaseArg} {reg1 : Registry} {k : Nat}
    (hinv : reg.Inv) (h : DEFNODE reg type props methods base = some (reg1, k)) :
    reg1.Inv := by
  have hsubs := SUBCLASSES_DEFNODE hinv.sub_len h
  obtain ⟨hk, hvars, hres, hsub, hcov, C, hctors, hself, hbase, hprops, htype, hproto, hhook⟩ :=
    DEFNODE_some h
  have hold : ∀ j, j < reg.ctors.length → reg1.ctors[j]? = reg.ctors[j]? := by
    intro j hj
    rw [hctors, List.getElem?_append_left hj]
  have hnew : reg1.ctors[k]? = some C := by
    rw [hctors, hk]
    simp
  have hbase_lt : ∀ (j : Nat) (D : Ctor) (b : Nat), reg1.ctors[j]? = some D →
      D.BASE = some b → b < j := by
    intro j D b hD hb
    rw [hctors] at hD
    rcases getElem?_append_singleton_eq _ _ _ _ hD with ⟨_, hD⟩ | ⟨hj, hD⟩
    · exact hinv.base_lt j D b hD hb
    · subst hD
      rw [hbase] at hb
      rw [hj]
      exact hres b hb
  refine ⟨?_, ?_, hbase_lt, ?_, ?_, ?_, ?_, ?_⟩
  · rw [hsub, hctors]
    cases reg.resolve base <;> simp [hinv.sub_len]
  · intro x j hx
    rw [hvars] at hx
    have := hinv.vars_lt x j hx
    rw [hctors]
    simp
    omega
  · intro j D b hD hb
    rw [hctors] at hD
    rcases getElem?_append_singleton_eq _ _ _ _ hD with ⟨hj, hD⟩ | ⟨hj, hD⟩
    · obtain ⟨B, hB, hP⟩ := hinv.props_base j D b hD hb
      have hbj := hinv.base_lt j D b hD hb
      exact ⟨B, by rw [hold b (by omega)]; exact hB, hP⟩
    · subst hD
      rw [hbase] at hb
      have hb2 := hres b hb
      obtain ⟨B, hB⟩ : ∃ B, reg.ctors[b]? = some B :=
        ⟨reg.ctors[b], List.getElem?_eq_getElem hb2⟩
      refine ⟨B, by rw [hold b hb2]; exact hB, ?_⟩
      rw [hprops, hself, hb]
      simp [hB]
  · intro j D hD hb
    rw [hctors] at hD
    rcases getElem?_append_singleton_eq _ _ _ _ hD with ⟨hj, hD⟩ | ⟨hj, hD⟩
    · exact hinv.props_root j D hD hb
    · subst hD
      rw [hbase] at hb
      rw [hprops, hself, hb]
      simp
  · intro j D b hD hb
    rw [hctors] at hD
    rw [hsubs b]
    rcases getElem?_append_singleton_eq _ _ _ _ hD with ⟨hj, hD⟩ | ⟨hj, hD⟩
    · have := hinv.sub_mem j D b hD hb
      split
      · exact List.mem_append_left _ this
      · exact this
    · subst hD
      rw [hbase] at hb
      rw [if_pos hb, hj, hk]
      simp
  · intro b j hj
    rw [hsubs b] at hj
    have hcase : j ∈ reg.SUBCLASSES b ∨ (j = k ∧ reg.resolve base = some b) := by
      split at hj
      · rcases List.mem_append.1 hj with hj | hj
        · exact Or.inl hj
        · exact Or.inr ⟨by simpa using hj, ‹_›⟩
      · exact Or.inl hj
    rcases hcase with hj | ⟨hj, hb⟩
    · obtain ⟨D, hD, hDb⟩ := hinv.sub_base b j hj
      have hjl : j < reg.ctors.length := by
        rcases Nat.lt_or_ge j reg.ctors.length with hlt | hge
        · exact hlt
        · rw [List.getElem?_eq_none hge] at hD
          exact absurd hD (by simp)
      exact ⟨D, by rw [hold j hjl]; exact hD, hDb⟩
    · subst hj
      exact ⟨C, hnew, by rw [hbase, hb]⟩
  · intro j D hD htr
    rw [hctors] at hD
    rcases getElem?_append_singleton_eq _ _ _ _ hD with ⟨hj, hD⟩ | ⟨hj, hD⟩
    · rw [protoGet_append reg reg1 C hinv.base_lt hctors _ j hj] at htr
      exact hinv.hook j D hD htr
    · subst hD
      have hjk : j = k := by rw [hj, hk]
      subst hjk
      rw [protoGet_unfold reg1 hbase_lt, hnew] at htr
      simp only at htr
      have hnd : ((methods.getD []).map Prod.fst).Nodup := by
        simp only [DEFNODE.covered, Bool.and_eq_true, decide_eq_true_eq] at hcov
        exact hcov.1.2
      have hnd2 : (((DEFNODE.copied (methods.getD [])).getD []).map Prod.fst).Nodup :=
        hnd.sublist ((copied_sublist _).map Prod.fst)
      rw [hproto, prototype_lookup_initialize _ _ _ hnd2] at htr
      rw [hhook]
      cases hm2 : ((DEFNODE.copied (methods.getD [])).getD []).lookup "initialize" with
      | some v =>
        rw [hm2] at htr
        have hm := copied_lookup _ hnd "initialize" v hm2
        simp only at htr
        cases methods with
        | none => simp at hm
        | some m =>
          simp only [Option.getD_some] at hm
          simp [hm, htr]
      | none =>
        rw [hm2] at htr
        simp only at htr
        rw [hbase] at htr
        cases hb : reg.resolve base with
        | none =>
          rw [hb] at htr
          simp [ObjectPrototype.get, ObjectPrototype.names, Value.truthy, JSValue.truthy]
            at htr
        | some b =>
          rw [hb] at htr
          simp only at htr
          rw [protoGet_append reg reg1 D hinv.base_lt hctors _ b (hres b hb)] at htr
          simp [htr]

theorem lookup_congr (reg reg1 : Registry) (h : reg1.ctors = reg.ctors) (key : String) :
    ∀ fuel k, reg1.lookup key fuel k = reg.lookup key fuel k := by
  intro fuel
  induction fuel with
  | zero => intro k; rfl
  | succ f ih =>
    intro k
    rw [Registry.lookup, Registry.lookup, h]
    cases reg.ctors[k]? with
    | none => rfl
    | some D =>
      simp only
      cases D.proto.lookup key with
      | some v => rfl
      | none =>
        simp only
        cases D.BASE with
        | none => rfl
        | some b => exact ih b

theorem Inv_vars {reg : Registry} (hinv : reg.Inv) (x : String) (k : Nat)
    (hk : k < reg.ctors.length) : ({ reg with vars := (x, k) :: reg.vars } : Registry).Inv where
  sub_len := hinv.sub_len
  vars_lt := by
    intro y j hy
    simp only [List.lookup_cons] at hy
    split at hy
    · cases hy
      exact hk
    · exact hinv.vars_lt y j hy
  base_lt := hinv.base_lt
  props_base := hinv.props_base
  props_root := hinv.props_root
  sub_mem := hinv.sub_mem
  sub_base := hinv.sub_base
  hook := by
    intro j D hD htr
    refine hinv.hook j D hD ?_
    rw [← htr, Registry.protoGet, Registry.protoGet]
    exact congrArg Value.truthy
      (lookup_congr reg { reg with vars := (x, k) :: reg.vars } rfl _ _ _).symm

theorem define_some {reg reg1 : Registry} {d : Definition} (h : reg.define d = some reg1) :
    ∃ r k, DEFNODE reg d.type d.props d.methods d.base = some (r, k) ∧
      reg1 = { r with vars := (d.name, k) :: r.vars } := by
  unfold Registry.define at h
  split at h
  · exact absurd h (by simp)
  · rename_i r k hd
    exact ⟨r, k, hd, (Option.some.inj h).symm⟩

theorem Inv_define {reg reg1 : Registry} {d : Definition} (hinv : reg.Inv)
    (h : reg.define d = some reg1) : reg1.Inv := by
  obtain ⟨r, k, hd, rfl⟩ := define_some h
  have hr := Inv_DEFNODE hinv hd
  obtain ⟨hk, _, _, _, _, C, hctors, _⟩ := DEFNODE_some hd
  exact Inv_vars hr _ _ (by rw [hctors, hk]; simp)

theorem run_spec (calls : List Definition) :
    ∀ reg0 reg : Registry, reg0.Inv → Registry.run calls reg0 = some reg →
      reg.Inv ∧ reg.ctors.length = reg0.ctors.length + calls.length ∧
      (∀ j, j < reg0.ctors.length → reg.ctors[j]? = reg0.ctors[j]?) ∧
      ∀ (i : Nat) (d : Definition), calls[i]? = some d →
        ∃ (r : Registry) (C : Ctor), Registry.run (calls.take i) reg0 = some r ∧
          reg.ctors[reg0.ctors.length + i]? = some C ∧
          C.SELF_PROPS = DEFNODE.fields d.props ∧ C.BASE = r.resolve d.base ∧
          C.TYPE = (if d.type = "" then none else some d.type) := by
  induction calls with
  | nil =>
    intro reg0 reg hinv h
    cases h
    exact ⟨hinv, rfl, fun _ _ => rfl, fun i d hd => absurd hd (by simp)⟩
  | cons d0 ds ih =>
    intro reg0 reg hinv h
    rw [Registry.run] at h
    cases hdef : reg0.define d0 with
    | none => rw [hdef] at h; exact absurd h (by simp)
    | some reg1 =>
      rw [hdef] at h
      simp only at h
      have hinv1 := Inv_define hinv hdef
      obtain ⟨r0, k0, hd0, hreg1⟩ := define_some hdef
      obtain ⟨hk0, _, _, _, _, C0, hctors0, hself0, hbase0, _, htype0, _⟩ := DEFNODE_some hd0
      have hc1 : reg1.ctors = reg0.ctors ++ [C0] := by rw [hreg1]; exact hctors0
      obtain ⟨hinvr, hlen, hpres, hrest⟩ := ih reg1 reg hinv1 h
      have hlen1 : reg1.ctors.length = reg0.ctors.length + 1 := by rw [hc1]; simp
      refine ⟨hinvr, by rw [hlen, hlen1]; simp; omega, ?_, ?_⟩
      · intro j hj
        rw [hpres j (by omega), hc1, List.getElem?_append_left hj]
      · intro i d hd
        cases i with
        | zero =>
          simp only [List.getElem?_cons_zero, Option.some.injEq] at hd
          subst hd
          refine ⟨reg0, C0, rfl, ?_, hself0, hbase0, htype0⟩
          rw [Nat.add_zero, hpres _ (by omega), hc1]
          simp
        | succ i =>
          rw [List.getElem?_cons_succ] at hd
          obtain ⟨r, C, hr, hC, hs, hb, ht⟩ := hrest i d hd
          refine ⟨r, C, ?_, ?_, hs, hb, ht⟩
          · rw [List.take_succ_cons, Registry.run, hdef]
            exact hr
          · rw [← hC, hlen1]
            congr 1
            omega

theorem fieldsUp_eq (reg : Registry) (hinv : reg.Inv) :
    ∀ (k : Nat) (C : Ctor), reg.ctors[k]? = some C → C.PROPS = reg.fieldsUp (k + 1) k := by
  intro k
  induction k using Nat.strong_induction_on with
  | _ k ih =>
    intro C hC
    rw [Registry.fieldsUp, hC]
    simp only
    cases hb : C.BASE with
    | none => simp [hinv.props_root k C hC hb]
    | some b =>
      simp only
      obtain ⟨B, hB, hP⟩ := hinv.props_base k C b hC hb
      have hbk := hinv.base_lt k C b hC hb
      rw [hP, ih b hbk B hB]
      congr 1
      -- fuel: `k` links are as good as `b + 1`
      have hfuel : ∀ fuel j, j < fuel → reg.fieldsUp fuel j = reg.fieldsUp (j + 1) j := by
        intro fuel
        induction fuel using Nat.strong_induction_on with
        | _ fuel ihf =>
          intro j hj
          cases fuel with
          | zero => exact absurd hj (by omega)
          | succ f =>
            rw [Registry.fieldsUp, Registry.fieldsUp]
            cases hD : reg.ctors[j]? with
            | none => rfl
            | some D =>
              simp only
              cases hdb : D.BASE with
              | none => rfl
              | some b2 =>
                simp only
                have := hinv.base_lt j D b2 hD hdb
                rw [ihf f (by omega) b2 (by omega), ihf j (by omega) b2 this]
      exact (hfuel k b hbk).symm

theorem own_foldl (p : String → Value) (l : List String) :
    ∀ t : Table, l.foldl (fun t f => (f, p f) :: t) t =
      (l.map fun f => (f, p f)).reverse ++ t := by
  induction l with
  | nil => intro t; rfl
  | cons a l ih =>
    intro t
    rw [List.foldl_cons, ih, List.map_cons, List.reverse_cons, List.append_assoc]
    rfl

theorem own_eq (p : String → Value) (l : List String) :
    l.reverse.foldl (fun t f => (f, p f) :: t) [] = l.map fun f => (f, p f) := by
  rw [own_foldl, List.append_nil, List.map_reverse, List.reverse_reverse]

theorem own_lookup (p : String → Value) (l : List String) (f : String) :
    (l.map fun f => (f, p f)).lookup f = if f ∈ l then some (p f) else none := by
  induction l with
  | nil => rfl
  | cons a l ih =>
    rw [List.map_cons, List.lookup_cons]
    by_cases hfa : f = a
    · subst hfa
      simp
    · have hne : (f == a) = false := by simpa using hfa
      rw [hne, ih]
      simp [hfa]

theorem construct_some {reg : Registry} {k : Nat} {C : Ctor} (hC : reg.ctors[k]? = some C)
    {p : String → Value} {r : Constructed} (h : construct reg k (some p) = some r) :
    r.inst = ⟨k, C.PROPS.map fun f => (f, p f)⟩ ∧
    (r.trace = (C.PROPS.reverse.map fun f => Event.set f (p f)) ∨
      r.trace = (C.PROPS.reverse.map fun f => Event.set f (p f)) ++
        [Event.call (r.inst.get reg "initialize")]) := by
  unfold construct at h
  rw [hC] at h
  simp only [own_eq] at h
  split at h
  · split at h
    · cases h
      exact ⟨rfl, Or.inr rfl⟩
    · exact absurd h (by simp)
  · cases h
    exact ⟨rfl, Or.inl rfl⟩

theorem run_Inv {calls : List Definition} {reg : Registry}
    (hrun : Registry.run calls Registry.empty = some reg) : reg.Inv :=
  (run_spec calls Registry.empty reg Inv_empty hrun).1

theorem AST_run : Registry.run AST.program Registry.empty = some AST.reg := by
  have h : AST.registry.isSome = true := by decide
  show AST.registry = some (AST.registry.getD Registry.empty)
  cases hr : AST.registry with
  | none => rw [hr] at h; cases h
  | some r => rfl

theorem hooked_run : Registry.run Sample.hooked Registry.empty = some Sample.hookedReg := by
  have h : (Registry.run Sample.hooked Registry.empty).isSome = true := by decide
  show _ = some ((Registry.run Sample.hooked Registry.empty).getD Registry.empty)
  cases hr : Registry.run Sample.hooked Registry.empty with
  | none => rw [hr] at h; cases h
  | some r => rfl

/-- No kind of the source file has a constructor that calls `initialize`, and no field of
a kind is the name of a member of its prototype chain. -/
theorem AST_kinds_plain :
    AST.reg.ctors.all (fun C => !C.callsInitialize) = true ∧
    (List.range AST.reg.ctors.length).all (fun k =>
      ((AST.reg.ctors[k]?).map Ctor.PROPS).getD [] |>.all fun f =>
        AST.reg.protoGet k f == .prim .undefined) = true := by
  constructor <;> decide

/-- Claim C17. For every kind made by `DEFNODE`: `new K()` writes no property, so every
field of the full field list is absent from the object (and reads `undefined` unless the
prototype chain has a member of that name); `new K(p)` leaves an object whose own
properties are the fields of the full field list, each with the value `p.f`
(`undefined` when `p` lacks `f`), among them every field of the base kind; the call
returns when the kind has no `initialize` hook. -/
theorem construct_copies_fields (calls : List Definition) (reg : Registry)
    (hrun : Registry.run calls Registry.empty = some reg) (k : Nat) (C : Ctor)
    (hC : reg.ctors[k]? = some C) :
    construct reg k none = some ⟨⟨k, []⟩, []⟩ ∧
    (∀ f, reg.protoGet k f = .prim .undefined →
      (Instance.mk k []).get reg f = .prim .undefined) ∧
    (∀ (p : String → Value) (r : Constructed), construct reg k (some p) = some r →
      r.inst.CTOR = k ∧ r.inst.own.map Prod.fst = C.PROPS ∧
      ∀ f ∈ C.PROPS, r.inst.own.lookup f = some (p f) ∧ r.inst.get reg f = p f) ∧
    (∀ p : String → Value, C.callsInitialize = false →
      (construct reg k (some p)).isSome = true) ∧
    (∀ (b : Nat) (B : Ctor), C.BASE = some b → reg.ctors[b]? = some B →
      ∀ (p : String → Value) (r : Constructed), construct reg k (some p) = some r →
        ∀ f ∈ B.PROPS, r.inst.get reg f = p f) := by
  have hinv := run_Inv hrun
  have hcopy : ∀ (p : String → Value) (r : Constructed), construct reg k (some p) = some r →
      r.inst.CTOR = k ∧ r.inst.own.map Prod.fst = C.PROPS ∧
      ∀ f ∈ C.PROPS, r.inst.own.lookup f = some (p f) ∧ r.inst.get reg f = p f := by
    intro p r hr
    obtain ⟨hinst, _⟩ := construct_some hC hr
    rw [hinst]
    refine ⟨rfl, by simp [Function.comp_def], ?_⟩
    intro f hf
    have hl : (C.PROPS.map fun f => (f, p f)).lookup f = some (p f) := by
      rw [own_lookup, if_pos hf]
    exact ⟨hl, by simp only [Instance.get, hl]⟩
  refine ⟨?_, ?_, hcopy, ?_, ?_⟩
  · simp only [construct, hC]
  · intro f hf
    simp only [Instance.get, List.lookup_nil, hf]
  · intro p hh
    simp only [construct, hC, hh, Bool.false_eq_true, if_false, Option.isSome_some]
  · intro b B hb hB p r hr f hf
    obtain ⟨B2, hB2, hP⟩ := hinv.props_base k C b hC hb
    rw [hB] at hB2
    cases hB2
    exact ((hcopy p r hr).2.2 f (by rw [hP]; exact List.mem_append_right _ hf)).2

/-- Claim C18. After any sequence of `var name = DEFNODE(type, props, methods, base)`
statements, the `k`-th kind has `SELF_PROPS` equal to the names of its `props` string,
`BASE` equal to the value of its `base` argument at the call (the variable `AST_Node`
when the argument is left out), and, when it has a base `B`,
`PROPS = SELF_PROPS ++ B.PROPS`, which is its own fields followed by those of every
ancestor up the base chain, and it is an element of `B.SUBCLASSES`. -/
theorem DEFNODE_static_fields (calls : List Definition) (reg : Registry)
    (hrun : Registry.run calls Registry.empty = some reg) :
    reg.ctors.length = calls.length ∧
    ∀ (k : Nat) (d : Definition), calls[k]? = some d →
      ∃ (r : Registry) (C : Ctor),
        Registry.run (calls.take k) Registry.empty = some r ∧ reg.ctors[k]? = some C ∧
        C.SELF_PROPS = DEFNODE.fields d.props ∧
        C.BASE = r.resolve d.base ∧
        (d.base = .omitted → C.BASE = r.vars.lookup "AST_Node") ∧
        C.PROPS = reg.fieldsUp (k + 1) k ∧
        (C.BASE = none → C.PROPS = C.SELF_PROPS) ∧
        ∀ b, C.BASE = some b →
          ∃ B : Ctor, reg.ctors[b]? = some B ∧ C.PROPS = C.SELF_PROPS ++ B.PROPS ∧
            k ∈ reg.SUBCLASSES b := by
  obtain ⟨hinv, hlen, _, hall⟩ := run_spec calls Registry.empty reg Inv_empty hrun
  refine ⟨by simpa [Registry.empty] using hlen, ?_⟩
  intro k d hd
  obtain ⟨r, C, hr, hC, hs, hb, _⟩ := hall k d hd
  have hC2 : reg.ctors[k]? = some C := by simpa [Registry.empty] using hC
  refine ⟨r, C, hr, hC2, hs, hb, ?_, fieldsUp_eq reg hinv k C hC2,
    hinv.props_root k C hC2, ?_⟩
  · intro ho
    rw [hb, ho]
    rfl
  · intro b hbb
    obtain ⟨B, hB, hP⟩ := hinv.props_base k C b hC2 hbb
    exact ⟨B, hB, hP, hinv.sub_mem k C b hC2 hbb⟩

/-- Witness for `construct_copies_fields`: `AST_Lambda` of the source file, called with an
argument that has `name`, `body` (a field of the base `AST_Scope`, from `AST_Block`) and
`start`. -/
theorem construct_copies_fields_witness :
    Registry.run AST.program Registry.empty = some AST.reg ∧
    AST.reg.ctors[10]? = some Sample.Lambda ∧
    construct AST.reg 10 none = some ⟨⟨10, []⟩, []⟩ ∧
    (construct AST.reg 10 (some Sample.lambdaProps)).map (fun r => r.inst.own) =
      some [("name", .obj 900), ("argnames", .prim .undefined),
        ("uses_arguments", .prim .undefined), ("directives", .prim .undefined),
        ("variables", .prim .undefined), ("functions", .prim .undefined),
        ("uses_with", .prim .undefined), ("uses_eval", .prim .undefined),
        ("parent_scope", .prim .undefined), ("enclosed", .prim .undefined),
        ("cname", .prim .undefined), ("body", .obj 901), ("start", .obj 902),
        ("end", .prim .undefined)] ∧
    (∀ (p : String → Value) (r : Constructed), construct AST.reg 10 (some p) = some r →
      r.inst.CTOR = 10 ∧ r.inst.own.map Prod.fst = Sample.Lambda.PROPS ∧
      ∀ f ∈ Sample.Lambda.PROPS,
        r.inst.own.lookup f = some (p f) ∧ r.inst.get AST.reg f = p f) :=
  ⟨AST_run, by decide,
    (construct_copies_fields AST.program AST.reg AST_run 10 Sample.Lambda (by decide)).1,
    by decide,
    (construct_copies_fields AST.program AST.reg AST_run 10 Sample.Lambda (by decide)).2.2.1⟩

set_option maxRecDepth 10000 in
/-- Witness for `DEFNODE_static_fields`: the definitions of the source file, where
`AST_Lambda` is kind 10 and its base `AST_Scope` is kind 8. -/
theorem DEFNODE_static_fields_witness :
    Registry.run AST.program Registry.empty = some AST.reg ∧
    AST.reg.ctors.length = AST.program.length ∧
    (AST.reg.ctors[10]?).map Ctor.TYPE = some (some "Lambda") ∧
    (AST.reg.ctors[10]?).map Ctor.PROPS =
      some ["name", "argnames", "uses_arguments", "directives", "variables", "functions",
        "uses_with", "uses_eval", "parent_scope", "enclosed", "cname", "body", "start",
        "end"] ∧
    (AST.reg.ctors[10]?).map Ctor.BASE = some (AST.reg.vars.lookup "AST_Scope") ∧
    (AST.reg.ctors[8]?).map Ctor.PROPS =
      some ["directives", "variables", "functions", "uses_with", "uses_eval",
        "parent_scope", "enclosed", "cname", "body", "start", "end"] ∧
    AST.reg.SUBCLASSES 8 = [9, 10] :=
  ⟨AST_run, (DEFNODE_static_fields AST.program AST.reg AST_run).1, by decide, by decide,
    by decide, by decide, by decide⟩

/-- Claim C19, as amended. For every kind `K` on whose prototype chain the nearest
`initialize` property, written there from the behaviour table of `K` or of an ancestor,
is a function, and none of whose fields is named `initialize`, `new K(p)` first copies
every field of the full field list from `p` and then calls that function on the object,
exactly once. -/
theorem construct_calls_initialize (calls : List Definition) (reg : Registry)
    (hrun : Registry.run calls Registry.empty = some reg) (k : Nat) (C : Ctor)
    (hC : reg.ctors[k]? = some C)
    (hdecl : (reg.protoGet k "initialize").callable = true)
    (hfield : "initialize" ∉ C.PROPS) (p : String → Value) :
    ∃ r : Constructed, construct reg k (some p) = some r ∧
      r.trace = (C.PROPS.reverse.map fun f => Event.set f (p f)) ++
        [Event.call (reg.protoGet k "initialize")] ∧
      r.trace.filter Event.isCall = [Event.call (reg.protoGet k "initialize")] ∧
      r.inst.own.map Prod.fst = C.PROPS ∧
      ∀ f ∈ C.PROPS, r.inst.own.lookup f = some (p f) := by
  have hinv := run_Inv hrun
  have htruthy : (reg.protoGet k "initialize").truthy = true := by
    revert hdecl
    cases reg.protoGet k "initialize" <;> simp [Value.callable, Value.truthy]
  have hcall : C.callsInitialize = true := hinv.hook k C hC htruthy
  have hget : (Instance.mk k (C.PROPS.map fun f => (f, p f))).get reg "initialize" =
      reg.protoGet k "initialize" := by
    simp only [Instance.get, own_lookup, if_neg hfield]
  refine ⟨⟨⟨k, C.PROPS.map fun f => (f, p f)⟩,
    (C.PROPS.reverse.map fun f => Event.set f (p f)) ++
      [Event.call (reg.protoGet k "initialize")]⟩, ?_, rfl, ?_, ?_, ?_⟩
  · simp only [construct, hC, own_eq, hcall, if_true, hget, hdecl]
  · rw [List.filter_append, List.filter_eq_nil_iff.2]
    · rfl
    · intro e he
      obtain ⟨f, _, rfl⟩ := List.mem_map.1 he
      simp [Event.isCall]
  · simp [Function.comp_def]
  · intro f hf
    simp only [own_lookup, if_pos hf]

/-- Witness for `construct_calls_initialize`: a kind that inherits the hook of its base. -/
theorem construct_calls_initialize_witness :
    Registry.run Sample.hooked Registry.empty = some Sample.hookedReg ∧
    Sample.hookedReg.ctors[2]? = some Sample.Inner ∧
    Sample.hookedReg.protoGet 2 "initialize" = .fn 7 ∧
    "initialize" ∉ Sample.Inner.PROPS ∧
    construct Sample.hookedReg 2 (some Sample.innerProps) =
      some ⟨⟨2, [("depth", .prim (.number 3)), ("references", .obj 800),
          ("start", .prim .undefined), ("end", .prim .undefined)]⟩,
        [.set "end" (.prim .undefined), .set "start" (.prim .undefined),
          .set "references" (.obj 800), .set "depth" (.prim (.number 3)),
          .call (.fn 7)]⟩ ∧
    ∃ r : Constructed, construct Sample.hookedReg 2 (some Sample.innerProps) = some r ∧
      r.trace = (Sample.Inner.PROPS.reverse.map fun f => Event.set f (Sample.innerProps f)) ++
        [Event.call (Sample.hookedReg.protoGet 2 "initialize")] ∧
      r.trace.filter Event.isCall = [Event.call (Sample.hookedReg.protoGet 2 "initialize")] ∧
      r.inst.own.map Prod.fst = Sample.Inner.PROPS ∧
      ∀ f ∈ Sample.Inner.PROPS, r.inst.own.lookup f = some (Sample.innerProps f) :=
  ⟨hooked_run, by decide, by decide, by decide, by decide,
    construct_calls_initialize Sample.hooked Sample.hookedReg hooked_run 2 Sample.Inner
      (by decide) (by decide) (by decide) Sample.innerProps⟩

/-- Counterexample to claim C19 as stated. The behaviour table of the kind `Shadow`
declares the hook `fn 7`, and the kind has a field named `initialize`: the copy
`this.initialize = props.initialize` hides the hook, so `new AST_Shadow({ x: 1 })` throws
a `TypeError` and `new AST_Shadow({ x: 1, initialize: g })` calls `g` and never the hook.
The behaviour table of the kind `Hidden` declares the hook `fn 7` next to a
`hasOwnProperty` that answers `false`: the constructor ends with `this.initialize()`, the
loop over the table copies nothing to the prototype, and `new AST_Hidden({ x: 1 })`
throws a `TypeError`. The kind `Sub` has an ancestor that declares the hook `fn 7`, and
its own table puts the number `5` in front of it: `new AST_Sub({ x: 1 })` throws a
`TypeError`. -/
theorem construct_hook_hidden :
    (Registry.run Sample.shadowed Registry.empty).isSome = true ∧
    Sample.shadowedReg.protoGet 0 "initialize" = .fn 7 ∧
    construct Sample.shadowedReg 0 (some Sample.onlyX) = none ∧
    (construct Sample.shadowedReg 0 (some Sample.withInitialize)).map
        (fun r => r.trace.filter Event.isCall) = some [Event.call (.fn 9)] ∧
    (Registry.run Sample.hidden Registry.empty).isSome = true ∧
    (Sample.hiddenReg.ctors[0]?).map Ctor.callsInitialize = some true ∧
    Sample.hiddenReg.protoGet 0 "initialize" = .prim .undefined ∧
    construct Sample.hiddenReg 0 (some Sample.onlyX) = none ∧
    (Registry.run Sample.overridden Registry.empty).isSome = true ∧
    Sample.overriddenReg.protoGet 0 "initialize" = .fn 7 ∧
    Sample.overriddenReg.protoGet 1 "initialize" = .prim (.number 5) ∧
    construct Sample.overriddenReg 1 (some Sample.onlyX) = none := by
  refine ⟨by decide, by decide, by decide, by decide, by decide, by decide, by decide,
    by decide, by decide, by decide, by decide, by decide⟩

/-! ### TreeWalker queries -/

theorem instanceof_If (k : Kind) : k.instanceof .If = decide (k = .If) := by
  cases k <;> rfl

theorem instanceof_Conditional (k : Kind) :
    k.instanceof .Conditional = decide (k = .Conditional) := by
  cases k <;> rfl

theorem instanceof_For (k : Kind) : k.instanceof .For = decide (k = .For) := by
  cases k <;> rfl

theorem instanceof_ForIn (k : Kind) : k.instanceof .ForIn = decide (k = .ForIn) := by
  cases k <;> rfl

theorem instanceof_Switch (k : Kind) : k.instanceof .Switch = decide (k = .Switch) := by
  cases k <;> rfl

theorem instanceof_UnaryPrefix (k : Kind) :
    k.instanceof .UnaryPrefix = decide (k = .UnaryPrefix) := by
  cases k <;> rfl

theorem instanceof_LabeledStatement (k : Kind) :
    k.instanceof .LabeledStatement = decide (k = .LabeledStatement) := by
  cases k <;> rfl

theorem instanceof_DWLoop (k : Kind) :
    k.instanceof .DWLoop = decide (k = .DWLoop ∨ k = .Do ∨ k = .While) := by
  cases k <;> rfl

theorem instanceof_Binary (k : Kind) :
    k.instanceof .Binary = decide (k = .Binary ∨ k = .Assign) := by
  cases k <;> rfl

theorem forces_eq_inBooleanSlot (p self : Node) :
    in_boolean_context.forces p self = p.inBooleanSlot self := by
  simp only [in_boolean_context.forces, instanceof_If, instanceof_Conditional,
    instanceof_DWLoop, instanceof_For, instanceof_UnaryPrefix]
  cases p with
  | leaf a k t => cases k <;> simp [Node.kind, LeafKind.toKind, Node.inBooleanSlot]
  | Block a k b => cases k <;> simp [Node.kind, BlockKind.toKind, Node.inBooleanSlot]
  | Lambda a k n ar b => cases k <;> simp [Node.kind, LambdaKind.toKind, Node.inBooleanSlot]
  | DWLoop a k c b =>
    cases k <;>
      simp [Node.kind, DWLoopKind.toKind, Node.inBooleanSlot, Node.condition?, Node.strictEq]
  | Exit a k v => cases k <;> simp [Node.kind, ExitKind.toKind, Node.inBooleanSlot]
  | LoopControl a k l =>
    cases k <;> simp [Node.kind, LoopControlKind.toKind, Node.inBooleanSlot]
  | Definitions a k d =>
    cases k <;> simp [Node.kind, DefinitionsKind.toKind, Node.inBooleanSlot]
  | Call a k e ar => cases k <;> simp [Node.kind, CallKind.toKind, Node.inBooleanSlot]
  | Unary a k op e =>
    cases k <;>
      simp [Node.kind, UnaryKind.toKind, Node.inBooleanSlot, Node.operator?,
        Node.expression?, Node.strictEq]
  | Binary a k l op r => cases k <;> simp [Node.kind, BinaryKind.toKind, Node.inBooleanSlot]
  | ObjectProperty a k key v =>
    cases k <;> simp [Node.kind, ObjectPropertyKind.toKind, Node.inBooleanSlot]
  | For a i c s b =>
    cases c <;> simp [Node.kind, Node.inBooleanSlot, Node.condition?, Node.strictEq]
  | If a c b alt => simp [Node.kind, Node.inBooleanSlot, Node.condition?, Node.strictEq]
  | Conditional a c b alt =>
    simp [Node.kind, Node.inBooleanSlot, Node.condition?, Node.strictEq]
  | _ => simp [Node.kind, Node.inBooleanSlot]

theorem logical_eq_isLogical (p : Node) : in_boolean_context.logical p = p.isLogical := by
  simp only [in_boolean_context.logical, instanceof_Binary]
  cases p with
  | leaf a k t => cases k <;> simp [Node.kind, LeafKind.toKind, Node.isLogical]
  | Block a k b => cases k <;> simp [Node.kind, BlockKind.toKind, Node.isLogical]
  | Lambda a k n ar b => cases k <;> simp [Node.kind, LambdaKind.toKind, Node.isLogical]
  | DWLoop a k c b => cases k <;> simp [Node.kind, DWLoopKind.toKind, Node.isLogical]
  | Exit a k v => cases k <;> simp [Node.kind, ExitKind.toKind, Node.isLogical]
  | LoopControl a k l => cases k <;> simp [Node.kind, LoopControlKind.toKind, Node.isLogical]
  | Definitions a k d => cases k <;> simp [Node.kind, DefinitionsKind.toKind, Node.isLogical]
  | Call a k e ar => cases k <;> simp [Node.kind, CallKind.toKind, Node.isLogical]
  | Unary a k op e => cases k <;> simp [Node.kind, UnaryKind.toKind, Node.isLogical]
  | Binary a k l op r =>
    cases k <;> simp [Node.kind, BinaryKind.toKind, Node.isLogical, Node.operator?]
  | ObjectProperty a k key v =>
    cases k <;> simp [Node.kind, ObjectPropertyKind.toKind, Node.isLogical]
  | _ => simp [Node.kind, Node.isLogical]

theorem loops_eq_isLoopOrSwitch (x : Node) :
    loopcontrol_target.loops x = x.isLoopOrSwitch := by
  simp only [loopcontrol_target.loops, instanceof_Switch, instanceof_For, instanceof_ForIn,
    instanceof_DWLoop]
  cases x with
  | leaf a k t => cases k <;> simp [Node.kind, LeafKind.toKind, Node.isLoopOrSwitch]
  | Block a k b => cases k <;> simp [Node.kind, BlockKind.toKind, Node.isLoopOrSwitch]
  | Lambda a k n ar b => cases k <;> simp [Node.kind, LambdaKind.toKind, Node.isLoopOrSwitch]
  | DWLoop a k c b => cases k <;> simp [Node.kind, DWLoopKind.toKind, Node.isLoopOrSwitch]
  | Exit a k v => cases k <;> simp [Node.kind, ExitKind.toKind, Node.isLoopOrSwitch]
  | LoopControl a k l =>
    cases k <;> simp [Node.kind, LoopControlKind.toKind, Node.isLoopOrSwitch]
  | Definitions a k d =>
    cases k <;> simp [Node.kind, DefinitionsKind.toKind, Node.isLoopOrSwitch]
  | Call a k e ar => cases k <;> simp [Node.kind, CallKind.toKind, Node.isLoopOrSwitch]
  | Unary a k op e => cases k <;> simp [Node.kind, UnaryKind.toKind, Node.isLoopOrSwitch]
  | Binary a k l op r => cases k <;> simp [Node.kind, BinaryKind.toKind, Node.isLoopOrSwitch]
  | ObjectProperty a k key v =>
    cases k <;> simp [Node.kind, ObjectPropertyKind.toKind, Node.isLoopOrSwitch]
  | _ => simp [Node.kind, Node.isLoopOrSwitch]

theorem inBooleanSlot_of_isLogical (b self : Node) (h : b.isLogical = true) :
    b.inBooleanSlot self = false := by
  cases b <;> first | rfl | exact absurd h (by simp [Node.isLogical])

theorem scan_eq_find (test : Node → Bool) (stack : List Node) :
    ∀ i, scan test stack i = (stack.take i).reverse.find? test := by
  intro i
  induction i with
  | zero => rfl
  | succ i ih =>
    rw [scan]
    cases hx : stack[i]? with
    | none =>
      simp only
      have hle : stack.length ≤ i := by
        rcases Nat.lt_or_ge i stack.length with hlt | hge
        · rw [List.getElem?_eq_getElem hlt] at hx
          exact absurd hx (by simp)
        · exact hge
      rw [ih, List.take_of_length_le hle, List.take_of_length_le (by omega)]
    | some x =>
      simp only
      rw [take_succ_of_getElem? stack i x hx, List.reverse_append, List.reverse_singleton,
        List.singleton_append, List.find?_cons, ih]
      cases test x <;> rfl

theorem scan_found (test : Node → Bool) (pre post : List Node) (x : Node)
    (hx : test x = true) (hpost : ∀ y ∈ post, test y = false) :
    scan test (pre ++ x :: post) (pre ++ x :: post).length = some x := by
  rw [scan_eq_find, List.take_length, List.reverse_append, List.reverse_cons,
    List.append_assoc, List.find?_append]
  have h1 : post.reverse.find? test = none := by
    rw [List.find?_eq_none]
    intro y hy
    rw [hpost y (List.mem_reverse.1 hy)]
    simp
  rw [h1]
  simp [List.find?_cons, hx]

theorem scan_none (test : Node → Bool) (stack : List Node)
    (h : ∀ y ∈ stack, test y = false) : scan test stack stack.length = none := by
  rw [scan_eq_find, List.take_length, List.find?_eq_none]
  intro y hy
  rw [h y (List.mem_reverse.1 hy)]
  simp

theorem head?_append_singleton (c : List Node) (b : Node) :
    (c ++ [b]).head? = some (c.head?.getD b) := by
  cases c <;> rfl

theorem loop_chain (rest : List Node) (top : Node) :
    ∀ (chain : List Node) (self : Node) (extra : List Node),
      (∀ b ∈ chain, b.isLogical = true) →
      in_boolean_context.loop (rest ++ (top :: (chain ++ (self :: extra))))
          (rest.length + 1 + chain.length) self =
        if top.inBooleanSlot (chain.head?.getD self) then .bool true
        else if !top.isLogical then .bool false
        else in_boolean_context.loop (rest ++ (top :: (chain ++ (self :: extra))))
          rest.length top := by
  intro chain
  induction chain using List.reverseRecOn with
  | nil =>
    intro self extra _
    have hget : (rest ++ (top :: ([] ++ (self :: extra))))[rest.length]? = some top := by
      rw [List.getElem?_append_right (Nat.le_refl _), Nat.sub_self, List.getElem?_cons_zero]
    rw [show rest.length + 1 + ([] : List Node).length = rest.length + 1 from rfl,
      in_boolean_context.loop, hget]
    simp only [forces_eq_inBooleanSlot, logical_eq_isLogical, List.head?_nil,
      Option.getD_none]
  | append_singleton c b ih =>
    intro self extra hall
    have hb : b.isLogical = true := hall b (by simp)
    have hc : ∀ x ∈ c, x.isLogical = true := fun x hx => hall x (by simp [hx])
    have hstack : rest ++ (top :: ((c ++ [b]) ++ (self :: extra))) =
        rest ++ (top :: (c ++ (b :: (self :: extra)))) := by simp
    have hget : (rest ++ (top :: (c ++ (b :: (self :: extra)))))[rest.length + 1 + c.length]? =
        some b := by
      rw [List.getElem?_append_right (by omega)]
      rw [show rest.length + 1 + c.length - rest.length = c.length + 1 by omega,
        List.getElem?_cons_succ, List.getElem?_append_right (by omega)]
      simp
    rw [hstack, show rest.length + 1 + (c ++ [b]).length = (rest.length + 1 + c.length) + 1 by
      simp; omega, in_boolean_context.loop, hget]
    simp only [forces_eq_inBooleanSlot, logical_eq_isLogical,
      inBooleanSlot_of_isLogical b self hb, hb, Bool.false_eq_true, if_false, Bool.not_true]
    rw [ih b (self :: extra) hc, head?_append_singleton]
    rfl

theorem in_boolean_context_chain (rest : List Node) (calls : List (Node × List Node))
    (top : Node) (chain : List Node) (self : Node)
    (hchain : ∀ b ∈ chain, b.isLogical = true) :
    in_boolean_context ⟨rest ++ (top :: (chain ++ [self])), calls⟩ =
      if top.inBooleanSlot (chain.head?.getD self) then .bool true
      else if !top.isLogical then .bool false
      else in_boolean_context.loop (rest ++ (top :: (chain ++ [self]))) rest.length top := by
  have hlen : (rest ++ (top :: (chain ++ [self]))).length =
      (rest.length + 1 + chain.length) + 1 := by
    simp; omega
  have hget : (rest ++ (top :: (chain ++ [self])))[rest.length + 1 + chain.length]? =
      some self := by
    rw [List.getElem?_append_right (by omega)]
    rw [show rest.length + 1 + chain.length - rest.length = chain.length + 1 by omega,
      List.getElem?_cons_succ, List.getElem?_append_right (by omega)]
    simp
  simp only [in_boolean_context, hlen, hget]
  exact loop_chain rest top chain self [] hchain

theorem in_boolean_context_parent (rest : List Node) (calls : List (Node × List Node))
    (p self : Node) :
    in_boolean_context ⟨rest ++ [p, self], calls⟩ =
      if p.inBooleanSlot self then .bool true
      else if !p.isLogical then .bool false
      else in_boolean_context.loop (rest ++ [p, self]) rest.length p :=
  in_boolean_context_chain rest calls p [] self (fun _ h => absurd h (by simp))

theorem stack_top (rest : List Node) (calls : List (Node × List Node)) (p self : Node) :
    TreeWalker.self ⟨rest ++ [p, self], calls⟩ = some self ∧
    TreeWalker.parent ⟨rest ++ [p, self], calls⟩ none = some p := by
  constructor
  · rw [self_eq_getLast?]
    simp
  · show TreeWalker.parent ⟨rest ++ [p, self], calls⟩ (some 0) = some p
    rw [parent_eq_enclosing]
    simp

/-- Claim C20. With the current node `self` on top of the walker stack and its parent
`p` below it, `in_boolean_context()` returns `true` when `self` is the condition of the
`If` `p`, of the conditional expression `p`, of the `do` or `while` loop `p`, of the `for`
loop `p`, or the operand of the prefix `!` expression `p`. -/
theorem in_boolean_context_slots (rest : List Node) (calls : List (Node × List Node))
    (self : Node) :
    (∀ a body alt,
      in_boolean_context ⟨rest ++ [.If a self body alt, self], calls⟩ = .bool true) ∧
    (∀ a consequent alt,
      in_boolean_context ⟨rest ++ [.Conditional a self consequent alt, self], calls⟩ =
        .bool true) ∧
    (∀ a k body,
      in_boolean_context ⟨rest ++ [.DWLoop a k self body, self], calls⟩ = .bool true) ∧
    (∀ a init step body,
      in_boolean_context ⟨rest ++ [.For a init (some self) step body, self], calls⟩ =
        .bool true) ∧
    (∀ a,
      in_boolean_context ⟨rest ++ [.Unary a .UnaryPrefix "!" self, self], calls⟩ =
        .bool true) ∧
    (∀ p : Node, p.inBooleanSlot self = true →
      TreeWalker.self ⟨rest ++ [p, self], calls⟩ = some self ∧
      TreeWalker.parent ⟨rest ++ [p, self], calls⟩ none = some p ∧
      in_boolean_context ⟨rest ++ [p, self], calls⟩ = .bool true) := by
  have key : ∀ p : Node, p.inBooleanSlot self = true →
      in_boolean_context ⟨rest ++ [p, self], calls⟩ = .bool true := by
    intro p hp
    rw [in_boolean_context_parent, hp]
    rfl
  refine ⟨?_, ?_, ?_, ?_, ?_, ?_⟩
  · intro a body alt
    exact key _ (by simp [Node.inBooleanSlot])
  · intro a consequent alt
    exact key _ (by simp [Node.inBooleanSlot])
  · intro a k body
    exact key _ (by simp [Node.inBooleanSlot])
  · intro a init step body
    exact key _ (by simp [Node.inBooleanSlot])
  · intro a
    exact key _ (by simp [Node.inBooleanSlot])
  · intro p hp
    exact ⟨(stack_top rest calls p self).1, (stack_top rest calls p self).2, key p hp⟩

/-- Claim C21. When the nodes between `top` and the current node `self` on the walker
stack are `k >= 1` nested `Binary` expressions with operator `&&` or `||`, and the
outermost of them is in a slot of `top` that forces a boolean, `in_boolean_context()`
returns `true`. -/
theorem in_boolean_context_propagates (rest : List Node) (calls : List (Node × List Node))
    (top : Node) (chain : List Node) (self : Node) (hk : chain ≠ [])
    (hchain : ∀ b ∈ chain, b.isLogical = true)
    (hslot : top.inBooleanSlot (chain.head hk) = true) :
    in_boolean_context ⟨rest ++ (top :: (chain ++ [self])), calls⟩ = .bool true := by
  rw [in_boolean_context_chain rest calls top chain self hchain]
  have hhead : chain.head?.getD self = chain.head hk := by
    cases chain with
    | nil => exact absurd rfl hk
    | cons b bs => rfl
  rw [hhead, hslot]
  rfl

/-- Witness for `in_boolean_context_propagates`: the symbol `c` in
`if (!(a && (b || c))) s`. -/
theorem in_boolean_context_propagates_witness :
    (∀ b ∈ (Sample.notAndOr.drop 2).dropLast, b.isLogical = true) ∧
    in_boolean_context ⟨Sample.notAndOr, []⟩ = .bool true :=
  ⟨by decide,
    in_boolean_context_propagates [.If 1 (.Unary 2 .UnaryPrefix "!" (.Binary 3 .Binary
        (Sample.sym 4 "a") "&&" (.Binary 5 .Binary (Sample.sym 6 "b") "||"
          (Sample.sym 7 "c")))) (Sample.sym 8 "s") none] []
      (.Unary 2 .UnaryPrefix "!" (.Binary 3 .Binary (Sample.sym 4 "a") "&&"
        (.Binary 5 .Binary (Sample.sym 6 "b") "||" (Sample.sym 7 "c"))))
      [.Binary 3 .Binary (Sample.sym 4 "a") "&&"
          (.Binary 5 .Binary (Sample.sym 6 "b") "||" (Sample.sym 7 "c")),
        .Binary 5 .Binary (Sample.sym 6 "b") "||" (Sample.sym 7 "c")]
      (Sample.sym 7 "c") (by simp) (by decide) (by decide)⟩

/-- Claim C22. `in_boolean_context()` returns `false` when the parent of the current node
is a `Call` (the node is an argument) or an `Assign` with an assignment operator (the node
is the right-hand side), and whenever the nodes between `top` and the current node are
zero or more `Binary` expressions with operator `&&` or `||`, `top` is no such expression,
and `top` does not hold the outermost of them (or the current node) in a slot that forces
a boolean. -/
theorem in_boolean_context_false (rest : List Node) (calls : List (Node × List Node))
    (self : Node) :
    (∀ a k f args,
      in_boolean_context ⟨rest ++ [.Call a k f args, self], calls⟩ = .bool false) ∧
    (∀ a left (op : String), op ≠ "&&" → op ≠ "||" →
      in_boolean_context ⟨rest ++ [.Binary a .Assign left op self, self], calls⟩ =
        .bool false) ∧
    (∀ (top : Node) (chain : List Node), (∀ b ∈ chain, b.isLogical = true) →
      top.isLogical = false → top.inBooleanSlot (chain.head?.getD self) = false →
      in_boolean_context ⟨rest ++ (top :: (chain ++ [self])), calls⟩ = .bool false) := by
  have key : ∀ (top : Node) (chain : List Node), (∀ b ∈ chain, b.isLogical = true) →
      top.isLogical = false → top.inBooleanSlot (chain.head?.getD self) = false →
      in_boolean_context ⟨rest ++ (top :: (chain ++ [self])), calls⟩ = .bool false := by
    intro top chain hchain htop hslot
    rw [in_boolean_context_chain rest calls top chain self hchain, hslot, htop]
    rfl
  refine ⟨?_, ?_, key⟩
  · intro a k f args
    exact key (.Call a k f args) [] (fun _ h => absurd h (by simp)) rfl rfl
  · intro a left op h1 h2
    exact key (.Binary a .Assign left op self) [] (fun _ h => absurd h (by simp))
      (by simp [Node.isLogical, h1, h2]) rfl

/-- Witness for `in_boolean_context_false`: the symbol `b` in `f(a || b)`, and the
right-hand side of `x = y`. -/
theorem in_boolean_context_false_witness :
    in_boolean_context ⟨Sample.callArg, []⟩ = .bool false ∧
    in_boolean_context
      ⟨[.Binary 1 .Assign (Sample.sym 2 "x") "=" (Sample.sym 3 "y"), Sample.sym 3 "y"], []⟩ =
        .bool false :=
  ⟨(in_boolean_context_false [] [] (Sample.sym 5 "b")).2.2
      (.Call 1 .Call (Sample.sym 2 "f")
        [.Binary 3 .Binary (Sample.sym 4 "a") "||" (Sample.sym 5 "b")])
      [.Binary 3 .Binary (Sample.sym 4 "a") "||" (Sample.sym 5 "b")]
      (by decide) rfl rfl,
    (in_boolean_context_false [] [] (Sample.sym 3 "y")).2.1 1 (Sample.sym 2 "x") "="
      (by decide) (by decide)⟩

theorem labelled_true (label lab body : Node) (a : Nat) (h : lab.name = label.name) :
    loopcontrol_target.labelled label (.LabeledStatement a lab body) = true := by
  simp [loopcontrol_target.labelled, Node.kind, instanceof_LabeledStatement, h]

theorem labelled_false (label y : Node)
    (h : ∀ a lab body, y = .LabeledStatement a lab body → lab.name ≠ label.name) :
    loopcontrol_target.labelled label y = false := by
  cases y with
  | LabeledStatement a lab body =>
    simp [loopcontrol_target.labelled, h a lab body rfl]
  | _ => simp [loopcontrol_target.labelled]

/-- Claim C23. `loopcontrol_target(label)` with a label returns the body of the entry of
the walker stack nearest to the top that is a `LabeledStatement` whose label has the name
of `label`, whatever other labeled statements and loops are nearer to the top, and
`undefined` when the stack has no such entry. -/
theorem loopcontrol_target_label (w : WalkState) (label : Node) :
    (∀ (pre post : List Node) (a : Nat) (lab body : Node),
      w.stack = pre ++ .LabeledStatement a lab body :: post → lab.name = label.name →
      (∀ y ∈ post, ∀ a2 lab2 body2, y = .LabeledStatement a2 lab2 body2 →
        lab2.name ≠ label.name) →
      loopcontrol_target w (some label) = some body) ∧
    ((∀ y ∈ w.stack, ∀ a2 lab2 body2, y = .LabeledStatement a2 lab2 body2 →
        lab2.name ≠ label.name) →
      loopcontrol_target w (some label) = none) := by
  constructor
  · intro pre post a lab body hst hname hpost
    rw [loopcontrol_target, hst,
      scan_found _ pre post _ (labelled_true label lab body a hname)
        (fun y hy => labelled_false label y (hpost y hy))]
    rfl
  · intro hall
    rw [loopcontrol_target, scan_none _ _ (fun y hy => labelled_false label y (hall y hy))]
    rfl

/-- Witness for `loopcontrol_target_label`: `break outer;` inside
`outer: for (;;) inner: while (y) break outer;` targets the `for` loop, and a label that
no statement declares gives `undefined`. -/
theorem loopcontrol_target_label_witness :
    loopcontrol_target ⟨Sample.labelled, []⟩ (some (Sample.lblRef 8 "outer")) =
      some (.For 3 none none none Sample.innerLoop) ∧
    loopcontrol_target ⟨Sample.labelled, []⟩ (some (Sample.lblRef 8 "other")) = none :=
  ⟨(loopcontrol_target_label ⟨Sample.labelled, []⟩ (Sample.lblRef 8 "outer")).1 []
      [.For 3 none none none Sample.innerLoop, Sample.innerLoop,
        .DWLoop 6 .While (Sample.sym 9 "y") Sample.breakOuter, Sample.breakOuter]
      1 (Sample.lbl 2 "outer") (.For 3 none none none Sample.innerLoop) rfl rfl
      (by
        intro y hy a2 lab2 body2 he
        simp only [List.mem_cons, List.mem_singleton, List.not_mem_nil, or_false] at hy
        rcases hy with rfl | rfl | rfl | rfl
        · cases he
        · cases he
          decide
        · cases he
        · cases he),
    (loopcontrol_target_label ⟨Sample.labelled, []⟩ (Sample.lblRef 8 "other")).2
      (by
        intro y hy a2 lab2 body2 he
        simp only [Sample.labelled, List.mem_cons, List.mem_singleton, List.not_mem_nil,
          or_false] at hy
        rcases hy with rfl | rfl | rfl | rfl | rfl
        · cases he
          decide
        · cases he
        · cases he
          decide
        · cases he
        · cases he)⟩

/-- Claim C24. `loopcontrol_target()` without a label returns the entry of the walker
stack nearest to the top that is a `Switch`, `For`, `ForIn`, `Do` or `While` node, the
node itself, and `undefined` when the stack has no such entry. -/
theorem loopcontrol_target_unlabelled (w : WalkState) :
    (∀ (pre post : List Node) (x : Node), w.stack = pre ++ x :: post →
      x.isLoopOrSwitch = true → (∀ y ∈ post, y.isLoopOrSwitch = false) →
      loopcontrol_target w none = some x) ∧
    ((∀ y ∈ w.stack, y.isLoopOrSwitch = false) → loopcontrol_target w none = none) := by
  constructor
  · intro pre post x hst hx hpost
    rw [loopcontrol_target, hst,
      scan_found _ pre post x (by rw [loops_eq_isLoopOrSwitch]; exact hx)
        (fun y hy => by rw [loops_eq_isLoopOrSwitch]; exact hpost y hy)]
  · intro hall
    rw [loopcontrol_target,
      scan_none _ _ (fun y hy => by rw [loops_eq_isLoopOrSwitch]; exact hall y hy)]

/-- Witness for `loopcontrol_target_unlabelled`: at `break outer;` the nearest loop is the
`while` loop; on a stack without loop or switch the result is `undefined`. -/
theorem loopcontrol_target_unlabelled_witness :
    loopcontrol_target ⟨Sample.labelled, []⟩ none =
      some (.DWLoop 6 .While (Sample.sym 9 "y") Sample.breakOuter) ∧
    loopcontrol_target ⟨Sample.callArg, []⟩ none = none :=
  ⟨(loopcontrol_target_unlabelled ⟨Sample.labelled, []⟩).1
      [Sample.outerLoop, .For 3 none none none Sample.innerLoop, Sample.innerLoop]
      [Sample.breakOuter] (.DWLoop 6 .While (Sample.sym 9 "y") Sample.breakOuter)
      rfl rfl (by decide),
    (loopcontrol_target_unlabelled ⟨Sample.callArg, []⟩).2 (by decide)⟩

/-- What `find_parent(K)` returns: it scans the walker stack from its top, which is the
current node, outward and returns the first entry whose kind is `K` or derived from `K`;
it returns `undefined` when no entry of the stack is of kind `K`. When the current node
is not of kind `K` the result is the first enclosing node of kind `K`. -/
theorem find_parent_scans_stack (w : WalkState) (K : Kind) :
    (∀ (pre post : List Node) (x : Node), w.stack = pre ++ x :: post →
      x.kind.instanceof K = true → (∀ y ∈ post, y.kind.instanceof K = false) →
      find_parent w K = some x) ∧
    ((∀ y ∈ w.stack, y.kind.instanceof K = false) → find_parent w K = none) ∧
    (∀ cur, w.stack.getLast? = some cur → cur.kind.instanceof K = false →
      find_parent w K = firstEnclosing w K) := by
  refine ⟨?_, ?_, ?_⟩
  · intro pre post x hst hx hpost
    rw [find_parent, hst]
    exact scan_found _ pre post x hx hpost
  · intro hall
    exact scan_none _ _ hall
  · intro cur hcur hk
    rw [find_parent, firstEnclosing]
    cases hn : w.stack.length with
    | zero => rfl
    | succ n =>
      rw [List.getLast?_eq_getElem?, hn] at hcur
      simp only [Nat.add_sub_cancel] at hcur ⊢
      rw [scan, hcur]
      simp [hk]

/-- An instance of `find_parent_scans_stack`: inside `while (x) while (y) ;`, with the walker
at the symbol `y`, `find_parent(AST_While)` is the inner loop. -/
theorem find_parent_scans_stack_witness :
    find_parent ⟨Sample.nestedWhile ++ [Sample.sym 4 "y"], []⟩ .While =
      some (.DWLoop 3 .While (Sample.sym 4 "y") (.leaf 5 .EmptyStatement "")) ∧
    find_parent ⟨Sample.nestedWhile ++ [Sample.sym 4 "y"], []⟩ .While =
      firstEnclosing ⟨Sample.nestedWhile ++ [Sample.sym 4 "y"], []⟩ .While ∧
    find_parent ⟨Sample.nestedWhile, []⟩ .For = none :=
  ⟨(find_parent_scans_stack ⟨Sample.nestedWhile ++ [Sample.sym 4 "y"], []⟩ .While).1
      [.DWLoop 1 .While (Sample.sym 2 "x")
        (.DWLoop 3 .While (Sample.sym 4 "y") (.leaf 5 .EmptyStatement ""))]
      [Sample.sym 4 "y"] _ rfl rfl (by decide),
    (find_parent_scans_stack ⟨Sample.nestedWhile ++ [Sample.sym 4 "y"], []⟩ .While).2.2
      (Sample.sym 4 "y") rfl rfl,
    (find_parent_scans_stack ⟨Sample.nestedWhile, []⟩ .For).2.1 (by decide)⟩

/-- Claim C25 at the input `find_parent(AST_While)` with the walker at the inner loop of
`while (x) while (y) ;`: the claim, like the comment above the method ("retrieve a
certain node's parent node") and like `parent()`, which starts below the top of the
stack, gives the outer loop, the first node of kind `While` that encloses the current
node; the scan starts at `stack.length - 1` and returns the inner loop, which is the
current node itself. -/
theorem find_parent_returns_current :
    (TreeWalker.self ⟨Sample.nestedWhile, []⟩).map Node.addr = some 3 ∧
    (find_parent ⟨Sample.nestedWhile, []⟩ .While).map Node.addr = some 3 ∧
    (firstEnclosing ⟨Sample.nestedWhile, []⟩ .While).map Node.addr = some 1 ∧
    find_parent ⟨Sample.nestedWhile, []⟩ .While ≠
      firstEnclosing ⟨Sample.nestedWhile, []⟩ .While := by
  refine ⟨by decide, by decide, by decide, ?_⟩
  intro h
  have h2 := congrArg (Option.map Node.addr) h
  revert h2
  decide

/-! ### Dictionary -/

theorem Dictionary.name_injective {k1 k2 : String} (h : Dictionary.name k1 = Dictionary.name k2) :
    k1 = k2 := by
  have h2 := congrArg String.data h
  simp only [Dictionary.name, String.data_append] at h2
  exact String.ext (List.append_cancel_left h2)

theorem Dictionary.lookup_write_self {V : Type} (vs : List (String × V)) (n : String) (val : V) :
    (Dictionary.write vs n val).lookup n = some val := by
  induction vs with
  | nil => simp [Dictionary.write, List.lookup_cons]
  | cons e rest ih =>
    obtain ⟨m, v⟩ := e
    rw [Dictionary.write]
    by_cases hm : m = n
    · subst hm
      simp [List.lookup_cons]
    · have hne : (n == m) = false := by simpa using fun h => hm h.symm
      rw [if_neg hm, List.lookup_cons, hne]
      exact ih

theorem Dictionary.lookup_write_other {V : Type} (vs : List (String × V)) (n n2 : String)
    (val : V) (h : n2 ≠ n) :
    (Dictionary.write vs n val).lookup n2 = vs.lookup n2 := by
  induction vs with
  | nil =>
    have hne : (n2 == n) = false := by simpa using h
    simp [Dictionary.write, List.lookup_cons, hne]
  | cons e rest ih =>
    obtain ⟨m, v⟩ := e
    rw [Dictionary.write]
    by_cases hm : m = n
    · subst hm
      have hne : (n2 == m) = false := by simpa using h
      rw [if_pos rfl, List.lookup_cons, List.lookup_cons, hne]
    · rw [if_neg hm, List.lookup_cons, List.lookup_cons, ih]

theorem Dictionary.lookup_filter_self {V : Type} (vs : List (String × V)) (n : String) :
    (vs.filter fun e => e.1 != n).lookup n = none := by
  induction vs with
  | nil => rfl
  | cons e rest ih =>
    obtain ⟨m, v⟩ := e
    rw [List.filter_cons]
    by_cases hm : m = n
    · subst hm
      simpa using ih
    · have hne : (n == m) = false := by simpa using fun h => hm h.symm
      have hne2 : (m != n) = true := by simpa using hm
      simp only [hne2, if_true, List.lookup_cons, hne]
      exact ih

theorem Dictionary.lookup_filter_other {V : Type} (vs : List (String × V)) (n n2 : String)
    (h : n2 ≠ n) : (vs.filter fun e => e.1 != n).lookup n2 = vs.lookup n2 := by
  induction vs with
  | nil => rfl
  | cons e rest ih =>
    obtain ⟨m, v⟩ := e
    rw [List.filter_cons]
    by_cases hm : m = n
    · subst hm
      have hne : (n2 == m) = false := by simpa using h
      simp only [bne_self_eq_false, Bool.false_eq_true, if_false, List.lookup_cons, hne]
      exact ih
    · have hne2 : (m != n) = true := by simpa using hm
      simp only [hne2, if_true, List.lookup_cons]
      rw [ih]

/-- Claim C26. After `d.set(k, v)`, `d.get(k)` is `v` and `d.has(k)` is true, and for
every other key `get` and `has` answer as before the call. -/
theorem Dictionary_set_get {V : Type} (d : Dictionary V) (k : String) (v : V) :
    (d.set k v).get k = some v ∧ (d.set k v).has k = true ∧
    ∀ k2, k2 ≠ k → (d.set k v).get k2 = d.get k2 ∧ (d.set k v).has k2 = d.has k2 := by
  refine ⟨?_, ?_, ?_⟩
  · exact Dictionary.lookup_write_self _ _ _
  · simp only [Dictionary.has, Dictionary.set, Dictionary.lookup_write_self,
      Option.isSome_some]
  · intro k2 hk
    have hn : Dictionary.name k2 ≠ Dictionary.name k :=
      fun h => hk (Dictionary.name_injective h)
    simp only [Dictionary.get, Dictionary.has, Dictionary.set,
      Dictionary.lookup_write_other _ _ _ _ hn, and_self]

/-- Claim C28. After `d.del(k)`, `d.has(k)` is false and `d.get(k)` is `undefined`, `has`
and `get` of every other key answer as before, and when `k` was absent the dictionary,
`size()` included, is unchanged. -/
theorem Dictionary_del {V : Type} (d : Dictionary V) (k : String) :
    (d.del k).has k = false ∧ (d.del k).get k = none ∧
    (∀ k2, k2 ≠ k → (d.del k).get k2 = d.get k2 ∧ (d.del k).has k2 = d.has k2) ∧
    (d.has k = false → d.del k = d ∧ (d.del k).size = d.size) := by
  by_cases hk : d.has k = true
  · have hdel : d.del k = ⟨d._values.filter fun e => e.1 != Dictionary.name k, d._size - 1⟩ := by
      simp only [Dictionary.del, hk, if_true]
    rw [hdel]
    refine ⟨?_, ?_, ?_, ?_⟩
    · simp only [Dictionary.has, Dictionary.lookup_filter_self, Option.isSome_none]
    · exact Dictionary.lookup_filter_self _ _
    · intro k2 hk2
      have hn : Dictionary.name k2 ≠ Dictionary.name k :=
        fun h => hk2 (Dictionary.name_injective h)
      simp only [Dictionary.get, Dictionary.has,
        Dictionary.lookup_filter_other _ _ _ hn, and_self]
    · intro hf
      rw [hf] at hk
      exact absurd hk (by simp)
  · have hf : d.has k = false := by simpa using hk
    have hdel : d.del k = d := by
      simp only [Dictionary.del, hf, Bool.false_eq_true, if_false]
    rw [hdel]
    refine ⟨hf, ?_, fun _ _ => ⟨rfl, rfl⟩, fun _ => ⟨rfl, rfl⟩⟩
    simp only [Dictionary.has] at hf
    show d._values.lookup (Dictionary.name k) = none
    cases hl : d._values.lookup (Dictionary.name k) with
    | none => rfl
    | some v => rw [hl] at hf; exact absurd hf (by simp)

theorem Dictionary.isSome_lookup_iff {V : Type} (vs : List (String × V)) (n : String) :
    (vs.lookup n).isSome = true ↔ n ∈ vs.map Prod.fst := by
  induction vs with
  | nil => simp
  | cons e rest ih =>
    obtain ⟨m, v⟩ := e
    rw [List.lookup_cons]
    by_cases hm : n = m
    · subst hm
      simp
    · have hne : (n == m) = false := by simpa using hm
      rw [hne]
      simp only [List.map_cons, List.mem_cons, hm, false_or]
      exact ih

theorem Dictionary.names_write {V : Type} (vs : List (String × V)) (n : String) (val : V) :
    (Dictionary.write vs n val).map Prod.fst =
      if n ∈ vs.map Prod.fst then vs.map Prod.fst else vs.map Prod.fst ++ [n] := by
  induction vs with
  | nil => simp [Dictionary.write]
  | cons e rest ih =>
    obtain ⟨m, v⟩ := e
    rw [Dictionary.write]
    by_cases hm : m = n
    · subst hm
      simp
    · have hnm : ¬ n = m := fun h => hm h.symm
      rw [if_neg hm, List.map_cons, ih]
      simp only [List.map_cons, List.mem_cons, hnm, false_or]
      split <;> rfl

theorem Dictionary.names_filter {V : Type} (vs : List (String × V)) (n : String) :
    (vs.filter fun e => e.1 != n).map Prod.fst = (vs.map Prod.fst).filter (fun m => m != n) := by
  induction vs with
  | nil => rfl
  | cons e rest ih =>
    obtain ⟨m, v⟩ := e
    rw [List.filter_cons, List.map_cons, List.filter_cons]
    by_cases hm : (m != n) = true
    · simp only [hm, if_true, List.map_cons, ih]
    · have hf : (m != n) = false := by simpa using hm
      simp only [hf, Bool.false_eq_true, if_false, ih]

theorem Dictionary.filter_names (ks : List String) (k : String) :
    (ks.map Dictionary.name).filter (fun m => m != Dictionary.name k) =
      (ks.filter fun j => j != k).map Dictionary.name := by
  induction ks with
  | nil => rfl
  | cons j rest ih =>
    rw [List.map_cons, List.filter_cons, List.filter_cons, ih]
    by_cases hj : j = k
    · subst hj
      simp
    · have h1 : (j != k) = true := by simpa using hj
      have h2 : (Dictionary.name j != Dictionary.name k) = true := by
        simpa using fun h => hj (Dictionary.name_injective h)
      simp only [h1, h2, if_true, List.map_cons]

theorem Dictionary.mem_names_iff (ks : List String) (k : String) :
    Dictionary.name k ∈ ks.map Dictionary.name ↔ k ∈ ks := by
  constructor
  · intro h
    obtain ⟨j, hj, he⟩ := List.mem_map.1 h
    rw [← Dictionary.name_injective he]
    exact hj
  · intro h
    exact List.mem_map.2 ⟨k, h, rfl⟩

theorem Dictionary.step_keyed {V : Type} (d : Dictionary V) (op : Dictionary.Op V)
    (ks : List String) (hnd : ks.Nodup)
    (hnames : d._values.map Prod.fst = ks.map Dictionary.name)
    (hsize : d._size = ks.length) :
    ∃ ks2 : List String, ks2.Nodup ∧
      (d.step op)._values.map Prod.fst = ks2.map Dictionary.name ∧
      (d.step op)._size = ks2.length := by
  have hhas : ∀ k, d.has k = true ↔ k ∈ ks := by
    intro k
    rw [Dictionary.has, Dictionary.isSome_lookup_iff, hnames, Dictionary.mem_names_iff]
  cases op with
  | set k v =>
    by_cases hk : k ∈ ks
    · refine ⟨ks, hnd, ?_, ?_⟩
      · simp only [Dictionary.step, Dictionary.set, Dictionary.names_write, hnames,
          Dictionary.mem_names_iff, hk, if_true]
      · simp only [Dictionary.step, Dictionary.set, (hhas k).2 hk, Bool.not_true,
          Bool.false_eq_true, if_false, hsize]
    · have hf : d.has k = false := by
        cases hh : d.has k with
        | false => rfl
        | true => exact absurd ((hhas k).1 hh) hk
      refine ⟨ks ++ [k], ?_, ?_, ?_⟩
      · rw [List.nodup_append]
        refine ⟨hnd, List.nodup_singleton k, ?_⟩
        intro a ha hb
        rw [List.mem_singleton] at hb
        subst hb
        exact hk ha
      · simp only [Dictionary.step, Dictionary.set, Dictionary.names_write, hnames,
          Dictionary.mem_names_iff, hk, if_false, List.map_append, List.map_cons,
          List.map_nil]
      · simp only [Dictionary.step, Dictionary.set, hf, Bool.not_false, if_true, hsize,
          List.length_append, List.length_singleton, Nat.cast_add, Nat.cast_one]
  | del k =>
    by_cases hk : k ∈ ks
    · have ht : d.has k = true := (hhas k).2 hk
      refine ⟨ks.filter fun j => j != k, hnd.filter _, ?_, ?_⟩
      · simp only [Dictionary.step, Dictionary.del, ht, if_true, Dictionary.names_filter,
          hnames, Dictionary.filter_names]
      · simp only [Dictionary.step, Dictionary.del, ht, if_true, hsize]
        rw [← hnd.erase_eq_filter k, List.length_erase_of_mem hk]
        have hpos : 0 < ks.length := List.length_pos_of_mem hk
        omega
    · have hf : d.has k = false := by
        cases hh : d.has k with
        | false => rfl
        | true => exact absurd ((hhas k).1 hh) hk
      refine ⟨ks, hnd, ?_, ?_⟩
      · simp only [Dictionary.step, Dictionary.del, hf, Bool.false_eq_true, if_false, hnames]
      · simp only [Dictionary.step, Dictionary.del, hf, Bool.false_eq_true, if_false, hsize]

theorem Dictionary.foldl_keyed {V : Type} (ops : List (Dictionary.Op V)) :
    ∀ (d : Dictionary V) (ks : List String), ks.Nodup →
      d._values.map Prod.fst = ks.map Dictionary.name → d._size = ks.length →
      ∃ ks2 : List String, ks2.Nodup ∧
        (ops.foldl Dictionary.step d)._values.map Prod.fst = ks2.map Dictionary.name ∧
        (ops.foldl Dictionary.step d)._size = ks2.length := by
  induction ops with
  | nil => intro d ks h1 h2 h3; exact ⟨ks, h1, h2, h3⟩
  | cons op rest ih =>
    intro d ks h1 h2 h3
    obtain ⟨ks1, g1, g2, g3⟩ := Dictionary.step_keyed d op ks h1 h2 h3
    exact ih (d.step op) ks1 g1 g2 g3

/-- Claim C27. In every state reached from a new `Dictionary` by a sequence of `set` and
`del` calls, `size()` is the number of distinct keys `k` with `has(k)` true; it is 0 for a
new dictionary, `set` adds one exactly when the key was absent and `del` takes one off
exactly when the key was present. -/
theorem Dictionary_size_invariant {V : Type} (ops : List (Dictionary.Op V)) :
    (Dictionary.new : Dictionary V).size = 0 ∧
    (∃ ks : List String, ks.Nodup ∧
      (∀ k, (Dictionary.run ops).has k = true ↔ k ∈ ks) ∧
      (Dictionary.run ops).size = ks.length) ∧
    (∀ k v, ((Dictionary.run ops).set k v).size =
      if (Dictionary.run ops).has k then (Dictionary.run ops).size
      else (Dictionary.run ops).size + 1) ∧
    (∀ k, ((Dictionary.run ops).del k).size =
      if (Dictionary.run ops).has k then (Dictionary.run ops).size - 1
      else (Dictionary.run ops).size) := by
  refine ⟨rfl, ?_, ?_, ?_⟩
  · obtain ⟨ks, h1, h2, h3⟩ :=
      Dictionary.foldl_keyed ops (Dictionary.new : Dictionary V) [] List.nodup_nil rfl rfl
    refine ⟨ks, h1, ?_, h3⟩
    intro k
    rw [Dictionary.has, Dictionary.isSome_lookup_iff]
    show Dictionary.name k ∈ (List.foldl Dictionary.step Dictionary.new ops)._values.map
      Prod.fst ↔ k ∈ ks
    rw [h2, Dictionary.mem_names_iff]
  · intro k v
    cases hh : (Dictionary.run ops).has k <;> simp [Dictionary.set, Dictionary.size, hh]
  · intro k
    cases hh : (Dictionary.run ops).has k <;> simp [Dictionary.del, Dictionary.size, hh]

/-- Claim C29. A new `Dictionary` has no key at all: for every string `k`, the names of
the members that objects inherit included, `has(k)` is false and `get(k)` is `undefined`;
`k` can be set, looked up and deleted like any key, and the property name `"$" + k` that
holds it is never the name of an inherited member. -/
theorem Dictionary_no_inherited_keys {V : Type} (k : String) (v : V) :
    (Dictionary.new : Dictionary V).has k = false ∧
    (Dictionary.new : Dictionary V).get k = none ∧
    ((Dictionary.new : Dictionary V).set k v).get k = some v ∧
    ((Dictionary.new : Dictionary V).set k v).has k = true ∧
    ((Dictionary.new : Dictionary V).set k v).size = 1 ∧
    (((Dictionary.new : Dictionary V).set k v).del k).has k = false ∧
    (((Dictionary.new : Dictionary V).set k v).del k).get k = none ∧
    (((Dictionary.new : Dictionary V).set k v).del k).size = 0 ∧
    Dictionary.name k ∉ ObjectPrototype.names := by
  have hset : ((Dictionary.new : Dictionary V).set k v) = ⟨[(Dictionary.name k, v)], 1⟩ := rfl
  have hhas : ((Dictionary.new : Dictionary V).set k v).has k = true := by
    rw [hset]
    simp [Dictionary.has, List.lookup_cons]
  have hdel : (((Dictionary.new : Dictionary V).set k v).del k) = ⟨[], 0⟩ := by
    rw [Dictionary.del, hhas, hset]
    simp
  refine ⟨rfl, rfl, ?_, hhas, rfl, ?_, ?_, ?_, ?_⟩
  · rw [hset]
    simp [Dictionary.get, List.lookup_cons]
  · rw [hdel]
    rfl
  · rw [hdel]
    rfl
  · rw [hdel]
    rfl
  · intro hmem
    have hd : ∀ n ∈ ObjectPrototype.names, n.data.head? ≠ some '$' := by decide
    have := hd _ hmem
    simp [Dictionary.name, String.data_append] at this

/-- Witness for `Dictionary_no_inherited_keys`: the keys `__proto__`, `constructor`, `hasOwnProperty`
and `toString`. -/
theorem Dictionary_no_inherited_keys_witness :
    (Dictionary.new : Dictionary Nat).has "__proto__" = false ∧
    (Dictionary.new : Dictionary Nat).get "__proto__" = none ∧
    ((Dictionary.new : Dictionary Nat).set "__proto__" 1).get "__proto__" = some 1 ∧
    ((((Dictionary.new : Dictionary Nat).set "__proto__" 1).set "constructor" 2).set
      "hasOwnProperty" 3).get "constructor" = some 2 ∧
    (((((Dictionary.new : Dictionary Nat).set "__proto__" 1).set "constructor" 2).set
      "hasOwnProperty" 3).set "toString" 4).size = 4 ∧
    (((((Dictionary.new : Dictionary Nat).set "__proto__" 1).set "constructor" 2).set
      "hasOwnProperty" 3).del "constructor").has "constructor" = false ∧
    (Dictionary.new : Dictionary Nat).has "toString" = false :=
  ⟨(Dictionary_no_inherited_keys "__proto__" 1).1, (Dictionary_no_inherited_keys "__proto__" 1).2.1,
    (Dictionary_no_inherited_keys "__proto__" 1).2.2.1, by decide, by decide, by decide,
    (Dictionary_no_inherited_keys "toString" 0).1⟩

/-! ### Edge cases of `from_array`, `makePredicate`, `find_parent`, `MAP` and the constructors -/

theorem loop_ne_nil_of_isSeq (c : Node) (hc : c.isSeq = true) : AST_Seq.to_array.loop c ≠ [] := by
  cases c with
  | Seq a car cdr =>
    cases cdr with
    | none => simp [AST_Seq.to_array.loop]
    | some c2 => cases c2 <;> simp [AST_Seq.to_array.loop]
  | _ => exact absurd hc (by simp [Node.isSeq])

theorem loop_ne_singleton_self (c : Node) (hc : c.isSeq = true) :
    AST_Seq.to_array.loop c ≠ [c] := by
  cases c with
  | Seq a car cdr =>
    cases cdr with
    | none =>
      intro h
      simp only [AST_Seq.to_array.loop, List.cons.injEq, and_true] at h
      have := congrArg sizeOf h
      simp at this
      omega
    | some c2 =>
      intro h
      have hlen := congrArg List.length h
      cases c2 with
      | Seq a2 car2 cdr2 =>
        rw [loop_seq_seq] at hlen
        have := loop_ne_nil_of_isSeq (.Seq a2 car2 cdr2) rfl
        cases hl : AST_Seq.to_array.loop (.Seq a2 car2 cdr2) with
        | nil => exact this hl
        | cons x xs => rw [hl] at hlen; simp at hlen
      | _ => simp [AST_Seq.to_array.loop] at hlen
  | _ => exact absurd hc (by simp [Node.isSeq])

/-- Claim C34. For a list `L` of at least two nodes whose last element is a `Seq` chain
`c`, `AST_Seq.from_array(L).to_array()` is `L` without its last element followed by
`c.to_array()`: the trailing chain is flattened, the elements before it are returned as
they are, and the result is not `L`. -/
theorem seq_trailing_chain_flattened (alloc : Nat) (L : List Node) (c : Node)
    (h2 : 2 ≤ L.length) (hc : L.getLast? = some c) (hseq : c.isSeq = true) :
    c.to_array = some (AST_Seq.to_array.loop c) ∧
    (AST_Seq.from_array alloc L).bind Node.to_array =
      some (L.dropLast ++ AST_Seq.to_array.loop c) ∧
    (AST_Seq.from_array alloc L).bind Node.to_array ≠ some L := by
  have hmain : (AST_Seq.from_array alloc L).bind Node.to_array =
      some (L.dropLast ++ AST_Seq.to_array.loop c) := by
    match L, h2, hc with
    | e1 :: e2 :: rest, _, hc =>
      have hl : (e2 :: rest).getLast (List.cons_ne_nil _ _) = c := by
        simpa [List.getLast?_cons_cons, List.getLast?_eq_getLast] using hc
      rw [from_array_eq_chain, Option.some_bind, Node.to_array, chain_isSeq, if_pos rfl,
        to_array_chain, hl, hseq]
      rfl
  refine ⟨by simp [Node.to_array, hseq], hmain, ?_⟩
  rw [hmain]
  intro h
  have hL : L = L.dropLast ++ [c] := by
    have hne : L ≠ [] := by
      intro h0
      rw [h0] at h2
      simp at h2
    rw [List.getLast?_eq_getLast _ hne] at hc
    have := List.dropLast_append_getLast hne
    rw [Option.some.inj hc] at this
    exact this.symm
  have h3 : L.dropLast ++ AST_Seq.to_array.loop c = L.dropLast ++ [c] := by
    rw [← hL]
    exact Option.some.inj h
  exact loop_ne_singleton_self c hseq (List.append_cancel_left h3)

/-- Witness for `seq_trailing_chain_flattened`: `[a, (p, q)]` flattens to `[a, p, q]`, and
in `[(p, q), a]` the chain in first position is returned as it is. -/
theorem seq_trailing_chain_flattened_witness :
    (AST_Seq.from_array 100 [Sample.sym 1 "a", Sample.pq]).bind Node.to_array =
      some ([Sample.sym 1 "a", Sample.pq].dropLast ++ AST_Seq.to_array.loop Sample.pq) ∧
    (AST_Seq.from_array 100 [Sample.sym 1 "a", Sample.pq]).bind Node.to_array =
      some [Sample.sym 1 "a", Sample.sym 21 "p", Sample.sym 22 "q"] ∧
    (AST_Seq.from_array 100 [Sample.pq, Sample.sym 1 "a"]).bind Node.to_array =
      some [Sample.pq, Sample.sym 1 "a"] :=
  ⟨(seq_trailing_chain_flattened 100 [Sample.sym 1 "a", Sample.pq] Sample.pq (by decide) rfl
      rfl).2.1, rfl, rfl⟩

/-- Claim C35. For a word set that `makePredicate` accepts: with more than three distinct
word lengths the generated predicate returns `undefined`, which is falsy and is not the
boolean `false`, for every string whose length is no word's length; with at most three
distinct lengths it returns a boolean for every string. -/
theorem makePredicate_undefined_off_length (sort : List (List String) → List (List String))
    (hsort : ∀ l, (sort l).Perm l) (words : Words) (hne : words ≠ .array []) :
    ∃ p, makePredicate sort words = some p ∧
      (3 < (words.toList.map String.length).dedup.length →
        ∀ s, s.length ∉ words.toList.map String.length →
          p s = .undefined ∧ (p s).truthy = false ∧ p s ≠ .bool false) ∧
      ((words.toList.map String.length).dedup.length ≤ 3 → ∀ s, ∃ b, p s = .bool b) := by
  have hws := toList_ne_nil words hne
  have hparse := (body_call sort hsort words.toList hws "").1
  refine ⟨fun str => (makePredicate.body sort words.toList).call str, ?_, ?_, ?_⟩
  · simp [makePredicate, hparse]
  · intro h3 s hl
    have hu := ((body_call sort hsort words.toList hws s).2.2 h3 hl).1
    show (makePredicate.body sort words.toList).call s = .undefined ∧
      ((makePredicate.body sort words.toList).call s).truthy = false ∧
      (makePredicate.body sort words.toList).call s ≠ .bool false
    rw [hu]
    exact ⟨rfl, rfl, by decide⟩
  · intro h3 s
    exact ⟨_, (body_call sort hsort words.toList hws s).2.1 (Or.inl h3)⟩

/-- Witness for `makePredicate_undefined_off_length`: four lengths give `undefined` on a
string of a fifth length, three lengths give `false` on it. -/
theorem makePredicate_undefined_off_length_witness :
    (makePredicate Sample.bySize (.array Sample.fourLengths)).map (fun p => p "zzzzz") =
      some .undefined ∧
    (makePredicate Sample.bySize (.array Sample.threeLengths)).map (fun p => p "zzzzz") =
      some (.bool false) ∧
    ∃ p, makePredicate Sample.bySize (.array Sample.fourLengths) = some p ∧
      (3 < ((Words.array Sample.fourLengths).toList.map String.length).dedup.length →
        ∀ s, s.length ∉ (Words.array Sample.fourLengths).toList.map String.length →
          p s = .undefined ∧ (p s).truthy = false ∧ p s ≠ .bool false) ∧
      (((Words.array Sample.fourLengths).toList.map String.length).dedup.length ≤ 3 →
        ∀ s, ∃ b, p s = .bool b) :=
  ⟨by decide, by decide,
    makePredicate_undefined_off_length Sample.bySize (fun l => List.perm_insertionSort _ l)
      (.array Sample.fourLengths) (by intro h; cases h)⟩

/-- Claim C36. `find_parent(K)` starts at the top of the stack: when the current node is
of kind `K` or of a kind derived from `K`, `find_parent(K)` returns the current node,
whatever nodes enclose it. -/
theorem find_parent_current (w : WalkState) (K : Kind) (cur : Node)
    (hcur : TreeWalker.self w = some cur) (hk : cur.kind.instanceof K = true) :
    find_parent w K = some cur := by
  obtain ⟨stack, calls⟩ := w
  rw [self_eq_getLast?] at hcur
  have hne : stack ≠ [] := by
    intro h0
    rw [h0] at hcur
    simp at hcur
  rw [List.getLast?_eq_getLast _ hne] at hcur
  have hst : stack = stack.dropLast ++ cur :: [] := by
    have := List.dropLast_append_getLast hne
    rw [Option.some.inj hcur] at this
    exact this.symm
  rw [find_parent]
  show scan _ stack stack.length = some cur
  rw [hst]
  exact scan_found _ _ [] cur hk (fun y hy => absurd hy (by simp))

/-- Witness for `find_parent_current`: at the inner loop of `while (x) while (y) ;` the
call `find_parent(AST_While)` returns the inner loop, the current node, and
`find_parent(AST_StatementWithBody)` as well. -/
theorem find_parent_current_witness :
    TreeWalker.self ⟨Sample.nestedWhile, []⟩ =
      some (.DWLoop 3 .While (Sample.sym 4 "y") (.leaf 5 .EmptyStatement "")) ∧
    find_parent ⟨Sample.nestedWhile, []⟩ .While =
      some (.DWLoop 3 .While (Sample.sym 4 "y") (.leaf 5 .EmptyStatement "")) ∧
    find_parent ⟨Sample.nestedWhile, []⟩ .StatementWithBody =
      some (.DWLoop 3 .While (Sample.sym 4 "y") (.leaf 5 .EmptyStatement "")) :=
  ⟨rfl, find_parent_current ⟨Sample.nestedWhile, []⟩ .While _ rfl rfl,
    find_parent_current ⟨Sample.nestedWhile, []⟩ .StatementWithBody _ rfl rfl⟩

/-- Claim C37. When `f` returns `MAP.at_top(MAP.skip)` for an element (and no `Last`
stops the loop), `MAP` does not drop the element: the sentinel `MAP.skip` itself is
appended to the leading segment of the result, after what the earlier elements hoist and
before what the later ones hoist, whereas a result `MAP.skip` adds nothing. -/
theorem MAP_at_top_skip {α β : Type} (a : List α) (f : α → Nat → MapVal β)
    (backwards : Bool) (h : ∀ i x, a[i]? = some x → (f x i).isLast = false)
    (pre post : List α) (x : α) (ha : a = pre ++ x :: post)
    (hx : f x pre.length = .at_top .skip) :
    MAP a f backwards =
      ((MAP.results pre f).flatMap MapVal.topPart ++ [MapVal.skip] ++
        ((MAP.results a f).drop (pre.length + 1)).flatMap MapVal.topPart) ++
      (MAP.results a f).flatMap MapVal.retPart ∧
    (f x pre.length).retPart = [] ∧
    (MapVal.skip : MapVal β).topPart = [] ∧ (MapVal.skip : MapVal β).retPart = [] := by
  have hmap : MAP a f backwards =
      (MAP.results a f).flatMap MapVal.topPart ++ (MAP.results a f).flatMap MapVal.retPart := by
    cases backwards
    · exact map_forward_of_not_last a f h
    · exact map_backward_of_not_last a f h
  have hres : MAP.results a f = MAP.results pre f ++ f x pre.length ::
      ((List.enumFrom (pre.length + 1) post).map fun p => f p.2 p.1) := by
    rw [ha]
    simp only [MAP.results, List.enum_append, List.map_append, List.enumFrom_cons,
      List.map_cons]
  have hdrop : (MAP.results a f).drop (pre.length + 1) =
      (List.enumFrom (pre.length + 1) post).map fun p => f p.2 p.1 := by
    rw [hres, show MAP.results pre f ++ f x pre.length ::
        ((List.enumFrom (pre.length + 1) post).map fun p => f p.2 p.1) =
      (MAP.results pre f ++ [f x pre.length]) ++
        ((List.enumFrom (pre.length + 1) post).map fun p => f p.2 p.1) by simp]
    exact List.drop_left' (by simp [MAP.results])
  have hsplit : MAP.results a f =
      MAP.results pre f ++ f x pre.length :: (MAP.results a f).drop (pre.length + 1) := by
    rw [hdrop]
    exact hres
  refine ⟨?_, by rw [hx]; rfl, rfl, rfl⟩
  rw [hmap]
  congr 1
  conv_lhs => rw [hsplit]
  rw [List.flatMap_append, List.flatMap_cons, hx]
  simp [MapVal.topPart, MapVal.hoisted]

/-- Witness for `MAP_at_top_skip`: the sentinel comes first in the result, in both
directions. -/
theorem MAP_at_top_skip_witness :
    MAP [1, 2, 3] Sample.hoistSkip false = [.skip, .plain 1, .plain 3] ∧
    MAP [1, 2, 3] Sample.hoistSkip true = [.skip, .plain 1, .plain 3] ∧
    MAP [1, 2, 3] Sample.hoistSkip false =
      ((MAP.results [1] Sample.hoistSkip).flatMap MapVal.topPart ++ [MapVal.skip] ++
        ((MAP.results [1, 2, 3] Sample.hoistSkip).drop (([1] : List Nat).length + 1)).flatMap
          MapVal.topPart) ++
      (MAP.results [1, 2, 3] Sample.hoistSkip).flatMap MapVal.retPart :=
  ⟨rfl, rfl,
    (MAP_at_top_skip [1, 2, 3] Sample.hoistSkip false
      (by
        intro i x hx
        unfold Sample.hoistSkip
        split <;> rfl)
      [1] [3] 2 rfl rfl).1⟩

/-- Claim C38. For every kind, also one whose constructor calls `initialize` when it gets
an argument, `new K()` (or `new K(p)` with a falsy `p`) skips the whole body of the
generated constructor: no field is copied and `initialize` is not called. -/
theorem construct_without_argument (reg : Registry) (k : Nat) (C : Ctor)
    (hC : reg.ctors[k]? = some C) :
    construct reg k none = some ⟨⟨k, []⟩, []⟩ ∧
    ∀ r, construct reg k none = some r →
      r.trace = [] ∧ r.trace.filter Event.isCall = [] ∧ r.inst.own = [] := by
  have h : construct reg k none = some ⟨⟨k, []⟩, []⟩ := by
    simp only [construct, hC]
  refine ⟨h, ?_⟩
  intro r hr
  rw [h] at hr
  cases hr
  exact ⟨rfl, rfl, rfl⟩

/-- Witness for `construct_without_argument`: the kind `Inner` inherits a hook, which runs
when the constructor gets an argument and does not run without one. -/
theorem construct_without_argument_witness :
    Sample.Inner.callsInitialize = true ∧
    (construct Sample.hookedReg 2 (some Sample.innerProps)).map
      (fun r => r.trace.filter Event.isCall) = some [Event.call (.fn 7)] ∧
    construct Sample.hookedReg 2 none = some ⟨⟨2, []⟩, []⟩ :=
  ⟨rfl, by decide,
    (construct_without_argument Sample.hookedReg 2 Sample.Inner (by decide)).1⟩

/-! ### Default descent of `For` and `ForIn`, and a second descent -/

theorem mem_preorder_of_child {n c m : Node} (hc : c ∈ n.children) (hm : m ∈ c.preorder) :
    m ∈ n.preorder := by
  rw [node_preorder_eq]
  exact List.mem_cons_of_mem _ (List.mem_flatMap.2 ⟨c, hc, hm⟩)

theorem mem_preorder_self (n : Node) : n ∈ n.preorder := by
  rw [node_preorder_eq]
  exact List.mem_cons_self _ _

theorem walk_preorder_local (visit : Callback) (n : Node) :
    (∀ m ∈ n.preorder, ∀ w, ∃ v, (visit w m).quiet = some v ∧ v.truthy = false) →
    n.WellFormed → ∀ w, ∃ w1 v, n._walk visit w = some (w1, v) ∧
      w1.calls.map Prod.fst = w.calls.map Prod.fst ++ n.preorder := by
  induction n using Node.induction_on_children with
  | step n ih =>
    intro hq hwf w
    obtain ⟨v, hv, hfalse⟩ := hq n (mem_preorder_self n) (enter n w)
    rw [walk_unfold, node_preorder_eq]
    unfold Node.descendArg
    cases hd : n.hasDescend with
    | false =>
      obtain ⟨w2, h2, e2⟩ := runScript_quiet noop _ v hv (enter n w)
      refine ⟨pop w2, v, by simp [visit_none, h2], ?_⟩
      simp [pop, e2, enter, children_eq_nil_of_hasDescend_false hd]
    | true =>
      simp only [if_true, hwf.bodyOk_self]
      obtain ⟨w2, h2, e2⟩ := runScript_quiet (walkEach visit n.children) _ v hv (enter n w)
      obtain ⟨w3, h3, e3⟩ :=
        walkEach_preorder visit n.children
          (fun c hc => ih c hc (fun m hm => hq m (mem_preorder_of_child hc hm))
            (hwf.child hc)) w2
      refine ⟨pop w3, v, ?_, ?_⟩
      · rw [visit_some]
        simp [h2, hfalse, h3]
      · simp [pop, e3, e2, enter]

/-- Claim C32. The default descent of a `For` node walks `init`, `condition` and `step`,
each one exactly when it is present, and then the body, in that order; with the three
clauses absent it walks the body only; the walk of a well-formed `For` returns whichever
clauses are absent, and under a callback that returns falsy without descending the nodes
visited are the `For`, the subtrees of the present clauses in that order, and the
subtree of the body. -/
theorem For_default_descent (visit : Callback) (a : Nat) (init condition step : Option Node)
    (body : Node) (w : WalkState) :
    (Node.For a init condition step body)._walk visit w =
      _visit visit (.For a init condition step body)
        (some (walkEach visit (init.toList ++ condition.toList ++ step.toList ++ [body]))) w ∧
    (Node.For a none none none body)._walk visit w =
      _visit visit (.For a none none none body) (some (walkEach visit [body])) w ∧
    ((Node.For a init condition step body).WellFormed →
      ∃ w1 v, (Node.For a init condition step body)._walk visit w = some (w1, v)) ∧
    ((∀ w n, ∃ v, (visit w n).quiet = some v ∧ v.truthy = false) →
      (Node.For a init condition step body).WellFormed →
      ∃ w1 v, (Node.For a init condition step body)._walk visit w = some (w1, v) ∧
        w1.calls.map Prod.fst = w.calls.map Prod.fst ++
          Node.For a init condition step body ::
            (preorderOpt init ++ preorderOpt condition ++ preorderOpt step ++
              body.preorder)) := by
  refine ⟨?_, ?_, ?_, ?_⟩
  · rw [walk_unfold]
    rfl
  · rw [walk_unfold]
    rfl
  · intro hwf
    exact walk_total visit _ hwf w
  · intro hq hwf
    obtain ⟨w1, v, h1, h2⟩ := walk_preorder_aux visit hq _ hwf w
    exact ⟨w1, v, h1, by rw [h2]; rfl⟩

/-- Witness for `For_default_descent`: `for (; c; ) ;`, `for (;;) ;` and `for (i; c; s) ;`
under a callback that returns `undefined`. -/
theorem For_default_descent_witness :
    ((Sample.forCond._walk Sample.falsy Sample.fresh).map
      fun r => r.1.calls.map fun e => e.1.addr) = some [1, 2, 3] ∧
    ((Sample.forBare._walk Sample.falsy Sample.fresh).map
      fun r => r.1.calls.map fun e => e.1.addr) = some [1, 2] ∧
    ((Sample.forFull._walk Sample.falsy Sample.fresh).map
      fun r => r.1.calls.map fun e => e.1.addr) = some [1, 2, 3, 4, 5] ∧
    Sample.forCond._walk Sample.falsy Sample.fresh =
      _visit Sample.falsy Sample.forCond
        (some (walkEach Sample.falsy
          ((none : Option Node).toList ++ (some (Sample.sym 2 "c")).toList ++
            (none : Option Node).toList ++ [.leaf 3 .EmptyStatement ""]))) Sample.fresh :=
  ⟨by decide, by decide, by decide,
    (For_default_descent Sample.falsy 1 none (some (Sample.sym 2 "c")) none
      (.leaf 3 .EmptyStatement "") Sample.fresh).1⟩

/-- Claim C39. The default descent of a `ForIn` node walks `init`, `object` and the body,
in that order, and nothing else: under a callback that returns falsy without descending
the nodes visited are the `ForIn` and the subtrees of these three, so the node of the
`name` field is visited only if it is also part of one of them. -/
theorem ForIn_default_descent (visit : Callback) (a : Nat) (init : Node)
    (name : Option Node) (object body : Node) (w : WalkState) :
    (Node.ForIn a init name object body)._walk visit w =
      _visit visit (.ForIn a init name object body)
        (some (walkEach visit [init, object, body])) w ∧
    ((∀ w n, ∃ v, (visit w n).quiet = some v ∧ v.truthy = false) →
      (Node.ForIn a init name object body).WellFormed →
      ∃ w1 v, (Node.ForIn a init name object body)._walk visit w = some (w1, v) ∧
        w1.calls.map Prod.fst = w.calls.map Prod.fst ++
          Node.ForIn a init name object body ::
            (init.preorder ++ object.preorder ++ body.preorder) ∧
        ∀ x, name = some x → x.addr ≠ a →
          x.addr ∉ (init.preorder ++ object.preorder ++ body.preorder).map Node.addr →
          x.addr ∉ (w1.calls.drop w.calls.length).map fun e => e.1.addr) := by
  refine ⟨?_, ?_⟩
  · rw [walk_unfold]
    rfl
  · intro hq hwf
    obtain ⟨w1, v, h1, h2⟩ := walk_preorder_aux visit hq _ hwf w
    have h3 : w1.calls.map Prod.fst = w.calls.map Prod.fst ++
        Node.ForIn a init name object body ::
          (init.preorder ++ object.preorder ++ body.preorder) := by
      rw [h2]
      rfl
    refine ⟨w1, v, h1, h3, ?_⟩
    intro x _ hxa hx
    have h4 : (w1.calls.drop w.calls.length).map Prod.fst =
        Node.ForIn a init name object body ::
          (init.preorder ++ object.preorder ++ body.preorder) := by
      rw [List.map_drop, h3]
      exact List.drop_left' (by simp)
    have h5 : ((w1.calls.drop w.calls.length).map fun e => e.1.addr) =
        ((w1.calls.drop w.calls.length).map Prod.fst).map Node.addr := by
      rw [List.map_map]
      rfl
    rw [h5, h4, List.map_cons, List.mem_cons]
    rintro (h | h)
    · exact hxa h
    · exact hx h

/-- Witness for `ForIn_default_descent`: in `for (var k in o) ;` the node 9 of the `name`
field is not visited. -/
theorem ForIn_default_descent_witness :
    ((Sample.forIn._walk Sample.falsy Sample.fresh).map
      fun r => r.1.calls.map fun e => e.1.addr) = some [1, 2, 3, 4, 5, 6] ∧
    Sample.forIn._walk Sample.falsy Sample.fresh =
      _visit Sample.falsy Sample.forIn
        (some (walkEach Sample.falsy
          [.Definitions 2 .Var [.VarDef 3 (.leaf 4 .SymbolVar "k") none], Sample.sym 5 "o",
            .leaf 6 .EmptyStatement ""])) Sample.fresh :=
  ⟨by decide,
    (ForIn_default_descent Sample.falsy 1 _ (some (Sample.sym 9 "k")) _ _ Sample.fresh).1⟩

/-- Claim C33. When the callback on a node `n` with children calls `descend()` once and
then returns `v`, `_visit` runs the default descent once more exactly when `v` is falsy:
with a callback that is quiet on the descendants, the nodes visited are `n` followed by
the subtrees of its children twice over for a falsy `v`, and once for a truthy `v`. -/
theorem visit_descends_twice (visit : Callback) (n : Node) (w : WalkState) (v : JSValue)
    (hn : visit (enter n w) n = .descend fun _ => .ret v) (hc : n.children ≠ [])
    (hwf : n.WellFormed)
    (hq : ∀ c ∈ n.children, ∀ m ∈ c.preorder, ∀ w,
      ∃ u, (visit w m).quiet = some u ∧ u.truthy = false) :
    (∀ d : WalkState → Option WalkState, _visit visit n (some d) w =
      (d (enter n w)).bind fun w2 =>
        (if v.truthy then some w2 else d w2).map fun w3 => (pop w3, v)) ∧
    ∃ w1, n._walk visit w = some (w1, v) ∧
      w1.calls.map Prod.fst = w.calls.map Prod.fst ++ [n] ++
        n.children.flatMap Node.preorder ++
        (if v.truthy then [] else n.children.flatMap Node.preorder) := by
  have hvisit : ∀ d : WalkState → Option WalkState, _visit visit n (some d) w =
      (d (enter n w)).bind fun w2 =>
        (if v.truthy then some w2 else d w2).map fun w3 => (pop w3, v) := by
    intro d
    rw [visit_some, hn]
    simp only [runScript]
    cases d (enter n w) with
    | none => rfl
    | some w2 => rfl
  refine ⟨hvisit, ?_⟩
  have hd : n.hasDescend = true := by
    cases h : n.hasDescend with
    | true => rfl
    | false => exact absurd (children_eq_nil_of_hasDescend_false h) hc
  have hchildren : ∀ w0, ∃ w1, walkEach visit n.children w0 = some w1 ∧
      w1.calls.map Prod.fst = w0.calls.map Prod.fst ++ n.children.flatMap Node.preorder :=
    fun w0 => walkEach_preorder visit n.children
      (fun c hcm => walk_preorder_local visit c (hq c hcm) (hwf.child hcm)) w0
  rw [walk_unfold]
  unfold Node.descendArg
  simp only [hd, if_true, hwf.bodyOk_self]
  rw [hvisit]
  obtain ⟨w2, h2, e2⟩ := hchildren (enter n w)
  rw [h2]
  simp only [Option.some_bind]
  cases hv : v.truthy with
  | true =>
    refine ⟨pop w2, by simp, ?_⟩
    simp [pop, e2, enter]
  | false =>
    obtain ⟨w3, h3, e3⟩ := hchildren w2
    refine ⟨pop w3, by simp [h3], ?_⟩
    simp [pop, e3, e2, enter]

/-- Witness for `visit_descends_twice`: on `{ x; ; }` a callback that descends once at the
block and returns `undefined` sees the three descendants twice, and once when it returns
`true`. -/
theorem visit_descends_twice_witness :
    ((Sample.block._walk (Sample.descendOnce 2 .undefined) Sample.fresh).map
      fun r => r.1.calls.map fun e => e.1.addr) = some [2, 3, 4, 5, 3, 4, 5] ∧
    ((Sample.block._walk (Sample.descendOnce 2 (.bool true)) Sample.fresh).map
      fun r => r.1.calls.map fun e => e.1.addr) = some [2, 3, 4, 5] ∧
    ∃ w1, Sample.block._walk (Sample.descendOnce 2 .undefined) Sample.fresh =
        some (w1, .undefined) ∧
      w1.calls.map Prod.fst = Sample.fresh.calls.map Prod.fst ++ [Sample.block] ++
        Sample.block.children.flatMap Node.preorder ++
        (if JSValue.undefined.truthy then []
          else Sample.block.children.flatMap Node.preorder) :=
  ⟨by decide, by decide,
    (visit_descends_twice (Sample.descendOnce 2 .undefined) Sample.block Sample.fresh
      .undefined rfl (by simp [Sample.block, Node.children, Body.nodes]) (by decide)
      (by
        intro c hc m hm w
        have hne : m.addr ≠ 2 := by
          simp only [Sample.block, Node.children, Body.nodes, List.mem_cons,
            List.mem_singleton, List.not_mem_nil, or_false] at hc
          rcases hc with rfl | rfl
          · simp only [Node.preorder, Sample.sym, List.mem_cons, List.mem_singleton,
              List.not_mem_nil, or_false] at hm
            rcases hm with rfl | rfl <;> decide
          · simp only [Node.preorder, List.mem_singleton] at hm
            subst hm
            decide
        exact ⟨.undefined, by simp [Sample.descendOnce, hne, Script.quiet], rfl⟩)).2⟩

/-! ### defaults -/

theorem assign_eq_write {V : Type} (o : Obj V) (k : String) (v : V) :
    Obj.assign o k v = Dictionary.write o k v := by
  induction o with
  | nil => rfl
  | cons e rest ih =>
    obtain ⟨m, u⟩ := e
    rw [Obj.assign, Dictionary.write, ih]

theorem lookup_assign_self {V : Type} (o : Obj V) (k : String) (v : V) :
    (Obj.assign o k v).lookup k = some v := by
  rw [assign_eq_write]
  exact Dictionary.lookup_write_self o k v

theorem lookup_assign_other {V : Type} (o : Obj V) (k k2 : String) (v : V) (h : k2 ≠ k) :
    (Obj.assign o k v).lookup k2 = o.lookup k2 := by
  rw [assign_eq_write]
  exact Dictionary.lookup_write_other o k k2 v h

theorem assign_same {V : Type} (o : Obj V) (k : String) (v : V) (h : o.lookup k = some v) :
    Obj.assign o k v = o := by
  induction o with
  | nil => simp at h
  | cons e rest ih =>
    obtain ⟨m, u⟩ := e
    rw [Obj.assign]
    by_cases hm : m = k
    · subst hm
      rw [if_pos rfl]
      simp only [List.lookup_cons, beq_self_eq_true, Option.some.injEq] at h
      rw [h]
    · have hne : (k == m) = false := by simpa using fun hh => hm hh.symm
      rw [List.lookup_cons, hne] at h
      rw [if_neg hm, ih h]

theorem assign_new {V : Type} (o : Obj V) (k : String) (v : V) (h : o.lookup k = none) :
    Obj.assign o k v = o ++ [(k, v)] := by
  induction o with
  | nil => rfl
  | cons e rest ih =>
    obtain ⟨m, u⟩ := e
    rw [Obj.assign]
    by_cases hm : m = k
    · subst hm
      simp [List.lookup_cons] at h
    · have hne : (k == m) = false := by simpa using fun hh => hm hh.symm
      rw [List.lookup_cons, hne] at h
      rw [if_neg hm, ih h]
      rfl

theorem lookup_of_mem_nodup {V : Type} (o : Obj V) (hnd : (o.map Prod.fst).Nodup)
    (e : String × V) (he : e ∈ o) : o.lookup e.1 = some e.2 := by
  induction o with
  | nil => simp at he
  | cons x rest ih =>
    obtain ⟨m, u⟩ := x
    simp only [List.map_cons, List.nodup_cons] at hnd
    rcases List.mem_cons.1 he with rfl | hr
    · simp [List.lookup_cons]
    · have hne : e.1 ≠ m := by
        intro h
        exact hnd.1 (h ▸ List.mem_map_of_mem Prod.fst hr)
      have hb : (e.1 == m) = false := by simpa using hne
      rw [List.lookup_cons, hb]
      exact ih hnd.2 hr

theorem read_set_self {V : Type} (store : List (Obj V)) (r : Nat) (o : Obj V)
    (hr : r < store.length) : defaults.read (store.set r o) r = o := by
  simp [defaults.read, List.getD_eq_getElem?_getD, hr]

theorem read_set_other {V : Type} (store : List (Obj V)) (r d : Nat) (o : Obj V)
    (h : r ≠ d) : defaults.read (store.set r o) d = defaults.read store d := by
  simp [defaults.read, List.getD_eq_getElem?_getD, List.getElem?_set_ne h]

theorem set_read_self {V : Type} (store : List (Obj V)) (r : Nat) (hr : r < store.length) :
    store.set r (defaults.read store r) = store := by
  apply List.ext_getElem?
  intro i
  by_cases hi : r = i
  · subst hi
    simp [defaults.read, List.getD_eq_getElem?_getD, hr]
  · rw [List.getElem?_set_ne hi]

theorem read_append_left {V : Type} (store : List (Obj V)) (o : Obj V) (d : Nat)
    (hd : d < store.length) : defaults.read (store ++ [o]) d = defaults.read store d := by
  simp [defaults.read, List.getD_eq_getElem?_getD, List.getElem?_append_left hd]

theorem read_append_new {V : Type} (store : List (Obj V)) (o : Obj V) :
    defaults.read (store ++ [o]) store.length = o := by
  simp [defaults.read, List.getD_eq_getElem?_getD]

theorem hasOwnProperty_plain {V : Type} [Values V] (o : Obj V)
    (h : o.owns "hasOwnProperty" = false) (k : String) :
    o.hasOwnProperty k = some (o.owns k) := by
  have hl : o.lookup "hasOwnProperty" = none := by
    simp only [Obj.owns] at h
    cases hl : o.lookup "hasOwnProperty" with
    | none => rfl
    | some v => rw [hl] at h; cases h
  simp only [Obj.hasOwnProperty, hl]

theorem owns_iff_mem {V : Type} (o : Obj V) (k : String) :
    o.owns k = true ↔ k ∈ o.map Prod.fst :=
  Dictionary.isSome_lookup_iff o k

theorem get_of_lookup {V : Type} [Values V] (o : Obj V) (k : String) (v : V)
    (h : o.lookup k = some v) : o.get k = v := by
  simp only [Obj.get, h, Option.getD_some]

theorem lookup_get_of_owns {V : Type} [Values V] (o : Obj V) (k : String)
    (h : o.owns k = true) : o.lookup k = some (o.get k) := by
  simp only [Obj.owns] at h
  cases hl : o.lookup k with
  | none => rw [hl] at h; cases h
  | some v => rw [get_of_lookup o k v hl]

theorem check_some {V : Type} [Values V] (ret defs : Obj V) (keys : List String) (i : String)
    (h : defaults.check ret defs keys = some (some i)) :
    i ∈ keys ∧ ret.hasOwnProperty i = some true ∧ defs.hasOwnProperty i = some false := by
  induction keys with
  | nil => simp [defaults.check] at h
  | cons j keys ih =>
    rw [defaults.check] at h
    cases h1 : ret.hasOwnProperty j with
    | none => rw [h1] at h; simp at h
    | some b =>
      rw [h1] at h
      cases b with
      | false =>
        simp only at h
        obtain ⟨m, hr, hd⟩ := ih h
        exact ⟨List.mem_cons_of_mem _ m, hr, hd⟩
      | true =>
        simp only at h
        cases h2 : defs.hasOwnProperty j with
        | none => rw [h2] at h; simp at h
        | some c =>
          rw [h2] at h
          cases c with
          | false =>
            simp only [Option.some.injEq] at h
            subst h
            exact ⟨List.mem_cons_self _ _, h1, h2⟩
          | true =>
            simp only at h
            obtain ⟨m, hr, hd⟩ := ih h
            exact ⟨List.mem_cons_of_mem _ m, hr, hd⟩

theorem check_plain {V : Type} [Values V] (ret defs : Obj V)
    (hr : ret.owns "hasOwnProperty" = false) (hd : defs.owns "hasOwnProperty" = false)
    (keys : List String) :
    defaults.check ret defs keys =
      some (keys.find? fun i => ret.owns i && !defs.owns i) := by
  induction keys with
  | nil => rfl
  | cons i keys ih =>
    rw [defaults.check, hasOwnProperty_plain ret hr, hasOwnProperty_plain defs hd,
      List.find?_cons]
    cases h1 : ret.owns i <;> cases h2 : defs.owns i <;> simp [ih]

theorem unsupported_nil {V : Type} [Values V] (defs : Obj V) (croak : Bool) :
    defaults.unsupported ([] : Obj V) defs croak = some none := by
  cases croak <;> rfl

theorem set_of_length_le {V : Type} (store : List (Obj V)) (r : Nat) (o : Obj V)
    (h : store.length ≤ r) : store.set r o = store := by
  apply List.ext_getElem?
  intro i
  by_cases hi : r = i
  · subst hi
    simp [List.getElem?_eq_none h, h]
  · rw [List.getElem?_set_ne hi]

theorem read_write_other {V : Type} (store : List (Obj V)) (r x : Nat) (i : String) (v : V)
    (h : x ≠ r) : defaults.read (defaults.write store r i v) x = defaults.read store x :=
  read_set_other store r x _ (fun e => h e.symm)

theorem read_write_self {V : Type} (store : List (Obj V)) (r : Nat) (i : String) (v : V)
    (h : r < store.length) :
    defaults.read (defaults.write store r i v) r = Obj.assign (defaults.read store r) i v :=
  read_set_self store r _ h

theorem write_of_length_le {V : Type} (store : List (Obj V)) (r : Nat) (i : String) (v : V)
    (h : store.length ≤ r) : defaults.write store r i v = store :=
  set_of_length_le store r _ h

theorem write_same {V : Type} (store : List (Obj V)) (r : Nat) (i : String) (v : V)
    (h : (defaults.read store r).lookup i = some v) : defaults.write store r i v = store := by
  rcases Nat.lt_or_ge r store.length with hr | hr
  · rw [defaults.write, assign_same _ i v h]
    exact set_read_self store r hr
  · exact write_of_length_le store r i v hr

theorem owns_write {V : Type} (store : List (Obj V)) (r x : Nat) (i k : String) (v : V)
    (h : k ≠ i) :
    (defaults.read (defaults.write store r i v) x).owns k = (defaults.read store x).owns k := by
  by_cases hx : x = r
  · subst hx
    rcases Nat.lt_or_ge x store.length with hr | hr
    · rw [read_write_self store x i v hr, Obj.owns, Obj.owns, lookup_assign_other _ i k v h]
    · rw [write_of_length_le store x i v hr]
  · rw [read_write_other store r x i v hx]
theorem fillLoop_cons_none {V : Type} [Values V] (r d : Nat) (i : String)
    (keys : List String) (store : List (Obj V))
    (hd : (defaults.read store d).owns "hasOwnProperty" = false) :
    defaults.fillLoop none r d (i :: keys) store =
      if (defaults.read store d).owns i = true then
        defaults.fillLoop none r d keys
          (defaults.write store r i ((defaults.read store d).get i))
      else defaults.fillLoop none r d keys store := by
  simp only [defaults.fillLoop, hasOwnProperty_plain _ hd]
  cases h1 : (defaults.read store d).owns i <;> simp

theorem fillLoop_cons_some {V : Type} [Values V] (a r d : Nat) (i : String)
    (keys : List String) (store : List (Obj V))
    (hd : (defaults.read store d).owns "hasOwnProperty" = false)
    (ha : (defaults.read store a).owns "hasOwnProperty" = false) :
    defaults.fillLoop (some a) r d (i :: keys) store =
      if (defaults.read store d).owns i = true then
        defaults.fillLoop (some a) r d keys (defaults.write store r i
          (if (defaults.read store a).owns i = true then (defaults.read store a).get i
            else (defaults.read store d).get i))
      else defaults.fillLoop (some a) r d keys store := by
  simp only [defaults.fillLoop, hasOwnProperty_plain _ hd, hasOwnProperty_plain _ ha]
  cases h1 : (defaults.read store d).owns i
  · simp
  · cases h2 : (defaults.read store a).owns i <;> simp

theorem fillLoop_plain {V : Type} [Values V] (args : Option Nat) (r d : Nat)
    (keys : List String) (hkeys : "hasOwnProperty" ∉ keys) :
    ∀ store : List (Obj V),
      (defaults.read store d).owns "hasOwnProperty" = false →
      (∀ a, args = some a → (defaults.read store a).owns "hasOwnProperty" = false) →
      ∃ store1, defaults.fillLoop args r d keys store = (store1, true) ∧
        store1.length = store.length ∧
        ∀ x, x ≠ r → defaults.read store1 x = defaults.read store x := by
  induction keys with
  | nil =>
    intro store _ _
    exact ⟨store, by cases args <;> rfl, rfl, fun _ _ => rfl⟩
  | cons i keys ih =>
    intro store hd ha
    have hi : "hasOwnProperty" ≠ i := fun e => hkeys (e ▸ List.mem_cons_self _ _)
    have hk : "hasOwnProperty" ∉ keys := fun m => hkeys (List.mem_cons_of_mem _ m)
    have step : ∀ v, ∃ store1,
        defaults.fillLoop args r d keys (defaults.write store r i v) = (store1, true) ∧
        store1.length = store.length ∧
        ∀ x, x ≠ r → defaults.read store1 x = defaults.read store x := by
      intro v
      obtain ⟨store1, h1, h2, h3⟩ := ih hk (defaults.write store r i v)
        (by rw [owns_write _ _ _ _ _ _ hi]; exact hd)
        (fun a e => by rw [owns_write _ _ _ _ _ _ hi]; exact ha a e)
      refine ⟨store1, h1, by rw [h2]; simp [defaults.write], ?_⟩
      intro x hx
      rw [h3 x hx, read_write_other _ _ _ _ _ hx]
    cases args with
    | none =>
      rw [fillLoop_cons_none r d i keys store hd]
      split
      · exact step _
      · exact ih hk store hd ha
    | some a =>
      rw [fillLoop_cons_some a r d i keys store hd (ha a rfl)]
      split
      · exact step _
      · exact ih hk store hd ha

theorem fillLoop_same {V : Type} [Values V] (d : Nat) (keys : List String)
    (store : List (Obj V)) (hd : (defaults.read store d).owns "hasOwnProperty" = false) :
    defaults.fillLoop (some d) d d keys store = (store, true) := by
  induction keys with
  | nil => rfl
  | cons i keys ih =>
    rw [fillLoop_cons_some d d d i keys store hd hd]
    by_cases h1 : (defaults.read store d).owns i = true
    · rw [if_pos h1, if_pos h1, write_same store d i _ (lookup_get_of_owns _ i h1)]
      exact ih
    · rw [if_neg h1]
      exact ih

theorem fillLoop_lookup {V : Type} [Values V] (r d : Nat) (hrd : r ≠ d) (keys : List String)
    (hkeys : "hasOwnProperty" ∉ keys) (k : String) :
    ∀ store : List (Obj V), r < store.length →
      (defaults.read store d).owns "hasOwnProperty" = false →
      (defaults.read store r).owns "hasOwnProperty" = false →
      (defaults.read (defaults.fillLoop (some r) r d keys store).1 r).lookup k =
        match (defaults.read store r).lookup k with
        | some v => some v
        | none => if k ∈ keys then (defaults.read store d).lookup k else none := by
  induction keys with
  | nil =>
    intro store _ _ _
    simp only [defaults.fillLoop, List.not_mem_nil, if_false]
    cases (defaults.read store r).lookup k <;> rfl
  | cons i keys ih =>
    intro store hr hd hpr
    have hi : "hasOwnProperty" ≠ i := fun e => hkeys (e ▸ List.mem_cons_self _ _)
    have hk : "hasOwnProperty" ∉ keys := fun m => hkeys (List.mem_cons_of_mem _ m)
    rw [fillLoop_cons_some r r d i keys store hd hpr]
    by_cases h1 : (defaults.read store d).owns i = true
    · rw [if_pos h1]
      generalize hv : (if (defaults.read store r).owns i = true then (defaults.read store r).get i
          else (defaults.read store d).get i) = v
      rw [ih hk (defaults.write store r i v) (by simpa [defaults.write] using hr)
        (by rw [owns_write _ _ _ _ _ _ hi]; exact hd)
        (by rw [owns_write _ _ _ _ _ _ hi]; exact hpr),
        read_write_other store r d i v (Ne.symm hrd), read_write_self store r i v hr]
      by_cases hki : k = i
      · subst hki
        rw [lookup_assign_self]
        simp only
        by_cases h2 : (defaults.read store r).owns k = true
        · rw [if_pos h2] at hv
          rw [lookup_get_of_owns _ k h2, hv]
        · rw [if_neg h2] at hv
          have hn : (defaults.read store r).lookup k = none := by
            simp only [Obj.owns] at h2
            cases hl : (defaults.read store r).lookup k with
            | none => rfl
            | some u => rw [hl] at h2; exact absurd rfl h2
          rw [hn]
          simp only [List.mem_cons, true_or, if_true]
          rw [lookup_get_of_owns _ k h1, hv]
      · rw [lookup_assign_other _ i k v hki]
        simp only [List.mem_cons, hki, false_or]
    · rw [if_neg h1, ih hk store hr hd hpr]
      cases (defaults.read store r).lookup k with
      | some u => rfl
      | none =>
        simp only
        by_cases hki : k = i
        · subst hki
          have hn : (defaults.read store d).lookup k = none := by
            simp only [Obj.owns] at h1
            cases hl : (defaults.read store d).lookup k with
            | none => rfl
            | some u => rw [hl] at h1; exact absurd rfl h1
          simp [hn]
        · simp only [List.mem_cons, hki, false_or]

theorem fillLoop_append {V : Type} [Values V] (args : Option Nat) (r d : Nat) (hrd : r ≠ d)
    (hargs : ∀ a, args = some a → a = r) (es : Obj V) :
    (es.map Prod.fst).Nodup → "hasOwnProperty" ∉ es.map Prod.fst →
    ∀ store : List (Obj V), r < store.length →
      (defaults.read store d).owns "hasOwnProperty" = false →
      (defaults.read store r).owns "hasOwnProperty" = false →
      (∀ e ∈ es, (defaults.read store d).lookup e.1 = some e.2) →
      (∀ e ∈ es, (defaults.read store r).lookup e.1 = none) →
      defaults.read (defaults.fillLoop args r d (es.map Prod.fst) store).1 r =
        defaults.read store r ++ es := by
  induction es with
  | nil =>
    intro _ _ store _ _ _ _ _
    cases args <;> simp [defaults.fillLoop]
  | cons e rest ih =>
    intro hnd hkeys store hr hd hpr hD hR
    obtain ⟨k0, v0⟩ := e
    simp only [List.map_cons, List.nodup_cons] at hnd
    have hi : "hasOwnProperty" ≠ k0 := fun e => hkeys (e ▸ List.mem_cons_self _ _)
    have hk : "hasOwnProperty" ∉ rest.map Prod.fst := fun m => hkeys (List.mem_cons_of_mem _ m)
    have hd0 : (defaults.read store d).lookup k0 = some v0 := hD (k0, v0) (List.mem_cons_self _ _)
    have hr0 : (defaults.read store r).lookup k0 = none := hR (k0, v0) (List.mem_cons_self _ _)
    have h1 : (defaults.read store d).owns k0 = true := by simp [Obj.owns, hd0]
    have h2 : (defaults.read store r).owns k0 = false := by simp [Obj.owns, hr0]
    have hg : (defaults.read store d).get k0 = v0 := get_of_lookup _ _ _ hd0
    have step : defaults.read (defaults.fillLoop args r d (rest.map Prod.fst)
        (defaults.write store r k0 v0)).1 r = defaults.read store r ++ (k0, v0) :: rest := by
      rw [ih hnd.2 hk (defaults.write store r k0 v0) (by simpa [defaults.write] using hr)
        (by rw [owns_write _ _ _ _ _ _ hi]; exact hd)
        (by rw [owns_write _ _ _ _ _ _ hi]; exact hpr)
        (fun e he => by
          rw [read_write_other store r d k0 v0 (Ne.symm hrd)]
          exact hD e (List.mem_cons_of_mem _ he))
        (fun e he => by
          have hne : e.1 ≠ k0 := fun h => hnd.1 (h ▸ List.mem_map_of_mem Prod.fst he)
          rw [read_write_self store r k0 v0 hr, lookup_assign_other _ k0 e.1 v0 hne]
          exact hR e (List.mem_cons_of_mem _ he)),
        read_write_self store r k0 v0 hr, assign_new _ k0 v0 hr0]
      simp
    cases args with
    | none =>
      rw [List.map_cons, fillLoop_cons_none r d k0 _ store hd, if_pos h1, hg]
      exact step
    | some a =>
      have := hargs a rfl
      subst this
      rw [List.map_cons, fillLoop_cons_some a a d k0 _ store hd hpr, if_pos h1]
      simp only [h2, Bool.false_eq_true, if_false]
      rw [hg]
      exact step
theorem run_obj {V : Type} [Values V] (store : List (Obj V)) (a d : Nat) (croak : Bool) :
    defaults.run store (.obj a) d croak =
      match defaults.unsupported (defaults.read store a) (defaults.read store d) croak with
      | none => (store, .typeError)
      | some (some i) => (store, .error ⟨"`" ++ i ++ "` is not a supported option", d⟩)
      | some none =>
        match defaults.fillLoop (some a) a d ((defaults.read store d).map Prod.fst) store with
        | (s, true) => (s, .ok a)
        | (s, false) => (s, .typeError) := rfl

theorem run_istrue {V : Type} [Values V] (store : List (Obj V)) (d : Nat) (croak : Bool) :
    defaults.run store .istrue d croak =
      match defaults.fillLoop (some store.length) store.length d
          ((defaults.read (store ++ [[]]) d).map Prod.fst) (store ++ [[]]) with
      | (s, true) => (s, .ok store.length)
      | (s, false) => (s, .typeError) := by
  simp only [defaults.run, read_append_new, unsupported_nil]
  try rfl

theorem run_falsy {V : Type} [Values V] (store : List (Obj V)) (d : Nat) (croak : Bool) :
    defaults.run store .falsy d croak =
      match defaults.fillLoop none store.length d
          ((defaults.read (store ++ [[]]) d).map Prod.fst) (store ++ [[]]) with
      | (s, true) => (s, .ok store.length)
      | (s, false) => (s, .typeError) := by
  simp only [defaults.run, read_append_new, unsupported_nil]
  try rfl

theorem finish_ne_error {V : Type} (p : List (Obj V) × Bool) (r : Nat) (s1 : List (Obj V))
    (e : defaults.Thrown) :
    (match p with
      | (s, true) => (s, defaults.Outcome.ok r)
      | (s, false) => (s, defaults.Outcome.typeError)) ≠ (s1, .error e) := by
  obtain ⟨s, b⟩ := p
  cases b <;> simp

theorem unsupported_lenient {V : Type} [Values V] (ret defs : Obj V) :
    defaults.unsupported ret defs false = some none := rfl

theorem unsupported_plain {V : Type} [Values V] (ret defs : Obj V)
    (hr : ret.owns "hasOwnProperty" = false) (hd : defs.owns "hasOwnProperty" = false) :
    defaults.unsupported ret defs true =
      some ((ret.map Prod.fst).find? fun i => ret.owns i && !defs.owns i) := by
  simp only [defaults.unsupported, if_true]
  exact check_plain ret defs hr hd _

theorem read_append_nil {V : Type} (store : List (Obj V)) (d : Nat) (k : String)
    (h : (defaults.read store d).owns k = false) :
    (defaults.read (store ++ [[]]) d).owns k = false := by
  rcases Nat.lt_or_ge d store.length with hd | hd
  · rw [read_append_left store [] d hd]
    exact h
  · have : defaults.read (store ++ [[]]) d = [] := by
      simp only [defaults.read, List.getD_eq_getElem?_getD]
      rw [List.getElem?_append_right hd]
      cases d - store.length <;> rfl
    rw [this]
    rfl

theorem keys_plain {V : Type} (o : Obj V) (h : o.owns "hasOwnProperty" = false) :
    "hasOwnProperty" ∉ o.map Prod.fst := by
  intro hm
  rw [← owns_iff_mem, h] at hm
  cases hm

/-- A call whose `args` is `true` or absent returns when `defs` has no own property
`hasOwnProperty`. -/
theorem run_new_returns {V : Type} [Values V] (store : List (Obj V)) (d : Nat) (croak : Bool)
    (hdefs : (defaults.read store d).owns "hasOwnProperty" = false) :
    (∃ s, defaults.run store .istrue d croak = (s, .ok store.length) ∧
      ∀ x, x ≠ store.length → defaults.read s x = defaults.read (store ++ [[]]) x) ∧
    (∃ s, defaults.run store .falsy d croak = (s, .ok store.length) ∧
      ∀ x, x ≠ store.length → defaults.read s x = defaults.read (store ++ [[]]) x) := by
  have hd2 := read_append_nil store d _ hdefs
  have hn : (defaults.read (store ++ [[]]) store.length).owns "hasOwnProperty" = false := by
    rw [read_append_new]
    rfl
  constructor
  · obtain ⟨s, h1, _, h3⟩ := fillLoop_plain (some store.length) store.length d _
      (keys_plain _ hd2) (store ++ [[]]) hd2 (fun a e => by cases e; exact hn)
    exact ⟨s, by rw [run_istrue, h1], h3⟩
  · obtain ⟨s, h1, _, h3⟩ := fillLoop_plain none store.length d _
      (keys_plain _ hd2) (store ++ [[]]) hd2 (fun a e => by cases e)
    exact ⟨s, by rw [run_falsy, h1], h3⟩

/-- A lenient call returns when neither `args` nor `defs` has an own property
`hasOwnProperty`. -/
theorem run_lenient_returns {V : Type} [Values V] (store : List (Obj V))
    (args : defaults.Ref) (d : Nat)
    (hargs : ∀ a, args = .obj a → (defaults.read store a).owns "hasOwnProperty" = false)
    (hdefs : (defaults.read store d).owns "hasOwnProperty" = false) :
    ∃ s r, defaults.run store args d false = (s, .ok r) := by
  cases args with
  | istrue =>
    obtain ⟨s, h, _⟩ := (run_new_returns store d false hdefs).1
    exact ⟨s, _, h⟩
  | falsy =>
    obtain ⟨s, h, _⟩ := (run_new_returns store d false hdefs).2
    exact ⟨s, _, h⟩
  | obj a =>
    obtain ⟨s, h1, _, _⟩ := fillLoop_plain (some a) a d _ (keys_plain _ hdefs) store hdefs
      (fun b e => by cases e; exact hargs a rfl)
    exact ⟨s, a, by rw [run_obj, unsupported_lenient, h1]⟩

/-- Claim C30, as amended. For `args` and `defs` that have no own property named
`hasOwnProperty`: `defaults(args, defs, croak)` throws a `DefaultsError` exactly when
`croak` is truthy and `args` is an object with an own key that is no own key of `defs`;
the error has `defs` the defaults object and `msg` naming such a key. A call with `croak`
falsy, with `args === true` or with `args` absent does not throw: it returns. -/
theorem defaults_raises {V : Type} [Values V] (store : List (Obj V)) (args : defaults.Ref)
    (d : Nat) (croak : Bool)
    (hargs : ∀ a, args = .obj a → (defaults.read store a).owns "hasOwnProperty" = false)
    (hdefs : (defaults.read store d).owns "hasOwnProperty" = false) :
    ((∃ s e, defaults.run store args d croak = (s, .error e)) ↔
      (croak = true ∧ ∃ a k, args = .obj a ∧ (defaults.read store a).owns k = true ∧
        (defaults.read store d).owns k = false)) ∧
    (∀ s e, defaults.run store args d croak = (s, .error e) →
      e.defs = d ∧ ∃ a k, args = .obj a ∧ (defaults.read store a).owns k = true ∧
        (defaults.read store d).owns k = false ∧
        e.msg = "`" ++ k ++ "` is not a supported option") ∧
    (∃ s r, defaults.run store args d false = (s, .ok r)) ∧
    (∃ s r, defaults.run store .istrue d croak = (s, .ok r)) ∧
    (∃ s r, defaults.run store .falsy d croak = (s, .ok r)) := by
  have herr : ∀ s e, defaults.run store args d croak = (s, .error e) →
      croak = true ∧ e.defs = d ∧ ∃ a k, args = .obj a ∧
        (defaults.read store a).owns k = true ∧ (defaults.read store d).owns k = false ∧
        e.msg = "`" ++ k ++ "` is not a supported option" := by
    intro s e he
    cases args with
    | istrue =>
      rw [run_istrue] at he
      exact absurd he (finish_ne_error _ _ _ _)
    | falsy =>
      rw [run_falsy] at he
      exact absurd he (finish_ne_error _ _ _ _)
    | obj a =>
      rw [run_obj] at he
      cases croak with
      | false =>
        rw [unsupported_lenient] at he
        exact absurd he (finish_ne_error _ _ _ _)
      | true =>
        rw [unsupported_plain _ _ (hargs a rfl) hdefs] at he
        cases hf : ((defaults.read store a).map Prod.fst).find? (fun i =>
            (defaults.read store a).owns i && !(defaults.read store d).owns i) with
        | none =>
          rw [hf] at he
          exact absurd he (finish_ne_error _ _ _ _)
        | some i =>
          rw [hf] at he
          simp only [Prod.mk.injEq, defaults.Outcome.error.injEq] at he
          obtain ⟨_, he⟩ := he
          subst he
          have := List.find?_some hf
          simp only [Bool.and_eq_true, Bool.not_eq_true'] at this
          exact ⟨rfl, rfl, a, i, rfl, this.1, this.2, rfl⟩
  refine ⟨⟨?_, ?_⟩, fun s e he => (herr s e he).2, run_lenient_returns store args d hargs hdefs,
    ?_, ?_⟩
  · rintro ⟨s, e, he⟩
    obtain ⟨hc, _, a, k, ha, h1, h2, _⟩ := herr s e he
    exact ⟨hc, a, k, ha, h1, h2⟩
  · rintro ⟨hc, a, k, rfl, h1, h2⟩
    subst hc
    rw [run_obj, unsupported_plain _ _ (hargs a rfl) hdefs]
    cases hf : ((defaults.read store a).map Prod.fst).find? (fun i =>
        (defaults.read store a).owns i && !(defaults.read store d).owns i) with
    | some i => exact ⟨_, _, rfl⟩
    | none =>
      rw [List.find?_eq_none] at hf
      have := hf k ((owns_iff_mem _ k).1 h1)
      simp [h1, h2] at this
  · obtain ⟨s, h, _⟩ := (run_new_returns store d croak hdefs).1
    exact ⟨s, _, h⟩
  · obtain ⟨s, h, _⟩ := (run_new_returns store d croak hdefs).2
    exact ⟨s, _, h⟩

/-- Witness for `defaults_raises`: the unknown option `foo` in strict mode, in lenient
mode, and a call with `args === true`. -/
theorem defaults_raises_witness :
    defaults.run Sample.options (.obj 0) 1 true =
      (Sample.options, .error ⟨"`foo` is not a supported option", 1⟩) ∧
    defaults.run Sample.options (.obj 0) 1 false =
      ([[("warnings", .number 1), ("foo", .number 2), ("mangle", .number 5)],
        [("warnings", .number 0), ("mangle", .number 5)]], .ok 0) ∧
    defaults.run Sample.options .istrue 1 true =
      (Sample.options ++ [[("warnings", .number 0), ("mangle", .number 5)]], .ok 2) ∧
    ((∃ s e, defaults.run Sample.options (.obj 0) 1 true = (s, .error e)) ↔
      (true = true ∧ ∃ a k, defaults.Ref.obj 0 = .obj a ∧
        (defaults.read Sample.options a).owns k = true ∧
        (defaults.read Sample.options 1).owns k = false)) :=
  ⟨by decide, by decide, by decide,
    (defaults_raises Sample.options (.obj 0) 1 true (fun a ha => by cases ha; decide)
      (by decide)).1⟩

/-- Counterexample to claim C30 as stated. The options `{hasOwnProperty: 1}` have an own
key that is no own key of the defaults `{a: 0}`, and the strict call throws no
`DefaultsError`: the call `ret.hasOwnProperty(i)` finds the number `1` and throws a
`TypeError`. The lenient call throws the same `TypeError`, from
`args.hasOwnProperty(i)`. With the defaults `{hasOwnProperty: 1}` the strict call for the
options `{b: 1}`, which have an own key that the defaults lack, throws a `TypeError` from
`defs.hasOwnProperty(i)`, and so does the call with `args === true`. -/
theorem defaults_hasOwnProperty_option :
    (defaults.read Sample.numbered 0).owns "hasOwnProperty" = true ∧
    (defaults.read Sample.numbered 1).owns "hasOwnProperty" = false ∧
    defaults.run Sample.numbered (.obj 0) 1 true = (Sample.numbered, .typeError) ∧
    defaults.run Sample.numbered (.obj 0) 1 false = (Sample.numbered, .typeError) ∧
    (defaults.read Sample.numberedDefs 0).owns "b" = true ∧
    (defaults.read Sample.numberedDefs 1).owns "b" = false ∧
    defaults.run Sample.numberedDefs (.obj 0) 1 true = (Sample.numberedDefs, .typeError) ∧
    defaults.run Sample.numberedDefs .istrue 1 false =
      (Sample.numberedDefs ++ [[]], .typeError) := by
  decide
theorem match_eq_ite {V : Type} (x y : Option V) :
    (match x with
      | some v => some v
      | none => y) = if x.isSome then x else y := by
  cases x <;> rfl

theorem finish_ok {V : Type} (p : List (Obj V) × Bool) (r r1 : Nat) (s1 : List (Obj V))
    (h : (match p with
      | (s, true) => (s, defaults.Outcome.ok r)
      | (s, false) => (s, defaults.Outcome.typeError)) = (s1, .ok r1)) :
    p = (s1, true) ∧ r1 = r := by
  obtain ⟨s, b⟩ := p
  cases b with
  | false => simp at h
  | true =>
    simp only [Prod.mk.injEq, defaults.Outcome.ok.injEq] at h
    exact ⟨by rw [h.1], h.2.symm⟩

/-- The result of a call whose `args` is `true` or absent is a new object with the keys
and values of `defs`. -/
theorem fillLoop_copy {V : Type} [Values V] (args : Option Nat) (store : List (Obj V))
    (d : Nat) (hd : d < store.length)
    (hargs : ∀ a, args = some a → a = store.length)
    (hnd : ((defaults.read store d).map Prod.fst).Nodup)
    (hdefs : (defaults.read store d).owns "hasOwnProperty" = false) :
    defaults.read (defaults.fillLoop args store.length d
      ((defaults.read (store ++ [[]]) d).map Prod.fst) (store ++ [[]])).1 store.length =
      defaults.read store d := by
  have hD : defaults.read (store ++ [[]]) d = defaults.read store d :=
    read_append_left store [] d hd
  have := fillLoop_append args store.length d (by omega) hargs (defaults.read store d) hnd
    (keys_plain _ hdefs) (store ++ [[]]) (by simp) (by rw [hD]; exact hdefs)
    (by rw [read_append_new]; rfl)
    (fun e he => by rw [hD]; exact lookup_of_mem_nodup _ hnd e he)
    (fun e _ => by rw [read_append_new]; rfl)
  rw [hD, this, read_append_new]
  rfl

/-- Claim C31, as amended. When `defaults(args, defs, croak)` returns, for `args` and
`defs` that have no own property named `hasOwnProperty`: every own key of `defs` maps in
the result to `args[k]` if `args` has the own key `k` and to `defs[k]` otherwise; every
own key of `args` keeps its value (in strict mode `args` has no key that `defs` lacks);
the result has no other key; for `args` equal to `true` or absent the result is a new
object with the keys and values of `defs`; `defs` is unchanged; and a lenient call always
returns. -/
theorem defaults_complete {V : Type} [Values V] (store : List (Obj V))
    (args : defaults.Ref) (d : Nat) (croak : Bool) (hd : d < store.length)
    (ha : ∀ a, args = .obj a → a < store.length)
    (hnd : ((defaults.read store d).map Prod.fst).Nodup)
    (hargs : ∀ a, args = .obj a → (defaults.read store a).owns "hasOwnProperty" = false)
    (hdefs : (defaults.read store d).owns "hasOwnProperty" = false)
    (store1 : List (Obj V)) (r : Nat)
    (h : defaults.run store args d croak = (store1, .ok r)) :
    (∀ k, (defaults.read store d).owns k = true →
      (defaults.read store1 r).lookup k =
        match args with
        | .obj a =>
          if (defaults.read store a).owns k then (defaults.read store a).lookup k
          else (defaults.read store d).lookup k
        | _ => (defaults.read store d).lookup k) ∧
    (∀ a, args = .obj a → r = a ∧
      (∀ k, (defaults.read store a).owns k = true →
        (defaults.read store1 r).lookup k = (defaults.read store a).lookup k) ∧
      (croak = true → ∀ k, (defaults.read store a).owns k = true →
        (defaults.read store d).owns k = true)) ∧
    (∀ k, (defaults.read store1 r).owns k = true →
      (defaults.read store d).owns k = true ∨
      ∃ a, args = .obj a ∧ (defaults.read store a).owns k = true) ∧
    (args = .istrue ∨ args = .falsy →
      r = store.length ∧ r ≠ d ∧ defaults.read store1 r = defaults.read store d) ∧
    defaults.read store1 d = defaults.read store d ∧
    (∃ s2 r2, defaults.run store args d false = (s2, .ok r2)) := by
  have hlenient := run_lenient_returns store args d hargs hdefs
  have hnew : ∀ (o : Option Nat), (∀ a, o = some a → a = store.length) →
      (match defaults.fillLoop o store.length d
          ((defaults.read (store ++ [[]]) d).map Prod.fst) (store ++ [[]]) with
        | (s, true) => (s, defaults.Outcome.ok store.length)
        | (s, false) => (s, defaults.Outcome.typeError)) = (store1, .ok r) →
      r = store.length ∧ r ≠ d ∧ defaults.read store1 r = defaults.read store d ∧
        defaults.read store1 d = defaults.read store d := by
    intro o ho hf
    obtain ⟨hp, hr⟩ := finish_ok _ _ _ _ hf
    subst hr
    have hcopy := fillLoop_copy o store d hd ho hnd hdefs
    rw [hp] at hcopy
    have hd2 := read_append_nil store d _ hdefs
    obtain ⟨s, h1, _, h3⟩ := fillLoop_plain o store.length d _ (keys_plain _ hd2)
      (store ++ [[]]) hd2 (fun a e => by
        rw [ho a e, read_append_new]
        rfl)
    rw [hp] at h1
    simp only [Prod.mk.injEq, and_true] at h1
    subst h1
    exact ⟨rfl, by omega, hcopy, by rw [h3 d (by omega), read_append_left store [] d hd]⟩
  cases args with
  | obj a =>
    have hpa := hargs a rfl
    have hal := ha a rfl
    rw [run_obj] at h
    cases hu : defaults.unsupported (defaults.read store a) (defaults.read store d) croak with
    | none => rw [hu] at h; simp at h
    | some o =>
      cases o with
      | some i => rw [hu] at h; simp at h
      | none =>
        rw [hu] at h
        simp only at h
        obtain ⟨hp, hr⟩ := finish_ok _ _ _ _ h
        have hr2 := hr.symm
        subst hr2
        have hstrict : croak = true → ∀ k, (defaults.read store a).owns k = true →
            (defaults.read store d).owns k = true := by
          intro hc k hk
          subst hc
          rw [unsupported_plain _ _ hpa hdefs] at hu
          simp only [Option.some.injEq, List.find?_eq_none] at hu
          have := hu k ((owns_iff_mem _ k).1 hk)
          simpa [hk] using this
        by_cases had : a = d
        · subst had
          rw [fillLoop_same a _ store hdefs] at hp
          simp only [Prod.mk.injEq, and_true] at hp
          subst hp
          refine ⟨?_, ?_, ?_, ?_, rfl, hlenient⟩
          · intro k hk
            simp only [hk, if_true]
          · intro a2 ha2
            cases ha2
            exact ⟨rfl, fun _ _ => rfl, hstrict⟩
          · intro k hk
            exact Or.inl hk
          · rintro (h0 | h0) <;> cases h0
        · obtain ⟨s, h1, _, h3⟩ := fillLoop_plain (some a) a d _ (keys_plain _ hdefs) store
            hdefs (fun b e => by cases e; exact hpa)
          have hlook : ∀ k, (defaults.read store1 a).lookup k =
              match (defaults.read store a).lookup k with
              | some v => some v
              | none =>
                if k ∈ (defaults.read store d).map Prod.fst then (defaults.read store d).lookup k
                else none := by
            intro k
            have := fillLoop_lookup a d had _ (keys_plain _ hdefs) k store hal hdefs hpa
            rw [hp] at this
            exact this
          rw [hp] at h1
          simp only [Prod.mk.injEq, and_true] at h1
          subst h1
          refine ⟨?_, ?_, ?_, ?_, h3 d (fun e => had e.symm), hlenient⟩
          · intro k hk
            rw [hlook k, if_pos ((owns_iff_mem _ k).1 hk)]
            simp only [Obj.owns]
            exact match_eq_ite _ _
          · intro a2 ha2
            cases ha2
            refine ⟨rfl, ?_, hstrict⟩
            intro k hk
            rw [hlook k]
            simp only [Obj.owns] at hk
            cases hl : (defaults.read store a).lookup k with
            | none => rw [hl] at hk; cases hk
            | some v => rfl
          · intro k hk
            simp only [Obj.owns, hlook k] at hk ⊢
            cases hl : (defaults.read store a).lookup k with
            | none =>
              rw [hl] at hk
              simp only at hk
              split at hk
              · exact Or.inl hk
              · cases hk
            | some v => exact Or.inr ⟨a, rfl, by rw [hl]; rfl⟩
          · rintro (h0 | h0) <;> cases h0
  | istrue =>
    rw [run_istrue] at h
    obtain ⟨h1, h2, h3, h4⟩ := hnew (some store.length) (fun a e => by cases e; rfl) h
    refine ⟨?_, ?_, ?_, fun _ => ⟨h1, h2, h3⟩, h4, hlenient⟩
    · intro k _
      rw [h3]
    · intro a ha
      cases ha
    · intro k hk
      rw [h3] at hk
      exact Or.inl hk
  | falsy =>
    rw [run_falsy] at h
    obtain ⟨h1, h2, h3, h4⟩ := hnew none (fun a e => by cases e) h
    refine ⟨?_, ?_, ?_, fun _ => ⟨h1, h2, h3⟩, h4, hlenient⟩
    · intro k _
      rw [h3]
    · intro a ha
      cases ha
    · intro k hk
      rw [h3] at hk
      exact Or.inl hk

/-- Witness for `defaults_complete`: a lenient merge of `{warnings: 1, foo: 2}` into the
defaults `{warnings: 0, mangle: 5}`, and a call with `args === true`. -/
theorem defaults_complete_witness :
    defaults.run Sample.options (.obj 0) 1 false =
      ([[("warnings", .number 1), ("foo", .number 2), ("mangle", .number 5)],
        [("warnings", .number 0), ("mangle", .number 5)]], .ok 0) ∧
    defaults.run Sample.options .istrue 1 true =
      (Sample.options ++ [[("warnings", .number 0), ("mangle", .number 5)]], .ok 2) ∧
    (∀ k, (defaults.read Sample.options 1).owns k = true →
      (defaults.read
          [[("warnings", .number 1), ("foo", .number 2), ("mangle", .number 5)],
            [("warnings", .number 0), ("mangle", .number 5)]]
          0).lookup k =
        if (defaults.read Sample.options 0).owns k then
          (defaults.read Sample.options 0).lookup k
        else (defaults.read Sample.options 1).lookup k) :=
  ⟨by decide, by decide,
    (defaults_complete Sample.options (.obj 0) 1 false (by decide)
      (fun a ha => by cases ha; decide) (by decide) (fun a ha => by cases ha; decide)
      (by decide) _ 0 (by decide)).1⟩

/-- Counterexample to claim C31 as stated. The options
`{a: 1, hasOwnProperty: function () { return false; }}` have the own key `a`, the
lenient call with the defaults `{a: 0}` returns, and in the result `a` is the default
`0` and not the value `1` of the options: `args.hasOwnProperty("a")` is the call of the
function of the options. With the defaults
`{a: 0, hasOwnProperty: function () { return false; }}` the lenient call for the options
`{}` returns them as they are, without the own key `a` of the defaults:
`defs.hasOwnProperty("a")` is the call of the function of the defaults. -/
theorem defaults_hasOwnProperty_denies :
    (defaults.read Sample.denying 0).lookup "a" = some (.number 1) ∧
    defaults.run Sample.denying (.obj 0) 1 false =
      ([[("a", .number 0), ("hasOwnProperty", .constant false)], [("a", .number 0)]],
        .ok 0) ∧
    (defaults.read (defaults.run Sample.denying (.obj 0) 1 false).1 0).lookup "a" ≠
      (defaults.read Sample.denying 0).lookup "a" ∧
    (defaults.read Sample.denyingDefs 1).owns "a" = true ∧
    defaults.run Sample.denyingDefs (.obj 0) 1 false = (Sample.denyingDefs, .ok 0) ∧
    (defaults.read (defaults.run Sample.denyingDefs (.obj 0) 1 false).1 0).lookup "a" =
      none := by
  decide

/-- Claim C40. When `defaults(args, defs, croak)` throws a `DefaultsError`, which happens
only in strict mode and only for an object `args`, the store is the one before the call:
`args` has the keys and values it had and `defs` is unchanged, since the strict check
runs before any write. The key named by the error is an own key of `args` for which
`args.hasOwnProperty` answered `true` and `defs.hasOwnProperty` answered `false`, so a
key that `defs` lacks when `defs` has no own property `hasOwnProperty`. -/
theorem defaults_atomic {V : Type} [Values V] (store : List (Obj V)) (args : defaults.Ref)
    (defs : Nat) (croak : Bool) (store1 : List (Obj V)) (e : defaults.Thrown)
    (h : defaults.run store args defs croak = (store1, .error e)) :
    store1 = store ∧ e.defs = defs ∧ croak = true ∧
    ∃ a, args = .obj a ∧ defaults.read store1 a = defaults.read store a ∧
      defaults.read store1 defs = defaults.read store defs ∧
      ∃ k, (defaults.read store a).owns k = true ∧
        (defaults.read store a).hasOwnProperty k = some true ∧
        (defaults.read store defs).hasOwnProperty k = some false ∧
        ((defaults.read store defs).owns "hasOwnProperty" = false →
          (defaults.read store defs).owns k = false) ∧
        e.msg = "`" ++ k ++ "` is not a supported option" := by
  cases args with
  | istrue =>
    rw [run_istrue] at h
    exact absurd h (finish_ne_error _ _ _ _)
  | falsy =>
    rw [run_falsy] at h
    exact absurd h (finish_ne_error _ _ _ _)
  | obj a =>
    rw [run_obj] at h
    cases hu : defaults.unsupported (defaults.read store a) (defaults.read store defs)
        croak with
    | none => rw [hu] at h; simp at h
    | some o =>
      cases o with
      | none =>
        rw [hu] at h
        exact absurd h (finish_ne_error _ _ _ _)
      | some i =>
        rw [hu] at h
        simp only [Prod.mk.injEq, defaults.Outcome.error.injEq] at h
        obtain ⟨hs, he⟩ := h
        subst hs he
        cases croak with
        | false => rw [unsupported_lenient] at hu; cases hu
        | true =>
          simp only [defaults.unsupported, if_true] at hu
          obtain ⟨hm, h1, h2⟩ := check_some _ _ _ _ hu
          refine ⟨rfl, rfl, rfl, a, rfl, rfl, rfl, i, (owns_iff_mem _ i).2 hm, h1, h2, ?_, rfl⟩
          intro hp
          rw [hasOwnProperty_plain _ hp] at h2
          simpa using h2

/-- Witness for `defaults_atomic`: the strict merge of `{warnings: 1, foo: 2}` throws and
leaves both objects as they were, whereas the lenient merge writes `mangle` into `args`. -/
theorem defaults_atomic_witness :
    defaults.run Sample.options (.obj 0) 1 true =
      (Sample.options, .error ⟨"`foo` is not a supported option", 1⟩) ∧
    (defaults.run Sample.options (.obj 0) 1 false).1 ≠ Sample.options ∧
    ∃ a, defaults.Ref.obj 0 = .obj a ∧
      defaults.read Sample.options a = defaults.read Sample.options a ∧
      defaults.read Sample.options 1 = defaults.read Sample.options 1 ∧
      ∃ k, (defaults.read Sample.options a).owns k = true ∧
        (defaults.read Sample.options a).hasOwnProperty k = some true ∧
        (defaults.read Sample.options 1).hasOwnProperty k = some false ∧
        ((defaults.read Sample.options 1).owns "hasOwnProperty" = false →
          (defaults.read Sample.options 1).owns k = false) ∧
        (defaults.Thrown.mk "`foo` is not a supported option" 1).msg =
          "`" ++ k ++ "` is not a supported option" :=
  ⟨by decide, by decide,
    (defaults_atomic Sample.options (.obj 0) 1 true Sample.options
      ⟨"`foo` is not a supported option", 1⟩ (by decide)).2.2.2⟩

end UglifyJS
